import Mathlib

/-!
# Verification of the `imap-utils` synchronization reconciler

Shallow embedding of `src/imaputils.py` (`backup_imap` and its helpers
`gen_filename`, `create_dir_if_not_exist`, `fix_cte`,
`move_deleted_messages`), together with proofs about the claims of the
specification.

Modelling conventions:
* Python strings are Lean `String`s; the character-level operations
  (`str.replace` with one-character patterns, `str.split`, `re.sub` for the
  one fixed pattern the code uses, `str.strip`) are implemented explicitly
  over `List Char` so that everything reduces in the kernel.
* `email.utils.parsedate_to_datetime` is an external stdlib capability; it is
  modelled as a parameter `pd : String → Option DateTime` (in the code a
  parse failure raises, modelled by `none`).
* The filesystem is an explicit tree of named entries; `os.path` operations
  are mirrored both at the string level (for the path-derivation claims) and
  at the path-component level (for the run-level claims).
* Exceptions are modelled with `Except`/`Option`; an uncaught exception in
  `backup_imap` aborts the run, carrying the filesystem state at the abort.
-/

namespace ImapUtils

/-! ## Character-level string helpers (Python `str` operations) -/

/-- Python `s.replace(c, r)` for a one-character pattern `c`:
every occurrence of `c` is replaced by the string `r`. -/
def replaceCharList (c : Char) (r : List Char) : List Char → List Char
  | [] => []
  | a :: rest => if a = c then r ++ replaceCharList c r rest
                 else a :: replaceCharList c r rest

/-- Python `s.replace(c, r)` on `String`s, one-character pattern. -/
def strReplaceChar (s : String) (c : Char) (r : String) : String :=
  ⟨replaceCharList c r.data s.data⟩

/-- Python `s.split(c)` for a one-character separator: the list of
(possibly empty) chunks between occurrences of `c`. -/
def splitOnCharList (c : Char) : List Char → List (List Char)
  | [] => [[]]
  | a :: rest =>
    match splitOnCharList c rest with
    | [] => [[]]
    | grp :: grps => if a = c then [] :: grp :: grps else (a :: grp) :: grps

/-- Python `s.split(c)` on `String`s. -/
def strSplitOnChar (s : String) (c : Char) : List String :=
  (splitOnCharList c s.data).map fun l => ⟨l⟩

/-! ## Timestamps

`email.utils.parsedate_to_datetime` returns an aware `datetime`; the code
only uses it through `strftime("%Y-%m-%d_%H.%M_utc%z")` and
`strftime("%Y")`, so the model keeps exactly the fields those formats
read.  The UTC offset is kept in minutes, as `parsedate_to_datetime`
produces whole-minute offsets. -/

structure DateTime where
  year : Nat
  month : Nat
  day : Nat
  hour : Nat
  minute : Nat
  /-- UTC offset in minutes (may be negative). -/
  tzMinutes : Int
deriving DecidableEq, Repr

/-- Zero-padded two-digit field, as `strftime` renders `%m`, `%d`, `%H`,
`%M` and the halves of `%z`. -/
def pad2 (n : Nat) : String :=
  if n < 10 then "0" ++ toString n else toString n

/-- `strftime("%z")` on an aware datetime: sign, then hours and minutes of
the UTC offset, two digits each. -/
def tzString (m : Int) : String :=
  (if m < 0 then "-" else "+") ++ pad2 (m.natAbs / 60) ++ pad2 (m.natAbs % 60)

/-- `strftime("%Y")`: the year, unpadded digits (years of real messages are
four digits). -/
def yearString (dt : DateTime) : String := toString dt.year

/-- `dateObj.strftime("%Y-%m-%d_%H.%M_utc%z")` from `gen_filename`. -/
def fulldateString (dt : DateTime) : String :=
  yearString dt ++ "-" ++ pad2 dt.month ++ "-" ++ pad2 dt.day ++ "_" ++
    pad2 dt.hour ++ "." ++ pad2 dt.minute ++ "_utc" ++ tzString dt.tzMinutes

/-! ## The message metadata record

`scan_imap` returns, per message, a dictionary with keys `Folder`, `Id`,
`From`, `To`, `Subject`, `Date`; `gen_filename` and `backup_imap` read only
`Folder`, `Id` and `Date`, so the model keeps those. -/

structure MailDict where
  Folder : String
  Id : String
  Date : String
deriving DecidableEq, Repr

/-- The `Id` sanitization chain of `gen_filename`:
`mail_dict['Id'].replace('<', '').replace('>', '').replace('%', '')
.replace('/', '-').replace(' ', '')`.  Note `/` is replaced by `-`,
not removed. -/
def sanitizeId (s : String) : String :=
  strReplaceChar (strReplaceChar (strReplaceChar (strReplaceChar
    (strReplaceChar s '<' "") '>' "") '%' "") '/' "-") ' ' ""

/-- Whether a string starts with `/` (kernel-reducible `s.startswith('/')`). -/
def headIsSlash (s : String) : Bool := s.data.head? = some '/'

/-- Whether a string ends with `/` (kernel-reducible `s.endswith('/')`). -/
def lastIsSlash (s : String) : Bool := s.data.getLast? = some '/'

/-- `os.path.join` for two segments (posixpath semantics restricted to the
cases the code produces). -/
def joinPath (a b : String) : String :=
  if headIsSlash b then b
  else if a = "" then b
  else if lastIsSlash a then a ++ b
  else a ++ "/" ++ b

/-- The last path segment built by `gen_filename`:
`fulldate + "_" + Id + '.eml'`. -/
def baseName (dt : DateTime) (id : String) : String :=
  fulldateString dt ++ "_" ++ sanitizeId id ++ ".eml"

/-- `gen_filename(mail_dict)` of `backup_imap`, string level:
`os.path.join(Folder, year, fulldate + "_" + Id + '.eml')` with
`Folder = mail_dict['Folder'].replace(' ', '_')`.  `none` models the
exception raised when `parsedate_to_datetime` cannot parse `Date`. -/
def gen_filename (pd : String → Option DateTime) (m : MailDict) : Option String :=
  (pd m.Date).map fun dateObj =>
    joinPath (joinPath (strReplaceChar m.Folder ' ' "_") (yearString dateObj))
      (baseName dateObj m.Id)

/-- The derived path as a list of path components, the view of
`gen_filename`'s output used by the filesystem model: the (space
substituted) folder split at `/`, then the year directory, then the file
name.  The year and base-name segments never contain `/`, so this agrees
with splitting the string `gen_filename` produces. -/
def genParts (pd : String → Option DateTime) (m : MailDict) : Option (List String) :=
  (pd m.Date).map fun dateObj =>
    strSplitOnChar (strReplaceChar m.Folder ' ' "_") '/' ++
      [yearString dateObj, baseName dateObj m.Id]

/-- `p` is an initial segment of `q` (the path `p` is `q` or an ancestor
of `q`).  Stated via `take` so that it is decidable by evaluation. -/
def startsSeg (p q : List String) : Prop := p = q.take p.length

instance : DecidableRel startsSeg := fun p q =>
  inferInstanceAs (Decidable (p = q.take p.length))

/-! ## The filesystem model

A directory's contents are a finite sequence of named entries, each a file
(with contents) or a subdirectory.  The sequence is fused into the
inductive so that all operations are plainly structurally recursive; the
order models the order `os.listdir` happens to return.  Paths are lists of
components, relative to the backup root; the string path used by the code
is the components joined with `/` after the backup-root prefix, and
`os.path.dirname` is `List.dropLast`. -/

inductive FS where
  /-- An empty sequence of directory entries. -/
  | nil : FS
  /-- A plain file entry followed by the remaining entries. -/
  | file (name content : String) (rest : FS) : FS
  /-- A subdirectory entry followed by the remaining entries. -/
  | dir (name : String) (children : FS) (rest : FS) : FS
deriving DecidableEq, Repr

/-- What a directory entry resolves to. -/
inductive EntryView where
  | file (content : String) : EntryView
  | dir (children : FS) : EntryView
deriving DecidableEq, Repr

namespace FS

/-- The first entry with the given name, as the OS name lookup. -/
def lookup : FS → String → Option EntryView
  | .nil, _ => none
  | .file n c rest, m => if n = m then some (.file c) else lookup rest m
  | .dir n ch rest, m => if n = m then some (.dir ch) else lookup rest m

/-- Resolve a relative path; `[]` is the directory itself. -/
def resolve : FS → List String → Option EntryView
  | fs, [] => some (.dir fs)
  | fs, n :: rest =>
    match lookup fs n with
    | none => none
    | some (.file c) => if rest.isEmpty then some (.file c) else none
    | some (.dir ch) => resolve ch rest

/-- `os.path.exists` relative to the root. -/
def pathExists (fs : FS) (p : List String) : Bool :=
  (resolve fs p).isSome

/-- Whether a directory is at the path. -/
def isDirAt (fs : FS) (p : List String) : Bool :=
  match resolve fs p with
  | some (.dir _) => true
  | _ => false

/-- The contents of the file at the path, if a file is there. -/
def getFileAt (fs : FS) (p : List String) : Option String :=
  match resolve fs p with
  | some (.file c) => some c
  | _ => none

/-- Append a fresh empty subdirectory entry at the end of the listing. -/
def appendDir (fs : FS) (n : String) (ch : FS) : FS :=
  match fs with
  | .nil => .dir n ch .nil
  | .file m c rest => .file m c (appendDir rest n ch)
  | .dir m ch' rest => .dir m ch' (appendDir rest n ch)

/-- Append a fresh file entry at the end of the listing. -/
def appendFile (fs : FS) (n c : String) : FS :=
  match fs with
  | .nil => .file n c .nil
  | .file m c' rest => .file m c' (appendFile rest n c)
  | .dir m ch rest => .dir m ch (appendFile rest n c)

/-- Replace the children of the first directory entry with the given name. -/
def updateChildDir (fs : FS) (n : String) (ch' : FS) : FS :=
  match fs with
  | .nil => .nil
  | .file m c rest => if m = n then .file m c rest
                      else .file m c (updateChildDir rest n ch')
  | .dir m ch rest => if m = n then .dir m ch' rest
                      else .dir m ch (updateChildDir rest n ch')

/-- Replace the contents of the first file entry with the given name. -/
def overwriteFile (fs : FS) (n c : String) : FS :=
  match fs with
  | .nil => .nil
  | .file m c' rest => if m = n then .file m c rest
                       else .file m c' (overwriteFile rest n c)
  | .dir m ch rest => if m = n then .dir m ch rest
                      else .dir m ch (overwriteFile rest n c)

/-- Remove the first entry with the given name. -/
def dropEntry (fs : FS) (n : String) : FS :=
  match fs with
  | .nil => .nil
  | .file m c rest => if m = n then rest else .file m c (dropEntry rest n)
  | .dir m ch rest => if m = n then rest else .dir m ch (dropEntry rest n)

/-- `os.makedirs`: create the chain of directories named by the path,
reusing existing directories; `none` models the `OSError` raised when a
path component exists as a plain file. -/
def makedirs : FS → List String → Option FS
  | fs, [] => some fs
  | fs, n :: rest =>
    match lookup fs n with
    | some (.file _) => none
    | some (.dir ch) => (makedirs ch rest).map (updateChildDir fs n)
    | none => (makedirs .nil rest).map (appendDir fs n)

/-- `create_dir_if_not_exist(folder)` of `backup_imap`:
`if not os.path.exists(folder): os.makedirs(folder)`.  Note that an
existing entry of any kind (even a plain file) suppresses creation. -/
def create_dir_if_not_exist (fs : FS) (p : List String) : Option FS :=
  if pathExists fs p then some fs else makedirs fs p

/-- `open(path, 'w')` + write: create or truncate the file at the path.
`none` models the `OSError` when the parent chain is not a directory chain
or the path itself is a directory. -/
def setFile : FS → List String → String → Option FS
  | _, [], _ => none
  | fs, [n], c =>
    match lookup fs n with
    | some (.dir _) => none
    | some (.file _) => some (overwriteFile fs n c)
    | none => some (appendFile fs n c)
  | fs, n :: rest, c =>
    match lookup fs n with
    | some (.dir ch) => (setFile ch rest c).map (updateChildDir fs n)
    | _ => none

/-- Remove the entry at the path (used for the source of `os.rename`). -/
def removeEntry : FS → List String → Option FS
  | _, [] => none
  | fs, [n] =>
    if (lookup fs n).isSome then some (dropEntry fs n) else none
  | fs, n :: rest =>
    match lookup fs n with
    | some (.dir ch) => (removeEntry ch rest).map (updateChildDir fs n)
    | _ => none

/-- `os.rename(src, dst)` for a plain file: the file disappears from `src`
and appears at `dst`, silently replacing a plain file at `dst`. -/
def renameFile (fs : FS) (src dst : List String) : Option FS :=
  match getFileAt fs src with
  | none => none
  | some c =>
    match removeEntry fs src with
    | none => none
    | some fs' => setFile fs' dst c

/-- The total number of plain files anywhere in the tree. -/
def countFiles : FS → Nat
  | .nil => 0
  | .file _ _ rest => countFiles rest + 1
  | .dir _ ch rest => countFiles ch + countFiles rest

/-- Every directory in the tree lists pairwise-distinct entry names
(true of any real directory tree). -/
def nodupNames : FS → Bool
  | .nil => true
  | .file n _ rest => (lookup rest n).isNone && nodupNames rest
  | .dir n ch rest => (lookup rest n).isNone && nodupNames ch && nodupNames rest

end FS

/-! ## The message model and serialization repair

`email.message.Message` values are modelled as trees: a part has a header
list and either a payload (leaf) or sub-parts (`is_multipart()`).  What the
reconciler needs from serialization is only *whether* `str(message)` /
`gen.flatten(message)` raises, and with which exception; the two payload
properties that produce the exceptions `fix_cte` inspects are abstracted
into two boolean fields of a leaf:

* `needsCte`: the payload makes serialization raise
  `KeyError('content-transfer-encoding')` as long as the part carries no
  `content-transfer-encoding` header;
* `unencodable`: the payload has a character that is not encodable under a
  declared charset, making serialization raise
  `UnicodeEncodeError(..., 'character maps to <undefined>')` as long as the
  part's `content-type` header declares a `charset="..."` parameter.

Header access in `email.message.Message` is case-insensitive,
`__setitem__` appends, and `__delitem__` removes all occurrences. -/

/-- ASCII lower-casing of one character (header names are ASCII). -/
def lowerChar (c : Char) : Char :=
  if 65 ≤ c.toNat ∧ c.toNat ≤ 90 then Char.ofNat (c.toNat + 32) else c

/-- Case-insensitive header-name comparison. -/
def keyEq (a b : String) : Bool :=
  a.data.map lowerChar = b.data.map lowerChar

/-- A header list: name and value; `none` is Python's `None` value
(as in `message['content-transfer-encoding'] = None`). -/
abbrev Headers := List (String × Option String)

/-- `message[n]`-style lookup: the first header whose name matches. -/
def hdrGet : Headers → String → Option (Option String)
  | [], _ => none
  | (k, v) :: rest, n => if keyEq k n then some v else hdrGet rest n

/-- `n in message`. -/
def hdrContains (hs : Headers) (n : String) : Bool :=
  (hdrGet hs n).isSome

/-- `del message[n]`: removes all headers with the name. -/
def hdrDelAll (hs : Headers) (n : String) : Headers :=
  hs.filter fun p => !keyEq p.1 n

/-- `message[n] = v`: appends a header. -/
def hdrAdd (hs : Headers) (n : String) (v : Option String) : Headers :=
  hs ++ [(n, v)]

/-- The literal pattern prefix of `re.compile(r'charset="[^"]*"')`. -/
def charsetPat : List Char := "charset=\"".data

/-- Whether the first list is a prefix of the second. -/
def startsWithList : List Char → List Char → Bool
  | [], _ => true
  | _ :: _, [] => false
  | p :: ps, c :: cs => p = c && startsWithList ps cs

/-- Drop characters up to and including the first `"`, the `[^"]*"` tail of
the charset pattern; `none` when no closing quote exists (no match). -/
def dropThroughQuote : List Char → Option (List Char)
  | [] => none
  | c :: rest => if c = '"' then some rest else dropThroughQuote rest

/-- One left-to-right pass of `re.sub(r'charset="[^"]*"', '', s)`: at each
position, if the pattern matches, the match is dropped and scanning resumes
after it.  The fuel argument (instantiated with the length of the list)
only forces structural recursion; every recursive call shrinks the list. -/
def subCharsetFuel : Nat → List Char → List Char
  | 0, l => l
  | _ + 1, [] => []
  | fuel + 1, c :: rest =>
    if startsWithList charsetPat (c :: rest) then
      match dropThroughQuote (List.drop 8 rest) with
      | some rem => subCharsetFuel fuel rem
      | none => c :: subCharsetFuel fuel rest
    else c :: subCharsetFuel fuel rest

/-- Python `s.strip()`'s whitespace set. -/
def isPySpace (c : Char) : Bool :=
  c = ' ' || c = '\t' || c = '\n' || c = '\r' || c.toNat = 11 || c.toNat = 12

/-- Python `s.strip()`. -/
def pyStrip (s : String) : String :=
  ⟨((s.data.dropWhile isPySpace).reverse.dropWhile isPySpace).reverse⟩

/-- `re.sub(r'charset="[^"]*"', r'', contentType).strip()` from `fix_cte`. -/
def stripCharset (s : String) : String :=
  pyStrip ⟨subCharsetFuel s.data.length s.data⟩

/-- Whether the pattern `charset="[^"]*"` occurs in the string. -/
def containsCharsetList : List Char → Bool
  | [] => false
  | c :: rest =>
    (startsWithList charsetPat (c :: rest) &&
      (dropThroughQuote (List.drop 8 rest)).isSome) ||
    containsCharsetList rest

/-- Whether the part's `content-type` header declares a charset. -/
def charsetDeclared (hs : Headers) : Bool :=
  match hdrGet hs "content-type" with
  | some (some ct) => containsCharsetList ct.data
  | _ => false

mutual
/-- An `email.message.Message`: headers plus payload or sub-parts. -/
inductive Mime where
  | leaf (headers : Headers) (needsCte unencodable : Bool) (body : String) : Mime
  | multi (headers : Headers) (parts : MimeSeq) : Mime
deriving DecidableEq

/-- The sub-part list of a multipart message. -/
inductive MimeSeq where
  | nil : MimeSeq
  | cons (m : Mime) (rest : MimeSeq) : MimeSeq
deriving DecidableEq
end

/-- The headers of a part. -/
def Mime.headers : Mime → Headers
  | .leaf hs _ _ _ => hs
  | .multi hs _ => hs

/-- The same part with its header list replaced. -/
def Mime.withHeaders : Mime → Headers → Mime
  | .leaf _ nc ue body, hs => .leaf hs nc ue body
  | .multi _ parts, hs => .multi hs parts

/-- The exceptions `gen.flatten` / `str(message)` can raise here, carrying
the argument `fix_cte` inspects (`err.args[0]` for `KeyError`,
`err.args[4]` for `UnicodeEncodeError`). -/
inductive SerErr where
  | keyError (arg0 : String) : SerErr
  | unicodeError (arg4 : String) : SerErr
deriving DecidableEq, Repr

/-- Abstract header rendering (the exact layout is irrelevant to the
reconciler; only injectivity-free concatenation is used). -/
def renderHeaders (hs : Headers) : String :=
  hs.foldr (fun p acc => p.1 ++ ": " ++ (p.2.getD "") ++ "\n" ++ acc) ""

mutual
/-- `str(message)` / `gen.flatten(message)`: serialize the tree, raising
per the two abstracted payload properties; a sub-part's exception
propagates out of the multipart serialization. -/
def serialize : Mime → Except SerErr String
  | .leaf hs nc ue body =>
    if nc && !(hdrContains hs "content-transfer-encoding") then
      .error (.keyError "content-transfer-encoding")
    else if ue && charsetDeclared hs then
      .error (.unicodeError "character maps to <undefined>")
    else .ok (renderHeaders hs ++ body)
  | .multi hs parts =>
    match serializeSeq parts with
    | .error e => .error e
    | .ok s => .ok (renderHeaders hs ++ s)

/-- Serialize sub-parts in order, first exception propagating. -/
def serializeSeq : MimeSeq → Except SerErr String
  | .nil => .ok ""
  | .cons m rest =>
    match serialize m with
    | .error e => .error e
    | .ok s =>
      match serializeSeq rest with
      | .error e => .error e
      | .ok s' => .ok (s ++ s')
end

/-- The non-recursive tail of `fix_cte` applied at one node: try
`str(message)`; on `KeyError('content-transfer-encoding')` add an
absent-value `content-transfer-encoding` header if the node has none; on
`UnicodeEncodeError(..., 'character maps to <undefined>')` replace the
`content-type` header by itself with the `charset="..."` parameter removed
(`del` then re-add, as the code does). -/
def fixTop (m : Mime) : Mime :=
  match serialize m with
  | .ok _ => m
  | .error (.keyError a) =>
    if a = "content-transfer-encoding" then
      if !(hdrContains m.headers "content-transfer-encoding") then
        m.withHeaders (hdrAdd m.headers "content-transfer-encoding" none)
      else m
    else m
  | .error (.unicodeError a4) =>
    if a4 = "character maps to <undefined>" then
      match hdrGet m.headers "content-type" with
      | some (some ct) =>
        m.withHeaders
          (hdrAdd (hdrDelAll m.headers "content-type") "content-type"
            (some (stripCharset ct)))
      | _ => m
    else m

mutual
/-- `fix_cte(message)`: recurse into the sub-parts of a multipart first,
then apply the one-node repair at the current node. -/
def fixCte : Mime → Mime
  | .leaf hs nc ue body => fixTop (.leaf hs nc ue body)
  | .multi hs parts => fixTop (.multi hs (fixCteSeq parts))

/-- `fix_cte` mapped over a sub-part list. -/
def fixCteSeq : MimeSeq → MimeSeq
  | .nil => .nil
  | .cons m rest => .cons (fixCte m) (fixCteSeq rest)
end

/-- The writer's serialization step of `backup_imap`:
`try: gen.flatten(message) except (KeyError, UnicodeEncodeError):
fix_cte(message); gen.flatten(message)` — on any of the two exception
kinds, repair once and retry exactly once; a second failure propagates. -/
def attemptFlatten (m : Mime) : Except SerErr String :=
  match serialize m with
  | .ok s => .ok s
  | .error _ => serialize (fixCte m)

/-! ## The quarantine sweep (`move_deleted_messages`)

The code walks `os.listdir(folder)`: entries named `deleted_folder` are
skipped outright; directories are swept recursively; a file whose full path
is in `paths_of_all_msg` counts as kept; any other file is moved into a
`deleted_folder` subdirectory of its parent (created on first use,
`os.rename` silently overwriting a file of the same base name).  Because
`os.listdir` is snapshotted before any move and moves only target the
(skipped) `deleted_folder` entry, the walk is modelled as one structural
pass that collects the files to move and installs them at the end.
`none` models the `OSError` when the parent already holds a plain *file*
named `deleted_folder` (`create_dir_if_not_exist` then skips creation and
`os.rename` into it fails), or when a moved file collides with a
*directory* inside the quarantine. -/

/-- Place the moved files into the listing of the quarantine directory, in
move order: a plain file of the same name is overwritten (last write wins),
a directory of the same name makes `os.rename` fail. -/
def placeAll : FS → List (String × String) → Option FS
  | fs, [] => some fs
  | fs, (n, c) :: rest =>
    match fs.lookup n with
    | some (.dir _) => none
    | some (.file _) => placeAll (fs.overwriteFile n c) rest
    | none => placeAll (fs.appendFile n c) rest

/-- Install the collected moved files of one directory into its
`deleted_folder` entry (creating it when absent). -/
def finalizeDel (del : String) (fs : FS) (mv : List (String × String)) : Option FS :=
  match mv with
  | [] => some fs
  | _ :: _ =>
    match fs.lookup del with
    | some (.file _) => none
    | some (.dir ch) => (placeAll ch mv).map (fs.updateChildDir del)
    | none => (placeAll .nil mv).map (fs.appendDir del)

/-- The walk over one directory's entries at absolute prefix `pre`:
returns the remaining entries (moved files removed, subdirectories fully
swept), the files to move here, and the kept/moved counts (including the
recursive sweeps). -/
def sweepAux (del : String) (live : List (List String)) (pre : List String) :
    FS → Option (FS × List (String × String) × Nat × Nat)
  | .nil => some (.nil, [], 0, 0)
  | .file n c rest =>
    match sweepAux del live pre rest with
    | none => none
    | some (rest', mv, k, d) =>
      if n = del then some (.file n c rest', mv, k, d)
      else if (pre ++ [n]) ∈ live then some (.file n c rest', mv, k + 1, d)
      else some (rest', (n, c) :: mv, k, d + 1)
  | .dir n ch rest =>
    match sweepAux del live pre rest with
    | none => none
    | some (rest', mv, k, d) =>
      if n = del then some (.dir n ch rest', mv, k, d)
      else
        match sweepAux del live (pre ++ [n]) ch with
        | none => none
        | some (ch', mv₁, k₁, d₁) =>
          match finalizeDel del ch' mv₁ with
          | none => none
          | some ch'' => some (.dir n ch'' rest', mv, k + k₁, d + d₁)

/-- `move_deleted_messages(folder)` on the directory at prefix `pre`:
the swept directory, plus its contribution to `msg_keeping` and
`msg_move_to_deleted`. -/
def sweepDir (del : String) (live : List (List String)) (pre : List String)
    (fs : FS) : Option (FS × Nat × Nat) :=
  match sweepAux del live pre fs with
  | none => none
  | some (fs', mv, k, d) =>
    match finalizeDel del fs' mv with
    | none => none
    | some fs'' => some (fs'', k, d)

/-! ## The reconciliation run (`backup_imap`) -/

/-- The path of `full_path + '~'`: the last component gets a `~`
appended. -/
def tildeOf : List String → List String
  | [] => []
  | [n] => [n ++ "~"]
  | n :: rest => n :: tildeOf rest

/-- The chain `os.path.dirname(path)`, iterated to its fixpoint, that
`backup_imap` adds to `paths_of_all_msg`: all proper prefixes of the path
(the root itself included), here listed as `take` of every length below the
path's. -/
def dirnameChain (p : List String) : List (List String) :=
  (List.range p.length).reverse.map fun k => p.take k

/-- The update of `paths_of_all_msg` with all parent directories of its
members (membership-relevant contents; the Python value is a set). -/
def augment (paths : List (List String)) : List (List String) :=
  paths ++ paths.flatMap dirnameChain

/-- A full message as returned by the per-message
`scan_imap(..., return_only_headers=False, mailbox_name=msg['Folder'])`:
header fields plus the parsed message. -/
structure FullMsg where
  hdr : MailDict
  message : Mime

/-- The in-loop state of `backup_imap`'s download phase. -/
structure LoopState where
  fs : FS
  /-- `paths_of_all_msg` (a set; only membership is used). -/
  paths : List (List String)
  downloaded : Nat
  alreadyExisting : Nat
  /-- Number of `has been found multiple times` warnings printed. -/
  dupWarnings : Nat
deriving Repr

/-- The exceptions that abort a `backup_imap` run. -/
inductive RunError where
  /-- `gen_filename` raised: unparseable `Date`. -/
  | metadataError : RunError
  /-- A `RuntimeError` out of `scan_imap` (listing/select/search/fetch). -/
  | remoteError (msg : String) : RunError
  /-- `Error: filenames do not match`. -/
  | filenameMismatch : RunError
  /-- `gen.flatten` failed even after the `fix_cte` repair. -/
  | serializationError (e : SerErr) : RunError
  /-- An `OSError` from `os.makedirs`, `open` or `os.rename`. -/
  | fsError : RunError
deriving DecidableEq, Repr

/-- One iteration of the download loop of `backup_imap` for one element of
`allMsgHeaders`.  An uncaught exception aborts the whole run; the error
carries the filesystem state left behind at the abort.  The body mirrors
the source: derive the name; skip (with a warning) when the path was
already seen this run; register the path; ensure the directory exists;
count as already existing when the path exists on disk; otherwise count the
download, fetch the full message by Message-ID in the message's folder,
check the re-derived name, write to `full_path + '~'` and rename over the
final path — `break`ing after the first fetched message. -/
def processOne (pd : String → Option DateTime)
    (fetch : MailDict → Except String (List FullMsg))
    (st : LoopState) (msg : MailDict) : Except (RunError × FS) LoopState :=
  match genParts pd msg with
  | none => .error (.metadataError, st.fs)
  | some fname =>
    if fname ∈ st.paths then
      .ok { st with dupWarnings := st.dupWarnings + 1 }
    else
      let st₁ : LoopState := { st with paths := fname :: st.paths }
      match st₁.fs.create_dir_if_not_exist fname.dropLast with
      | none => .error (.fsError, st₁.fs)
      | some fs₁ =>
        if fs₁.pathExists fname then
          .ok { st₁ with fs := fs₁, alreadyExisting := st₁.alreadyExisting + 1 }
        else
          let st₂ : LoopState := { st₁ with fs := fs₁, downloaded := st₁.downloaded + 1 }
          match fetch msg with
          | .error e => .error (.remoteError e, st₂.fs)
          | .ok [] => .ok st₂
          | .ok (fm :: _) =>
            match genParts pd fm.hdr with
            | none => .error (.metadataError, st₂.fs)
            | some fname₂ =>
              if fname₂ ≠ fname then .error (.filenameMismatch, st₂.fs)
              else
                match attemptFlatten fm.message with
                | .error e =>
                  match st₂.fs.setFile (tildeOf fname) "" with
                  | none => .error (.fsError, st₂.fs)
                  | some fs₂ => .error (.serializationError e, fs₂)
                | .ok s =>
                  match st₂.fs.setFile (tildeOf fname) s with
                  | none => .error (.fsError, st₂.fs)
                  | some fs₂ =>
                    match fs₂.renameFile (tildeOf fname) fname with
                    | none => .error (.fsError, fs₂)
                    | some fs₃ => .ok { st₂ with fs := fs₃ }

/-- The download loop over `allMsgHeaders`. -/
def runLoop (pd : String → Option DateTime)
    (fetch : MailDict → Except String (List FullMsg)) :
    List MailDict → LoopState → Except (RunError × FS) LoopState
  | [], st => .ok st
  | msg :: rest, st =>
    match processOne pd fetch st msg with
    | .error e => .error e
    | .ok st' => runLoop pd fetch rest st'

/-- The operator-visible outcome of a completed run. -/
structure Report where
  fs : FS
  downloaded : Nat
  alreadyExisting : Nat
  kept : Nat
  movedToQuarantine : Nat
  dupWarnings : Nat
  /-- `paths_of_all_msg` after the parent-directory augmentation. -/
  livePaths : List (List String)
  /-- The `A+B==C` consistency verdict (`SUCCESS` iff `true`). -/
  verdictSuccess : Bool
deriving Repr

/-- `backup_imap(imap4, backup_folder, deleted_folder, ...)`.

* `pd` models `email.utils.parsedate_to_datetime`;
* `listing` models `scan_imap(imap4, "(Undeleted)", ...)`: either the
  `RuntimeError` it raises or the header list it returns;
* `fetch msg` models the per-message
  `scan_imap(imap4, '(Header Message-ID "...")', return_only_headers=False,
  mailbox_name=msg['Folder'])`;
* `fs0` is the contents of `backup_folder`; paths are components relative
  to it.

The phases are the source's: list, download loop, parent augmentation,
sweep, report. -/
def backup_imap (pd : String → Option DateTime)
    (fetch : MailDict → Except String (List FullMsg))
    (listing : Except String (List MailDict))
    (deleted_folder : String) (fs0 : FS) : Except (RunError × FS) Report :=
  match listing with
  | .error e => .error (.remoteError e, fs0)
  | .ok allMsgHeaders =>
    match runLoop pd fetch allMsgHeaders ⟨fs0, [], 0, 0, 0⟩ with
    | .error e => .error e
    | .ok st =>
      let live := augment st.paths
      match sweepDir deleted_folder live [] st.fs with
      | none => .error (.fsError, st.fs)
      | some (fs', kept, moved) =>
        .ok { fs := fs'
              downloaded := st.downloaded
              alreadyExisting := st.alreadyExisting
              kept := kept
              movedToQuarantine := moved
              dupWarnings := st.dupWarnings
              livePaths := live
              verdictSuccess := st.downloaded + st.alreadyExisting == kept }

/-! ## Claim-statement definitions

Definitions used only to *state* claims in the specification's words, to be
compared against the behaviour of the embedded code. -/

/-- The MessageId sanitization as claim C2 words it: the characters `<`,
`>`, `%`, `/` and space are stripped, every other character preserved
verbatim. -/
def specStripId (s : String) : String :=
  ⟨s.data.filter fun a => !(a == '<' || a == '>' || a == '%' || a == '/' || a == ' ')⟩

/-- The derived path as claim C2 words it: `Folder/Year/Timestamp_Id.eml`
with the folder's spaces replaced by underscores, the year and timestamp of
the parsed Date, and the claimed sanitization of the MessageId. -/
def claimC2Path (dt : DateTime) (m : MailDict) : String :=
  joinPath (joinPath (strReplaceChar m.Folder ' ' "_") (yearString dt))
    (fulldateString dt ++ "_" ++ specStripId m.Id ++ ".eml")

/-- The MessageId sanitization the code actually performs, expressed
character-wise: `<`, `>`, `%` and space are stripped, `/` is replaced by
`-`, every other character preserved verbatim. -/
def amendedStripId (s : String) : String :=
  ⟨(s.data.filter fun a => !(a == '<' || a == '>' || a == '%' || a == ' ')).map
    fun a => if a = '/' then '-' else a⟩

/-- Every entry of the tree, recursively, has a name different from the
quarantine directory's and — when it is a file — a path in the live set:
the shape of a freshly-built backup tree whose files are all live. -/
def allKeptFS (del : String) (live : List (List String)) :
    List String → FS → Prop
  | _, .nil => True
  | pre, .file n _ rest =>
    n ≠ del ∧ (pre ++ [n]) ∈ live ∧ allKeptFS del live pre rest
  | pre, .dir n ch rest =>
    n ≠ del ∧ allKeptFS del live (pre ++ [n]) ch ∧ allKeptFS del live pre rest

/-- Every file of the tree that the sweep would test (not named like the
quarantine directory, not under an entry so named) has a live path: the
state of a tree the sweep leaves unchanged. -/
def sweptFS (del : String) (live : List (List String)) :
    List String → FS → Prop
  | _, .nil => True
  | pre, .file n _ rest =>
    (n = del ∨ (pre ++ [n]) ∈ live) ∧ sweptFS del live pre rest
  | pre, .dir n ch rest =>
    (n = del ∨ sweptFS del live (pre ++ [n]) ch) ∧ sweptFS del live pre rest

/-- The absolute paths of the files whose membership in the live set the
sweep consults: every file entry not named like the quarantine directory
and not inside an entry so named. -/
def sweepTested (del : String) : List String → FS → List (List String)
  | _, .nil => []
  | pre, .file n _ rest =>
    (if n = del then [] else [pre ++ [n]]) ++ sweepTested del pre rest
  | pre, .dir n ch rest =>
    (if n = del then [] else sweepTested del (pre ++ [n]) ch) ++
      sweepTested del pre rest

mutual
/-- No part of the message has the unencodable-character-under-declared-
charset condition (the `fix_cte` branch the charset-stripping heuristic
cannot always discharge). -/
def noUnicodeIssue : Mime → Bool
  | .leaf hs _ ue _ => !(ue && charsetDeclared hs)
  | .multi _ parts => noUnicodeIssueSeq parts

/-- `noUnicodeIssue` over a sub-part list. -/
def noUnicodeIssueSeq : MimeSeq → Bool
  | .nil => true
  | .cons m rest => noUnicodeIssue m && noUnicodeIssueSeq rest
end

/-! ## Concrete fixtures

Concrete instances of the external capabilities and inputs, used by the
counterexamples and witnesses below. -/

/-- A parseable RFC 2822 date header value. -/
def exDate : String := "Sat, 07 Mar 2020 14:05:00 +0200"

/-- What `parsedate_to_datetime` returns for `exDate`. -/
def exDt : DateTime := ⟨2020, 3, 7, 14, 5, 120⟩

/-- A date parser that parses exactly `exDate`. -/
def exPd : String → Option DateTime :=
  fun d => if d = exDate then some exDt else none

/-- A message that serializes without error. -/
def exMime : Mime := .leaf [] false false "Subject: hi\n\nbody-1"

/-- A message whose serialization keeps failing even after the repair: the
payload has a character unencodable under the declared charset, and the
`charset="..."` occurrences in its `content-type` are laid out so that
removing them re-creates one (`re.sub` does not re-scan its output), so the
retry raises again. -/
def exBadMime : Mime :=
  .leaf [("content-type", some "charsecharset=\"x\"t=\"y\"")] false true "body"

/-- A fetch that returns each message with the well-behaved body. -/
def exFetch : MailDict → Except String (List FullMsg) :=
  fun m => .ok [⟨m, exMime⟩]

/-- A fetch that fails (as `scan_imap` raising `RuntimeError`) for the
first example message and succeeds for the others. -/
def exFetchFail : MailDict → Except String (List FullMsg) :=
  fun m =>
    if m.Id = "<id1@example.com>" then .error "imap4.uid(fetch, ...) in INBOX): NO"
    else .ok [⟨m, exMime⟩]

/-- A fetch that returns each message with the unrepairable body. -/
def exFetchBad : MailDict → Except String (List FullMsg) :=
  fun m => .ok [⟨m, exBadMime⟩]

/-- Example message 1. -/
def exMsg1 : MailDict := ⟨"INBOX", "<id1@example.com>", exDate⟩

/-- Example message 2. -/
def exMsg2 : MailDict := ⟨"INBOX", "<id2@example.com>", exDate⟩

/-- A message whose `Date` does not parse. -/
def exMsgBadDate : MailDict := ⟨"INBOX", "<id3@example.com>", "not-a-date"⟩

/-- The derived path of `exMsg1`. -/
def exPath1 : List String :=
  ["INBOX", "2020", "2020-03-07_14.05_utc+0200_id1@example.com.eml"]

/-- The directories created for `exPath1` on an empty root. -/
def exDirs : FS := .dir "INBOX" (.dir "2020" .nil .nil) .nil

/-- The tree after downloading `exMsg1` onto an empty root. -/
def exFs1 : FS :=
  .dir "INBOX"
    (.dir "2020"
      (.file "2020-03-07_14.05_utc+0200_id1@example.com.eml"
        "Subject: hi\n\nbody-1" .nil)
      .nil)
    .nil

/-- The loop state after downloading `exMsg1` onto an empty root. -/
def exSt1 : LoopState := ⟨exFs1, [exPath1], 1, 0, 0⟩

/-- A multipart message with one sub-part lacking its
`content-transfer-encoding` declaration: serialization raises the
`KeyError` condition, which the one repair pass fixes. -/
def exCteMime : Mime :=
  .multi [("mime-version", some "1.0")]
    (.cons (.leaf [("subject", some "hi")] true false "payload") .nil)

end ImapUtils

namespace ImapUtils

/-! ## Lemmas: the sanitization chain, character-wise -/

theorem replaceCharList_nil_eq_filter (c : Char) (l : List Char) :
    replaceCharList c [] l = l.filter fun a => !(a == c) := by
  induction l with
  | nil => rfl
  | cons a rest ih =>
    by_cases h : a = c <;> simp [replaceCharList, h, ih]

theorem replaceCharList_single_eq_map (c r : Char) (l : List Char) :
    replaceCharList c [r] l = l.map fun a => if a = c then r else a := by
  induction l with
  | nil => rfl
  | cons a rest ih =>
    by_cases h : a = c <;> simp [replaceCharList, h, ih]

theorem sanitize_chain (l : List Char) :
    replaceCharList ' ' [] (replaceCharList '/' ['-'] (replaceCharList '%' []
      (replaceCharList '>' [] (replaceCharList '<' [] l)))) =
    (l.filter fun a => !(a == '<' || a == '>' || a == '%' || a == ' ')).map
      fun a => if a = '/' then '-' else a := by
  induction l with
  | nil => rfl
  | cons a rest ih =>
    by_cases h1 : a = '<'
    · simp [replaceCharList, h1, ih]
    · by_cases h2 : a = '>'
      · simp [replaceCharList, h1, h2, ih]
      · by_cases h3 : a = '%'
        · simp [replaceCharList, h1, h2, h3, ih]
        · by_cases h4 : a = '/'
          · simp [replaceCharList, h1, h2, h3, h4, ih]
          · by_cases h5 : a = ' '
            · simp [replaceCharList, h1, h2, h3, h4, h5, ih]
            · simp [replaceCharList, h1, h2, h3, h4, h5, ih]

/-- The code's `Id` sanitization, described character-wise: it strips `<`,
`>`, `%`, space, and *replaces* `/` by `-`. -/
theorem sanitizeId_eq_amended (s : String) : sanitizeId s = amendedStripId s := by
  cases s with
  | mk l =>
    simp only [sanitizeId, strReplaceChar, amendedStripId]
    exact congrArg String.mk (sanitize_chain l)

/-! ## Claim C2: path derivation -/

/-- C2, counterexample.  The claim — for every MessageRef whose Date parses
and whose MessageId is non-empty, the derived path is
`Folder/Year/Timestamp_Id.eml` with the MessageId's `<`, `>`, `%`, `/` and
spaces *stripped* — is false: `gen_filename` replaces `/` by `-` instead of
stripping it.  Refuted at `Id = "a/b"`, where the code derives
`..._a-b.eml` and the claim demands `..._ab.eml`. -/
theorem C2_counterexample :
    ¬ ∀ (pd : String → Option DateTime) (m : MailDict) (dt : DateTime),
        pd m.Date = some dt → m.Id ≠ "" →
        gen_filename pd m = some (claimC2Path dt m) := by
  intro h
  have h2 := h (fun _ => some ⟨2020, 3, 7, 14, 5, 120⟩) ⟨"INBOX", "a/b", "d"⟩
    ⟨2020, 3, 7, 14, 5, 120⟩ rfl (by decide)
  exact absurd h2 (by decide)

/-- C2, amended: for every MessageRef whose Date parses and whose MessageId
is non-empty, the derived local path is the join
`Folder/Year/Timestamp_Id.eml`, where Folder has every space replaced by an
underscore, Year is the year of Date, Timestamp is
`YYYY-MM-DD_HH.MM_utc±ZZZZ`, and the MessageId has exactly `<`, `>`, `%`
and space stripped, `/` replaced by `-`, and every other character
preserved verbatim. -/
theorem C2_amended (pd : String → Option DateTime) (m : MailDict) (dt : DateTime)
    (hpd : pd m.Date = some dt) (_hid : m.Id ≠ "") :
    gen_filename pd m =
      some (joinPath (joinPath (strReplaceChar m.Folder ' ' "_") (yearString dt))
        (fulldateString dt ++ "_" ++ amendedStripId m.Id ++ ".eml")) := by
  simp [gen_filename, hpd, baseName, sanitizeId_eq_amended]

/-- C2, amended, witness at a concrete message. -/
theorem C2_amended_witness :
    (fun _ => some (⟨2020, 3, 7, 14, 5, 120⟩ : DateTime)) "d" = some ⟨2020, 3, 7, 14, 5, 120⟩ ∧
    ("a/b <x>" : String) ≠ "" ∧
    gen_filename (fun _ => some ⟨2020, 3, 7, 14, 5, 120⟩) ⟨"My Folder", "a/b <x>", "d"⟩ =
      some (joinPath (joinPath (strReplaceChar "My Folder" ' ' "_") (yearString ⟨2020, 3, 7, 14, 5, 120⟩))
        (fulldateString ⟨2020, 3, 7, 14, 5, 120⟩ ++ "_" ++ amendedStripId "a/b <x>" ++ ".eml")) :=
  ⟨rfl, by decide,
    C2_amended (fun _ => some ⟨2020, 3, 7, 14, 5, 120⟩) ⟨"My Folder", "a/b <x>", "d"⟩
      ⟨2020, 3, 7, 14, 5, 120⟩ rfl (by decide)⟩

/-! ## Lemmas: path segments -/

theorem startsSeg_iff {p q : List String} : startsSeg p q ↔ ∃ t, q = p ++ t := by
  constructor
  · intro h
    exact ⟨q.drop p.length, by conv_lhs => rw [← List.take_append_drop p.length q, ← h]⟩
  · rintro ⟨t, rfl⟩
    unfold startsSeg
    rw [List.take_append_of_le_length le_rfl, List.take_length]

theorem startsSeg_refl (p : List String) : startsSeg p p := by
  rw [startsSeg_iff]; exact ⟨[], by simp⟩

theorem startsSeg_nil (q : List String) : startsSeg [] q := by
  rw [startsSeg_iff]; exact ⟨q, rfl⟩

theorem startsSeg_append (p t : List String) : startsSeg p (p ++ t) := by
  rw [startsSeg_iff]; exact ⟨t, rfl⟩

theorem startsSeg_length {p q : List String} (h : startsSeg p q) :
    p.length ≤ q.length := by
  rw [startsSeg_iff] at h
  obtain ⟨t, rfl⟩ := h
  simp

theorem startsSeg_dropLast (p : List String) : startsSeg p.dropLast p := by
  rw [startsSeg_iff]
  exact ⟨p.drop (p.length - 1), by rw [List.dropLast_eq_take, List.take_append_drop]⟩

theorem startsSeg_trans {p q r : List String} (h1 : startsSeg p q)
    (h2 : startsSeg q r) : startsSeg p r := by
  rw [startsSeg_iff] at *
  obtain ⟨t1, rfl⟩ := h1
  obtain ⟨t2, rfl⟩ := h2
  exact ⟨t1 ++ t2, by simp⟩

theorem startsSeg_antisymm {p q : List String} (h1 : startsSeg p q)
    (h2 : startsSeg q p) : p = q := by
  rw [startsSeg_iff] at *
  obtain ⟨t1, rfl⟩ := h1
  obtain ⟨t2, ht⟩ := h2
  have : t1 = [] := by
    have := congrArg List.length ht
    simp at this
    simp [this]
  simp [this]

namespace FS

/-! ## Lemmas: entry-listing operations and `lookup` -/

theorem lookup_appendDir (fs : FS) (n : String) (ch : FS) (m : String) :
    lookup (appendDir fs n ch) m =
      match lookup fs m with
      | some v => some v
      | none => if n = m then some (.dir ch) else none := by
  induction fs with
  | nil => simp [appendDir, lookup]
  | file n' c rest ih => by_cases h : n' = m <;> simp [appendDir, lookup, h, ih]
  | dir n' ch' rest ih1 ih2 => by_cases h : n' = m <;> simp [appendDir, lookup, h, ih2]

theorem lookup_appendFile (fs : FS) (n c : String) (m : String) :
    lookup (appendFile fs n c) m =
      match lookup fs m with
      | some v => some v
      | none => if n = m then some (.file c) else none := by
  induction fs with
  | nil => simp [appendFile, lookup]
  | file n' c' rest ih => by_cases h : n' = m <;> simp [appendFile, lookup, h, ih]
  | dir n' ch' rest ih1 ih2 => by_cases h : n' = m <;> simp [appendFile, lookup, h, ih2]

theorem lookup_updateChildDir {fs : FS} {n : String} {ch : FS} (ch' : FS)
    (h : lookup fs n = some (.dir ch)) (m : String) :
    lookup (updateChildDir fs n ch') m =
      if n = m then some (.dir ch') else lookup fs m := by
  induction fs with
  | nil => simp [lookup] at h
  | file n' c rest ih =>
    by_cases hn : n' = n
    · subst hn; simp [lookup] at h
    · simp only [lookup, if_neg hn] at h
      by_cases hm : n' = m
      · subst hm
        rw [if_neg fun he => hn he.symm]
        simp [updateChildDir, hn, lookup]
      · simp [updateChildDir, hn, lookup, hm, ih h]
  | dir n' ch₀ rest ih1 ih2 =>
    by_cases hn : n' = n
    · subst hn
      have hch : ch₀ = ch := by simpa [lookup] using h
      subst hch
      by_cases hm : n' = m
      · subst hm; simp [updateChildDir, lookup]
      · simp [updateChildDir, lookup, hm]
    · simp only [lookup, if_neg hn] at h
      by_cases hm : n' = m
      · subst hm
        rw [if_neg fun he => hn he.symm]
        simp [updateChildDir, hn, lookup]
      · simp [updateChildDir, hn, lookup, hm, ih2 h]

theorem lookup_overwriteFile {fs : FS} {n : String} {c₀ : String} (c : String)
    (h : lookup fs n = some (.file c₀)) (m : String) :
    lookup (overwriteFile fs n c) m =
      if n = m then some (.file c) else lookup fs m := by
  induction fs with
  | nil => simp [lookup] at h
  | file n' c' rest ih =>
    by_cases hn : n' = n
    · subst hn
      by_cases hm : n' = m
      · subst hm; simp [overwriteFile, lookup]
      · simp [overwriteFile, lookup, hm]
    · simp only [lookup, if_neg hn] at h
      by_cases hm : n' = m
      · subst hm
        rw [if_neg fun he => hn he.symm]
        simp [overwriteFile, hn, lookup]
      · simp [overwriteFile, hn, lookup, hm, ih h]
  | dir n' ch₀ rest ih1 ih2 =>
    by_cases hn : n' = n
    · subst hn; simp [lookup] at h
    · simp only [lookup, if_neg hn] at h
      by_cases hm : n' = m
      · subst hm
        rw [if_neg fun he => hn he.symm]
        simp [overwriteFile, hn, lookup]
      · simp [overwriteFile, hn, lookup, hm, ih2 h]

theorem updateChildDir_self {fs : FS} {n : String} {ch : FS}
    (h : lookup fs n = some (.dir ch)) : updateChildDir fs n ch = fs := by
  induction fs with
  | nil => rfl
  | file n' c rest ih =>
    by_cases hn : n' = n
    · subst hn; simp [lookup] at h
    · simp [lookup, hn] at h
      simp [updateChildDir, hn, ih h]
  | dir n' ch₀ rest ih1 ih2 =>
    by_cases hn : n' = n
    · subst hn
      simp [lookup] at h
      simp [updateChildDir, h]
    · simp [lookup, hn] at h
      simp [updateChildDir, hn, ih2 h]

theorem updateChildDir_twice (fs : FS) (n : String) (a b : FS) :
    updateChildDir (updateChildDir fs n a) n b = updateChildDir fs n b := by
  induction fs with
  | nil => rfl
  | file n' c rest ih =>
    by_cases hn : n' = n <;> simp [updateChildDir, hn, ih]
  | dir n' ch rest ih1 ih2 =>
    by_cases hn : n' = n <;> simp [updateChildDir, hn, ih2]

theorem dropEntry_appendFile {fs : FS} {n : String} (c : String)
    (h : lookup fs n = none) : dropEntry (appendFile fs n c) n = fs := by
  induction fs with
  | nil => simp [appendFile, dropEntry]
  | file n' c' rest ih =>
    by_cases hn : n' = n
    · subst hn; simp [lookup] at h
    · simp [lookup, hn] at h
      simp [appendFile, dropEntry, hn, ih h]
  | dir n' ch rest ih1 ih2 =>
    by_cases hn : n' = n
    · subst hn; simp [lookup] at h
    · simp [lookup, hn] at h
      simp [appendFile, dropEntry, hn, ih2 h]

/-! ## Lemmas: `resolve` decomposition -/

theorem resolve_append (fs : FS) (p q : List String) (hq : q ≠ []) :
    resolve fs (p ++ q) =
      match resolve fs p with
      | some (.dir ch) => resolve ch q
      | _ => none := by
  induction p generalizing fs with
  | nil => simp [resolve]
  | cons n rest ih =>
    simp only [List.cons_append, resolve]
    cases h : lookup fs n with
    | none => rfl
    | some v =>
      cases v with
      | file c =>
        cases rest with
        | nil => simp [List.isEmpty_iff, hq]
        | cons r rs => simp [List.isEmpty_iff]
      | dir ch => exact ih ch

theorem resolve_parent_dir {fs : FS} {p : List String} {v : EntryView}
    (h : resolve fs p = some v) (x : List String) (hx : startsSeg x p) (hne : x ≠ p) :
    ∃ ch, resolve fs x = some (.dir ch) := by
  rw [startsSeg_iff] at hx
  obtain ⟨t, rfl⟩ := hx
  have ht : t ≠ [] := by rintro rfl; simp at hne
  rw [resolve_append fs x t ht] at h
  cases hx : resolve fs x with
  | none => rw [hx] at h; simp at h
  | some v' =>
    cases v' with
    | file c => rw [hx] at h; simp at h
    | dir ch => exact ⟨ch, rfl⟩

end FS

theorem startsSeg_nil_right {x : List String} (h : startsSeg x []) : x = [] := by
  simpa [startsSeg] using h

theorem startsSeg_cons {m n : String} {xs rest : List String} :
    startsSeg (m :: xs) (n :: rest) ↔ m = n ∧ startsSeg xs rest := by
  simp [startsSeg, List.take_cons]

namespace FS

/-! ## Lemmas: `countFiles` under the listing operations -/

theorem countFiles_appendDir (fs : FS) (n : String) (ch : FS) :
    countFiles (appendDir fs n ch) = countFiles fs + countFiles ch := by
  induction fs with
  | nil => simp [appendDir, countFiles]
  | file n' c rest ih => simp [appendDir, countFiles, ih]; omega
  | dir n' ch' rest ih1 ih2 => simp [appendDir, countFiles, ih2]; omega

theorem countFiles_appendFile (fs : FS) (n c : String) :
    countFiles (appendFile fs n c) = countFiles fs + 1 := by
  induction fs with
  | nil => simp [appendFile, countFiles]
  | file n' c' rest ih => simp [appendFile, countFiles, ih]
  | dir n' ch rest ih1 ih2 => simp [appendFile, countFiles, ih2]; omega

theorem countFiles_updateChildDir {fs : FS} {n : String} {ch : FS} (ch' : FS)
    (h : lookup fs n = some (.dir ch)) :
    countFiles (updateChildDir fs n ch') + countFiles ch =
      countFiles fs + countFiles ch' := by
  induction fs with
  | nil => simp [lookup] at h
  | file n' c rest ih =>
    by_cases hn : n' = n
    · subst hn; simp [lookup] at h
    · simp only [lookup, if_neg hn] at h
      simp only [updateChildDir, if_neg hn, countFiles]
      have := ih h
      omega
  | dir n' ch₀ rest ih1 ih2 =>
    by_cases hn : n' = n
    · subst hn
      have hch : ch₀ = ch := by simpa [lookup] using h
      subst hch
      simp only [updateChildDir, if_pos rfl, countFiles]
      omega
    · simp only [lookup, if_neg hn] at h
      simp only [updateChildDir, if_neg hn, countFiles]
      have := ih2 h
      omega

theorem countFiles_overwriteFile {fs : FS} {n : String} {c₀ : String} (c : String)
    (h : lookup fs n = some (.file c₀)) :
    countFiles (overwriteFile fs n c) = countFiles fs := by
  induction fs with
  | nil => simp [lookup] at h
  | file n' c' rest ih =>
    by_cases hn : n' = n
    · subst hn; simp [overwriteFile, countFiles]
    · simp only [lookup, if_neg hn] at h
      simp [overwriteFile, hn, countFiles, ih h]
  | dir n' ch rest ih1 ih2 =>
    by_cases hn : n' = n
    · subst hn; simp [lookup] at h
    · simp only [lookup, if_neg hn] at h
      simp [overwriteFile, hn, countFiles, ih2 h]

/-! ## Lemmas: `nodupNames` under the listing operations -/

theorem nodup_file_iff {n c : String} {rest : FS} :
    nodupNames (.file n c rest) = true ↔
      lookup rest n = none ∧ nodupNames rest = true := by
  simp [nodupNames, Option.isNone_iff_eq_none]

theorem nodup_dir_iff {n : String} {ch rest : FS} :
    nodupNames (.dir n ch rest) = true ↔
      lookup rest n = none ∧ nodupNames ch = true ∧ nodupNames rest = true := by
  simp [nodupNames, Option.isNone_iff_eq_none, and_assoc]

theorem nodup_lookup_dir {fs : FS} {n : String} {ch : FS}
    (hnd : nodupNames fs) (h : lookup fs n = some (.dir ch)) : nodupNames ch := by
  induction fs with
  | nil => simp [lookup] at h
  | file n' c rest ih =>
    rw [nodup_file_iff] at hnd
    by_cases hn : n' = n
    · subst hn; simp [lookup] at h
    · simp only [lookup, if_neg hn] at h
      exact ih hnd.2 h
  | dir n' ch₀ rest ih1 ih2 =>
    rw [nodup_dir_iff] at hnd
    by_cases hn : n' = n
    · subst hn
      have hch : ch₀ = ch := by simpa [lookup] using h
      subst hch
      exact hnd.2.1
    · simp only [lookup, if_neg hn] at h
      exact ih2 hnd.2.2 h

theorem lookup_none_appendDir {fs : FS} {n : String} (ch : FS) {m : String}
    (h : lookup fs m = none) (hnm : n ≠ m) :
    lookup (appendDir fs n ch) m = none := by
  rw [lookup_appendDir, h, if_neg hnm]

theorem lookup_none_appendFile {fs : FS} {n c : String} {m : String}
    (h : lookup fs m = none) (hnm : n ≠ m) :
    lookup (appendFile fs n c) m = none := by
  rw [lookup_appendFile, h, if_neg hnm]

theorem nodup_appendDir {fs : FS} {n : String} {ch : FS}
    (h : lookup fs n = none) (hnd : nodupNames fs) (hch : nodupNames ch) :
    nodupNames (appendDir fs n ch) := by
  induction fs with
  | nil =>
    simp only [appendDir]
    rw [nodup_dir_iff]
    exact ⟨rfl, hch, rfl⟩
  | file n' c rest ih =>
    rw [nodup_file_iff] at hnd
    by_cases hn : n' = n
    · subst hn; simp [lookup] at h
    · simp only [lookup, if_neg hn] at h
      simp only [appendDir]
      rw [nodup_file_iff]
      exact ⟨lookup_none_appendDir ch hnd.1 (fun he => hn he.symm), ih h hnd.2⟩
  | dir n' ch₀ rest ih1 ih2 =>
    rw [nodup_dir_iff] at hnd
    by_cases hn : n' = n
    · subst hn; simp [lookup] at h
    · simp only [lookup, if_neg hn] at h
      simp only [appendDir]
      rw [nodup_dir_iff]
      exact ⟨lookup_none_appendDir ch hnd.1 (fun he => hn he.symm), hnd.2.1,
        ih2 h hnd.2.2⟩

theorem nodup_appendFile {fs : FS} {n c : String}
    (h : lookup fs n = none) (hnd : nodupNames fs) :
    nodupNames (appendFile fs n c) := by
  induction fs with
  | nil =>
    simp only [appendFile]
    rw [nodup_file_iff]
    exact ⟨rfl, rfl⟩
  | file n' c' rest ih =>
    rw [nodup_file_iff] at hnd
    by_cases hn : n' = n
    · subst hn; simp [lookup] at h
    · simp only [lookup, if_neg hn] at h
      simp only [appendFile]
      rw [nodup_file_iff]
      exact ⟨lookup_none_appendFile hnd.1 (fun he => hn he.symm), ih h hnd.2⟩
  | dir n' ch₀ rest ih1 ih2 =>
    rw [nodup_dir_iff] at hnd
    by_cases hn : n' = n
    · subst hn; simp [lookup] at h
    · simp only [lookup, if_neg hn] at h
      simp only [appendFile]
      rw [nodup_dir_iff]
      exact ⟨lookup_none_appendFile hnd.1 (fun he => hn he.symm), hnd.2.1,
        ih2 h hnd.2.2⟩

theorem lookup_updateChildDir_none {fs : FS} {n m : String} (ch' : FS)
    (h : lookup fs m = none) : lookup (updateChildDir fs n ch') m = none := by
  induction fs with
  | nil => simp [updateChildDir, lookup]
  | file n' c rest ih =>
    by_cases hm : n' = m
    · subst hm; simp [lookup] at h
    · simp only [lookup, if_neg hm] at h
      by_cases hn : n' = n
      · subst hn; simp [updateChildDir, lookup, hm, h]
      · simp [updateChildDir, hn, lookup, hm, ih h]
  | dir n' ch₀ rest ih1 ih2 =>
    by_cases hm : n' = m
    · subst hm; simp [lookup] at h
    · simp only [lookup, if_neg hm] at h
      by_cases hn : n' = n
      · subst hn; simp [updateChildDir, lookup, hm, h]
      · simp [updateChildDir, hn, lookup, hm, ih2 h]

theorem lookup_overwriteFile_none {fs : FS} {n c m : String}
    (h : lookup fs m = none) : lookup (overwriteFile fs n c) m = none := by
  induction fs with
  | nil => simp [overwriteFile, lookup]
  | file n' c' rest ih =>
    by_cases hm : n' = m
    · subst hm; simp [lookup] at h
    · simp only [lookup, if_neg hm] at h
      by_cases hn : n' = n
      · subst hn; simp [overwriteFile, lookup, hm, h]
      · simp [overwriteFile, hn, lookup, hm, ih h]
  | dir n' ch₀ rest ih1 ih2 =>
    by_cases hm : n' = m
    · subst hm; simp [lookup] at h
    · simp only [lookup, if_neg hm] at h
      by_cases hn : n' = n
      · subst hn; simp [overwriteFile, lookup, hm, h]
      · simp [overwriteFile, hn, lookup, hm, ih2 h]

theorem nodup_updateChildDir {fs : FS} {n : String} (ch' : FS)
    (hnd : nodupNames fs) (hch : nodupNames ch') :
    nodupNames (updateChildDir fs n ch') := by
  induction fs with
  | nil => trivial
  | file n' c rest ih =>
    rw [nodup_file_iff] at hnd
    by_cases hn : n' = n
    · subst hn
      simp only [updateChildDir, if_pos rfl, if_true]
      rw [nodup_file_iff]
      exact hnd
    · simp only [updateChildDir, if_neg hn]
      rw [nodup_file_iff]
      exact ⟨lookup_updateChildDir_none ch' hnd.1, ih hnd.2⟩
  | dir n' ch₀ rest ih1 ih2 =>
    rw [nodup_dir_iff] at hnd
    by_cases hn : n' = n
    · subst hn
      simp only [updateChildDir, if_pos rfl, if_true]
      rw [nodup_dir_iff]
      exact ⟨hnd.1, hch, hnd.2.2⟩
    · simp only [updateChildDir, if_neg hn]
      rw [nodup_dir_iff]
      exact ⟨lookup_updateChildDir_none ch' hnd.1, hnd.2.1, ih2 hnd.2.2⟩

theorem nodup_overwriteFile {fs : FS} {n c : String}
    (hnd : nodupNames fs) : nodupNames (overwriteFile fs n c) := by
  induction fs with
  | nil => trivial
  | file n' c' rest ih =>
    rw [nodup_file_iff] at hnd
    by_cases hn : n' = n
    · subst hn
      simp only [overwriteFile, if_pos rfl, if_true]
      rw [nodup_file_iff]
      exact hnd
    · simp only [overwriteFile, if_neg hn]
      rw [nodup_file_iff]
      exact ⟨lookup_overwriteFile_none hnd.1, ih hnd.2⟩
  | dir n' ch rest ih1 ih2 =>
    rw [nodup_dir_iff] at hnd
    by_cases hn : n' = n
    · subst hn
      simp only [overwriteFile, if_pos rfl, if_true]
      rw [nodup_dir_iff]
      exact hnd
    · simp only [overwriteFile, if_neg hn]
      rw [nodup_dir_iff]
      exact ⟨lookup_overwriteFile_none hnd.1, hnd.2.1, ih2 hnd.2.2⟩

/-! ## Lemmas: `makedirs` -/

theorem makedirs_nil_isSome (d : List String) : (makedirs FS.nil d).isSome := by
  induction d with
  | nil => simp [makedirs]
  | cons n rest ih =>
    simp only [makedirs, lookup]
    cases hm : makedirs FS.nil rest with
    | none => rw [hm] at ih; simp at ih
    | some ch => simp [hm]

theorem makedirs_resolve_other {fs fs' : FS} {d : List String}
    (h : makedirs fs d = some fs') :
    ∀ x, ¬ startsSeg x d → resolve fs' x = resolve fs x := by
  induction d generalizing fs fs' with
  | nil =>
    simp only [makedirs, Option.some.injEq] at h
    subst h
    intro x _
    rfl
  | cons n rest ih =>
    intro x hx
    simp only [makedirs] at h
    cases hl : lookup fs n with
    | some v =>
      cases v with
      | file c => simp [hl] at h
      | dir ch =>
        simp only [hl] at h
        cases hm : makedirs ch rest with
        | none => simp [hm] at h
        | some ch' =>
          simp only [hm, Option.map_some', Option.some.injEq] at h
          subst h
          cases x with
          | nil => exact absurd (startsSeg_nil _) hx
          | cons m xs =>
            simp only [resolve, lookup_updateChildDir ch' hl]
            by_cases hnm : n = m
            · subst hnm
              have hxs : ¬ startsSeg xs rest := fun hs =>
                hx (startsSeg_cons.mpr ⟨rfl, hs⟩)
              simp only [if_pos rfl]
              rw [hl]
              exact ih hm xs hxs
            · simp only [if_neg hnm]
    | none =>
      simp only [hl] at h
      cases hm : makedirs FS.nil rest with
      | none => simp [hm] at h
      | some ch' =>
        simp only [hm, Option.map_some', Option.some.injEq] at h
        subst h
        cases x with
        | nil => exact absurd (startsSeg_nil _) hx
        | cons m xs =>
          simp only [resolve, lookup_appendDir]
          cases hlm : lookup fs m with
          | some v => rfl
          | none =>
            by_cases hnm : n = m
            · subst hnm
              have hxs : ¬ startsSeg xs rest := fun hs =>
                hx (startsSeg_cons.mpr ⟨rfl, hs⟩)
              rw [if_pos rfl]
              have hres := ih hm xs hxs
              show resolve ch' xs = none
              rw [hres]
              cases xs with
              | nil => exact absurd (startsSeg_nil _) hxs
              | cons y ys => simp [resolve, lookup]
            · simp only [if_neg hnm]

theorem makedirs_isDir {fs fs' : FS} {d : List String}
    (h : makedirs fs d = some fs') :
    ∀ x, startsSeg x d → ∃ ch, resolve fs' x = some (.dir ch) := by
  induction d generalizing fs fs' with
  | nil =>
    simp only [makedirs, Option.some.injEq] at h
    subst h
    intro x hx
    rw [startsSeg_nil_right hx]
    exact ⟨fs, rfl⟩
  | cons n rest ih =>
    intro x hx
    simp only [makedirs] at h
    cases hl : lookup fs n with
    | some v =>
      cases v with
      | file c => simp [hl] at h
      | dir ch =>
        simp only [hl] at h
        cases hm : makedirs ch rest with
        | none => simp [hm] at h
        | some ch' =>
          simp only [hm, Option.map_some', Option.some.injEq] at h
          subst h
          cases x with
          | nil => exact ⟨_, rfl⟩
          | cons m xs =>
            obtain ⟨hmn, hxs⟩ := startsSeg_cons.mp hx
            subst hmn
            simp only [resolve, lookup_updateChildDir ch' hl, if_pos rfl]
            exact ih hm xs hxs
    | none =>
      simp only [hl] at h
      cases hm : makedirs FS.nil rest with
      | none => simp [hm] at h
      | some ch' =>
        simp only [hm, Option.map_some', Option.some.injEq] at h
        subst h
        cases x with
        | nil => exact ⟨_, rfl⟩
        | cons m xs =>
          obtain ⟨hmn, hxs⟩ := startsSeg_cons.mp hx
          subst hmn
          simp only [resolve, lookup_appendDir, hl, if_pos rfl]
          exact ih hm xs hxs

theorem makedirs_no_file_at_seg {fs fs' : FS} {d : List String}
    (h : makedirs fs d = some fs') :
    ∀ x, startsSeg x d → getFileAt fs x = none := by
  induction d generalizing fs fs' with
  | nil =>
    intro x hx
    rw [startsSeg_nil_right hx]
    simp [getFileAt, resolve]
  | cons n rest ih =>
    intro x hx
    simp only [makedirs] at h
    cases x with
    | nil => simp [getFileAt, resolve]
    | cons m xs =>
      obtain ⟨hmn, hxs⟩ := startsSeg_cons.mp hx
      subst hmn
      cases hl : lookup fs m with
      | some v =>
        cases v with
        | file c => simp [hl] at h
        | dir ch =>
          simp only [hl] at h
          cases hm : makedirs ch rest with
          | none => simp [hm] at h
          | some ch' =>
            cases xs with
            | nil => simp [getFileAt, resolve, hl]
            | cons y ys =>
              have hih := ih hm (y :: ys) hxs
              simp only [getFileAt, resolve, hl]
              simpa [getFileAt, resolve] using hih
      | none =>
        cases xs with
        | nil => simp [getFileAt, resolve, hl]
        | cons y ys => simp [getFileAt, resolve, hl]

theorem makedirs_getFileAt {fs fs' : FS} {d : List String}
    (h : makedirs fs d = some fs') :
    ∀ x, getFileAt fs' x = getFileAt fs x := by
  intro x
  by_cases hx : startsSeg x d
  · obtain ⟨ch, hch⟩ := makedirs_isDir h x hx
    rw [makedirs_no_file_at_seg h x hx]
    simp [getFileAt, hch]
  · rw [getFileAt, makedirs_resolve_other h x hx, getFileAt]

theorem makedirs_countFiles {fs fs' : FS} {d : List String}
    (h : makedirs fs d = some fs') : countFiles fs' = countFiles fs := by
  induction d generalizing fs fs' with
  | nil =>
    simp only [makedirs, Option.some.injEq] at h
    subst h
    rfl
  | cons n rest ih =>
    simp only [makedirs] at h
    cases hl : lookup fs n with
    | some v =>
      cases v with
      | file c => simp [hl] at h
      | dir ch =>
        simp only [hl] at h
        cases hm : makedirs ch rest with
        | none => simp [hm] at h
        | some ch' =>
          simp only [hm, Option.map_some', Option.some.injEq] at h
          subst h
          have h1 := countFiles_updateChildDir ch' hl
          have h2 := ih hm
          omega
    | none =>
      simp only [hl] at h
      cases hm : makedirs FS.nil rest with
      | none => simp [hm] at h
      | some ch' =>
        simp only [hm, Option.map_some', Option.some.injEq] at h
        subst h
        have h1 := countFiles_appendDir fs n ch'
        have h2 := ih hm
        simp only [countFiles] at h2
        omega

theorem makedirs_isSome {fs : FS} {d : List String}
    (hnf : ∀ x, startsSeg x d → getFileAt fs x = none) :
    (makedirs fs d).isSome := by
  induction d generalizing fs with
  | nil => simp [makedirs]
  | cons n rest ih =>
    simp only [makedirs]
    cases hl : lookup fs n with
    | some v =>
      cases v with
      | file c =>
        have := hnf [n] (startsSeg_cons.mpr ⟨rfl, startsSeg_nil _⟩)
        simp [getFileAt, resolve, hl] at this
      | dir ch =>
        have hrec : (makedirs ch rest).isSome := by
          apply ih
          intro x hx
          have hfs := hnf (n :: x) (startsSeg_cons.mpr ⟨rfl, hx⟩)
          simp only [getFileAt, resolve, hl] at hfs
          cases x with
          | nil => simp [getFileAt, resolve]
          | cons y ys => simpa [getFileAt] using hfs
        cases hm : makedirs ch rest with
        | none => rw [hm] at hrec; simp at hrec
        | some ch' => simp [hm]
    | none =>
      have hrec : (makedirs FS.nil rest).isSome := makedirs_nil_isSome rest
      cases hm : makedirs FS.nil rest with
      | none => rw [hm] at hrec; simp at hrec
      | some ch' => simp [hm]

theorem makedirs_nodup {fs fs' : FS} {d : List String}
    (h : makedirs fs d = some fs') (hnd : nodupNames fs) : nodupNames fs' := by
  induction d generalizing fs fs' with
  | nil =>
    simp only [makedirs, Option.some.injEq] at h
    subst h
    exact hnd
  | cons n rest ih =>
    simp only [makedirs] at h
    cases hl : lookup fs n with
    | some v =>
      cases v with
      | file c => simp [hl] at h
      | dir ch =>
        simp only [hl] at h
        cases hm : makedirs ch rest with
        | none => simp [hm] at h
        | some ch' =>
          simp only [hm, Option.map_some', Option.some.injEq] at h
          subst h
          exact nodup_updateChildDir ch' hnd (ih hm (nodup_lookup_dir hnd hl))
    | none =>
      simp only [hl] at h
      cases hm : makedirs FS.nil rest with
      | none => simp [hm] at h
      | some ch' =>
        simp only [hm, Option.map_some', Option.some.injEq] at h
        subst h
        exact nodup_appendDir hl hnd (ih hm rfl)

/-! ## Lemmas: `setFile` -/

theorem resolve_single (fs : FS) (n : String) :
    resolve fs [n] = lookup fs n := by
  simp only [resolve]
  cases lookup fs n with
  | none => rfl
  | some v => cases v <;> simp [resolve]

theorem setFile_resolve_self {fs fs' : FS} {p : List String} {c : String}
    (h : setFile fs p c = some fs') : resolve fs' p = some (.file c) := by
  induction p generalizing fs fs' with
  | nil => simp [setFile] at h
  | cons n rest ih =>
    cases rest with
    | nil =>
      simp only [setFile] at h
      cases hl : lookup fs n with
      | some v =>
        cases v with
        | dir ch => simp [hl] at h
        | file c₀ =>
          simp only [hl, Option.some.injEq] at h
          subst h
          rw [resolve_single, lookup_overwriteFile c hl, if_pos rfl]
      | none =>
        simp only [hl, Option.some.injEq] at h
        subst h
        rw [resolve_single, lookup_appendFile, hl, if_pos rfl]
    | cons m rest' =>
      simp only [setFile] at h
      cases hl : lookup fs n with
      | some v =>
        cases v with
        | file c₀ => simp [hl] at h
        | dir ch =>
          simp only [hl] at h
          cases hs : setFile ch (m :: rest') c with
          | none => simp [hs] at h
          | some ch' =>
            simp only [hs, Option.map_some', Option.some.injEq] at h
            subst h
            simp only [resolve, lookup_updateChildDir ch' hl, if_pos rfl]
            exact ih hs
      | none => simp [hl] at h

theorem setFile_resolve_other {fs fs' : FS} {p : List String} {c : String}
    (h : setFile fs p c = some fs') :
    ∀ x, ¬ startsSeg x p → ¬ startsSeg p x → resolve fs' x = resolve fs x := by
  induction p generalizing fs fs' with
  | nil => simp [setFile] at h
  | cons n rest ih =>
    intro x hx hpx
    cases x with
    | nil => exact absurd (startsSeg_nil _) hx
    | cons m xs =>
      by_cases hnm : n = m
      · subst hnm
        -- the path and x share the head; recurse into the subtree
        cases rest with
        | nil =>
          -- p = [n]: then startsSeg p x holds, contradiction
          exact absurd (startsSeg_cons.mpr ⟨rfl, startsSeg_nil _⟩) hpx
        | cons r rs =>
          simp only [setFile] at h
          cases hl : lookup fs n with
          | some v =>
            cases v with
            | file c₀ => simp [hl] at h
            | dir ch =>
              simp only [hl] at h
              cases hs : setFile ch (r :: rs) c with
              | none => simp [hs] at h
              | some ch' =>
                simp only [hs, Option.map_some', Option.some.injEq] at h
                subst h
                simp only [resolve, lookup_updateChildDir ch' hl, if_pos rfl, hl]
                exact ih hs xs (fun hseg => hx (startsSeg_cons.mpr ⟨rfl, hseg⟩))
                  (fun hseg => hpx (startsSeg_cons.mpr ⟨rfl, hseg⟩))
          | none => simp [hl] at h
      · -- different head: the entry is untouched
        cases rest with
        | nil =>
          simp only [setFile] at h
          cases hl : lookup fs n with
          | some v =>
            cases v with
            | dir ch => simp [hl] at h
            | file c₀ =>
              simp only [hl, Option.some.injEq] at h
              subst h
              simp only [resolve, lookup_overwriteFile c hl, if_neg hnm]
          | none =>
            simp only [hl, Option.some.injEq] at h
            subst h
            simp only [resolve, lookup_appendFile]
            cases hlm : lookup fs m with
            | some v => rfl
            | none => simp only [if_neg hnm]
        | cons r rs =>
          simp only [setFile] at h
          cases hl : lookup fs n with
          | some v =>
            cases v with
            | file c₀ => simp [hl] at h
            | dir ch =>
              simp only [hl] at h
              cases hs : setFile ch (r :: rs) c with
              | none => simp [hs] at h
              | some ch' =>
                simp only [hs, Option.map_some', Option.some.injEq] at h
                subst h
                simp only [resolve, lookup_updateChildDir ch' hl, if_neg hnm]
          | none => simp [hl] at h

theorem setFile_parent_dirs {fs fs' : FS} {p : List String} {c : String}
    (h : setFile fs p c = some fs') :
    ∀ x, startsSeg x p → x ≠ p →
      (∃ ch, resolve fs x = some (.dir ch)) ∧
      (∃ ch, resolve fs' x = some (.dir ch)) := by
  induction p generalizing fs fs' with
  | nil => simp [setFile] at h
  | cons n rest ih =>
    intro x hx hne
    cases x with
    | nil => exact ⟨⟨fs, rfl⟩, ⟨fs', rfl⟩⟩
    | cons m xs =>
      obtain ⟨hmn, hxs⟩ := startsSeg_cons.mp hx
      subst hmn
      cases rest with
      | nil =>
        rw [startsSeg_nil_right hxs] at hne ⊢
        simp at hne
      | cons r rs =>
        simp only [setFile] at h
        cases hl : lookup fs m with
        | some v =>
          cases v with
          | file c₀ => simp [hl] at h
          | dir ch =>
            simp only [hl] at h
            cases hs : setFile ch (r :: rs) c with
            | none => simp [hs] at h
            | some ch' =>
              simp only [hs, Option.map_some', Option.some.injEq] at h
              subst h
              have hxne : xs ≠ r :: rs := fun he => hne (by rw [he])
              obtain ⟨h1, h2⟩ := ih hs xs hxs hxne
              constructor
              · simp only [resolve, hl]
                exact h1
              · simp only [resolve, lookup_updateChildDir ch' hl, if_pos rfl]
                exact h2
        | none => simp [hl] at h

theorem setFile_resolve_ext {fs fs' : FS} {p : List String} {c : String}
    (h : setFile fs p c = some fs') :
    ∀ x, startsSeg p x → x ≠ p → resolve fs' x = none ∧ resolve fs x = none := by
  induction p generalizing fs fs' with
  | nil => simp [setFile] at h
  | cons n rest ih =>
    intro x hx hne
    cases x with
    | nil => simp [startsSeg] at hx
    | cons m xs =>
      obtain ⟨hmn, hxs⟩ := startsSeg_cons.mp hx
      subst hmn
      cases rest with
      | nil =>
        have hxsne : xs ≠ [] := by
          intro he
          subst he
          exact hne rfl
        simp only [setFile] at h
        cases hl : lookup fs n with
        | some v =>
          cases v with
          | dir ch => simp [hl] at h
          | file c₀ =>
            simp only [hl, Option.some.injEq] at h
            subst h
            constructor
            · simp only [resolve, lookup_overwriteFile c hl, if_pos rfl]
              simp [List.isEmpty_iff, hxsne]
            · simp only [resolve, hl]
              simp [List.isEmpty_iff, hxsne]
        | none =>
          simp only [hl, Option.some.injEq] at h
          subst h
          constructor
          · simp only [resolve, lookup_appendFile, hl, if_pos rfl]
            simp [List.isEmpty_iff, hxsne]
          · simp only [resolve, hl]
      | cons r rs =>
        simp only [setFile] at h
        cases hl : lookup fs n with
        | some v =>
          cases v with
          | file c₀ => simp [hl] at h
          | dir ch =>
            simp only [hl] at h
            cases hs : setFile ch (r :: rs) c with
            | none => simp [hs] at h
            | some ch' =>
              simp only [hs, Option.map_some', Option.some.injEq] at h
              subst h
              have hxne : xs ≠ r :: rs := fun he => hne (by rw [he])
              obtain ⟨h1, h2⟩ := ih hs xs hxs hxne
              constructor
              · simp only [resolve, lookup_updateChildDir ch' hl, if_pos rfl]
                exact h1
              · simp only [resolve, hl]
                exact h2
        | none => simp [hl] at h

theorem setFile_countFiles_fresh {fs fs' : FS} {p : List String} {c : String}
    (h : setFile fs p c = some fs') (hf : resolve fs p = none) :
    countFiles fs' = countFiles fs + 1 := by
  induction p generalizing fs fs' with
  | nil => simp [setFile] at h
  | cons n rest ih =>
    cases rest with
    | nil =>
      rw [resolve_single] at hf
      simp only [setFile, hf, Option.some.injEq] at h
      subst h
      exact countFiles_appendFile fs n c
    | cons r rs =>
      simp only [setFile] at h
      cases hl : lookup fs n with
      | some v =>
        cases v with
        | file c₀ => simp [hl] at h
        | dir ch =>
          simp only [hl] at h
          cases hs : setFile ch (r :: rs) c with
          | none => simp [hs] at h
          | some ch' =>
            simp only [hs, Option.map_some', Option.some.injEq] at h
            subst h
            have hfch : resolve ch (r :: rs) = none := by
              simpa only [resolve, hl] using hf
            have h1 := countFiles_updateChildDir ch' hl
            have h2 := ih hs hfch
            omega
      | none => simp [hl] at h

theorem setFile_countFiles_over {fs fs' : FS} {p : List String} {c c₀ : String}
    (h : setFile fs p c = some fs') (hov : resolve fs p = some (.file c₀)) :
    countFiles fs' = countFiles fs := by
  induction p generalizing fs fs' with
  | nil => simp [setFile] at h
  | cons n rest ih =>
    cases rest with
    | nil =>
      rw [resolve_single] at hov
      simp only [setFile, hov, Option.some.injEq] at h
      subst h
      exact countFiles_overwriteFile c hov
    | cons r rs =>
      simp only [setFile] at h
      cases hl : lookup fs n with
      | some v =>
        cases v with
        | file c₁ => simp [hl] at h
        | dir ch =>
          simp only [hl] at h
          cases hs : setFile ch (r :: rs) c with
          | none => simp [hs] at h
          | some ch' =>
            simp only [hs, Option.map_some', Option.some.injEq] at h
            subst h
            have hovch : resolve ch (r :: rs) = some (.file c₀) := by
              simpa only [resolve, hl] using hov
            have h1 := countFiles_updateChildDir ch' hl
            have h2 := ih hs hovch
            omega
      | none => simp [hl] at h

theorem setFile_nodup {fs fs' : FS} {p : List String} {c : String}
    (h : setFile fs p c = some fs') (hnd : nodupNames fs) : nodupNames fs' := by
  induction p generalizing fs fs' with
  | nil => simp [setFile] at h
  | cons n rest ih =>
    cases rest with
    | nil =>
      simp only [setFile] at h
      cases hl : lookup fs n with
      | some v =>
        cases v with
        | dir ch => simp [hl] at h
        | file c₀ =>
          simp only [hl, Option.some.injEq] at h
          subst h
          exact nodup_overwriteFile hnd
      | none =>
        simp only [hl, Option.some.injEq] at h
        subst h
        exact nodup_appendFile hl hnd
    | cons r rs =>
      simp only [setFile] at h
      cases hl : lookup fs n with
      | some v =>
        cases v with
        | file c₀ => simp [hl] at h
        | dir ch =>
          simp only [hl] at h
          cases hs : setFile ch (r :: rs) c with
          | none => simp [hs] at h
          | some ch' =>
            simp only [hs, Option.map_some', Option.some.injEq] at h
            subst h
            exact nodup_updateChildDir ch' hnd (ih hs (nodup_lookup_dir hnd hl))
      | none => simp [hl] at h

theorem setFile_isSome {fs : FS} {p : List String} (c : String)
    (hne : p ≠ []) (hpar : ∃ ch, resolve fs p.dropLast = some (.dir ch))
    (hnd : ∀ ch, resolve fs p ≠ some (.dir ch)) :
    (setFile fs p c).isSome := by
  induction p generalizing fs with
  | nil => exact absurd rfl hne
  | cons n rest ih =>
    cases rest with
    | nil =>
      simp only [setFile]
      cases hl : lookup fs n with
      | some v =>
        cases v with
        | dir ch =>
          exfalso
          apply hnd ch
          rw [resolve_single, hl]
        | file c₀ => simp
      | none => simp
    | cons r rs =>
      simp only [setFile]
      cases hl : lookup fs n with
      | some v =>
        cases v with
        | file c₀ =>
          exfalso
          obtain ⟨ch, hch⟩ := hpar
          rw [List.dropLast_cons₂] at hch
          simp only [resolve, hl] at hch
          cases hdl : (r :: rs).dropLast with
          | nil => rw [hdl] at hch; simp at hch
          | cons y ys => rw [hdl] at hch; simp at hch
        | dir ch =>
          have hrec : (setFile ch (r :: rs) c).isSome := by
            apply ih (by simp)
            · obtain ⟨ch₀, hch⟩ := hpar
              rw [List.dropLast_cons₂] at hch
              simp only [resolve, hl] at hch
              exact ⟨ch₀, hch⟩
            · intro ch₀ hch
              apply hnd ch₀
              simpa only [resolve, hl] using hch
          cases hs : setFile ch (r :: rs) c with
          | none => rw [hs] at hrec; simp at hrec
          | some ch' => simp [hs]
      | none =>
        exfalso
        obtain ⟨ch, hch⟩ := hpar
        rw [List.dropLast_cons₂] at hch
        simp only [resolve, hl] at hch
        simp at hch

/-! ## Lemmas: the write-then-rename dance -/

theorem removeEntry_setFile_fresh {fs fs' : FS} {p : List String} {c : String}
    (hf : resolve fs p = none) (h : setFile fs p c = some fs') :
    removeEntry fs' p = some fs := by
  induction p generalizing fs fs' with
  | nil => simp [setFile] at h
  | cons n rest ih =>
    cases rest with
    | nil =>
      rw [resolve_single] at hf
      simp only [setFile, hf, Option.some.injEq] at h
      subst h
      have hl : lookup (appendFile fs n c) n = some (.file c) := by
        rw [lookup_appendFile, hf, if_pos rfl]
      simp only [removeEntry, hl, Option.isSome_some, if_true, Option.some.injEq]
      exact dropEntry_appendFile c hf
    | cons r rs =>
      simp only [setFile] at h
      cases hl : lookup fs n with
      | some v =>
        cases v with
        | file c₀ => simp [hl] at h
        | dir ch =>
          simp only [hl] at h
          cases hs : setFile ch (r :: rs) c with
          | none => simp [hs] at h
          | some ch' =>
            simp only [hs, Option.map_some', Option.some.injEq] at h
            subst h
            have hfch : resolve ch (r :: rs) = none := by
              simpa only [resolve, hl] using hf
            have hlu : lookup (updateChildDir fs n ch') n = some (.dir ch') := by
              rw [lookup_updateChildDir ch' hl, if_pos rfl]
            simp only [removeEntry, hlu, ih hfch hs, Option.map_some',
              Option.some.injEq]
            rw [updateChildDir_twice, updateChildDir_self hl]
      | none => simp [hl] at h

theorem renameFile_fresh_setFile {fs fs₂ : FS} {src dst : List String} {c : String}
    (hf : resolve fs src = none) (h : setFile fs src c = some fs₂) :
    renameFile fs₂ src dst = setFile fs dst c := by
  have h1 : getFileAt fs₂ src = some c := by
    simp [getFileAt, setFile_resolve_self h]
  simp only [renameFile, h1, removeEntry_setFile_fresh hf h]

end FS

/-! ## Lemmas: the download loop -/

theorem runLoop_append (pd : String → Option DateTime)
    (fetch : MailDict → Except String (List FullMsg))
    (xs ys : List MailDict) (st : LoopState) :
    runLoop pd fetch (xs ++ ys) st =
      match runLoop pd fetch xs st with
      | .error e => .error e
      | .ok st' => runLoop pd fetch ys st' := by
  induction xs generalizing st with
  | nil => simp [runLoop]
  | cons m rest ih =>
    simp only [List.cons_append, runLoop]
    cases processOne pd fetch st m with
    | error e => rfl
    | ok st' => exact ih st'

theorem processOne_metadata {pd : String → Option DateTime}
    {fetch : MailDict → Except String (List FullMsg)} {st : LoopState}
    {msg : MailDict} (h : genParts pd msg = none) :
    processOne pd fetch st msg = .error (.metadataError, st.fs) := by
  simp [processOne, h]

theorem processOne_dup {pd : String → Option DateTime}
    {fetch : MailDict → Except String (List FullMsg)} {st : LoopState}
    {msg : MailDict} {p : List String}
    (h : genParts pd msg = some p) (hdup : p ∈ st.paths) :
    processOne pd fetch st msg = .ok { st with dupWarnings := st.dupWarnings + 1 } := by
  simp [processOne, h, hdup]

theorem processOne_existing {pd : String → Option DateTime}
    {fetch : MailDict → Except String (List FullMsg)} {st : LoopState}
    {msg : MailDict} {p : List String} {fs₁ : FS}
    (h : genParts pd msg = some p) (hdup : p ∉ st.paths)
    (hcd : st.fs.create_dir_if_not_exist p.dropLast = some fs₁)
    (hex : fs₁.pathExists p = true) :
    processOne pd fetch st msg =
      .ok { st with fs := fs₁, paths := p :: st.paths,
                    alreadyExisting := st.alreadyExisting + 1 } := by
  simp [processOne, h, hdup, hcd, hex]

theorem processOne_fetch_err {pd : String → Option DateTime}
    {fetch : MailDict → Except String (List FullMsg)} {st : LoopState}
    {msg : MailDict} {p : List String} {fs₁ : FS} {e : String}
    (h : genParts pd msg = some p) (hdup : p ∉ st.paths)
    (hcd : st.fs.create_dir_if_not_exist p.dropLast = some fs₁)
    (hex : fs₁.pathExists p = false) (hf : fetch msg = .error e) :
    processOne pd fetch st msg = .error (.remoteError e, fs₁) := by
  simp [processOne, h, hdup, hcd, hex, hf]

theorem processOne_ser_err {pd : String → Option DateTime}
    {fetch : MailDict → Except String (List FullMsg)} {st : LoopState}
    {msg : MailDict} {p : List String} {fs₁ fs₂ : FS} {fm : FullMsg}
    {l : List FullMsg} {e : SerErr}
    (h : genParts pd msg = some p) (hdup : p ∉ st.paths)
    (hcd : st.fs.create_dir_if_not_exist p.dropLast = some fs₁)
    (hex : fs₁.pathExists p = false) (hf : fetch msg = .ok (fm :: l))
    (h2 : genParts pd fm.hdr = some p)
    (hfl : attemptFlatten fm.message = .error e)
    (hsf : fs₁.setFile (tildeOf p) "" = some fs₂) :
    processOne pd fetch st msg = .error (.serializationError e, fs₂) := by
  simp [processOne, h, hdup, hcd, hex, hf, h2, hfl, hsf]

theorem processOne_new {pd : String → Option DateTime}
    {fetch : MailDict → Except String (List FullMsg)} {st : LoopState}
    {msg : MailDict} {p : List String} {fs₁ fs₂ fs₃ : FS} {fm : FullMsg}
    {l : List FullMsg} {s : String}
    (h : genParts pd msg = some p) (hdup : p ∉ st.paths)
    (hcd : st.fs.create_dir_if_not_exist p.dropLast = some fs₁)
    (hex : fs₁.pathExists p = false) (hf : fetch msg = .ok (fm :: l))
    (h2 : genParts pd fm.hdr = some p)
    (hfl : attemptFlatten fm.message = .ok s)
    (hsf : fs₁.setFile (tildeOf p) s = some fs₂)
    (hrn : fs₂.renameFile (tildeOf p) p = some fs₃) :
    processOne pd fetch st msg =
      .ok { st with fs := fs₃, paths := p :: st.paths,
                    downloaded := st.downloaded + 1 } := by
  simp [processOne, h, hdup, hcd, hex, hf, h2, hfl, hsf, hrn]

/-- Any successful iteration either skips a duplicate (a warning, nothing
else changes) or registers the derived path and increments exactly one of
the two download counters. -/
theorem processOne_ok_cases {pd : String → Option DateTime}
    {fetch : MailDict → Except String (List FullMsg)} {st st' : LoopState}
    {msg : MailDict} (h : processOne pd fetch st msg = .ok st') :
    (∃ p, genParts pd msg = some p ∧ p ∈ st.paths ∧
      st' = { st with dupWarnings := st.dupWarnings + 1 }) ∨
    (∃ p, genParts pd msg = some p ∧ p ∉ st.paths ∧
      st'.paths = p :: st.paths ∧ st'.dupWarnings = st.dupWarnings ∧
      st'.downloaded + st'.alreadyExisting =
        st.downloaded + st.alreadyExisting + 1) := by
  simp only [processOne] at h
  cases hg : genParts pd msg with
  | none => rw [hg] at h; simp at h
  | some p =>
    rw [hg] at h
    simp only at h
    by_cases hdup : p ∈ st.paths
    · rw [if_pos hdup] at h
      simp only [Except.ok.injEq] at h
      exact .inl ⟨p, rfl, hdup, h.symm⟩
    · rw [if_neg hdup] at h
      refine .inr ⟨p, rfl, hdup, ?_⟩
      cases hcd : st.fs.create_dir_if_not_exist p.dropLast with
      | none => rw [hcd] at h; simp at h
      | some fs₁ =>
        rw [hcd] at h
        simp only at h
        by_cases hex : fs₁.pathExists p = true
        · rw [if_pos hex] at h
          simp only [Except.ok.injEq] at h
          subst h
          refine ⟨by simp, by simp, by simp; omega⟩
        · rw [if_neg hex] at h
          cases hf : fetch msg with
          | error e => rw [hf] at h; simp at h
          | ok l =>
            rw [hf] at h
            cases l with
            | nil =>
              simp only [Except.ok.injEq] at h
              subst h
              refine ⟨by simp, by simp, by simp; omega⟩
            | cons fm l' =>
              simp only at h
              cases h2 : genParts pd fm.hdr with
              | none => rw [h2] at h; simp at h
              | some p₂ =>
                rw [h2] at h
                simp only at h
                by_cases hne : p₂ ≠ p
                · rw [if_pos hne] at h; simp at h
                · rw [if_neg hne] at h
                  cases hfl : attemptFlatten fm.message with
                  | error e =>
                    rw [hfl] at h
                    dsimp only at h
                    cases hsf : fs₁.setFile (tildeOf p) "" with
                    | none => rw [hsf] at h; simp at h
                    | some fs₂ => rw [hsf] at h; simp at h
                  | ok s =>
                    rw [hfl] at h
                    dsimp only at h
                    cases hsf : fs₁.setFile (tildeOf p) s with
                    | none => rw [hsf] at h; simp at h
                    | some fs₂ =>
                      rw [hsf] at h
                      simp only at h
                      cases hrn : fs₂.renameFile (tildeOf p) p with
                      | none => rw [hrn] at h; simp at h
                      | some fs₃ =>
                        rw [hrn] at h
                        simp only [Except.ok.injEq] at h
                        subst h
                        refine ⟨by simp, by simp, by simp; omega⟩

theorem processOne_paths_sub {pd : String → Option DateTime}
    {fetch : MailDict → Except String (List FullMsg)} {st st' : LoopState}
    {msg : MailDict} (h : processOne pd fetch st msg = .ok st') :
    ∀ q ∈ st.paths, q ∈ st'.paths := by
  intro q hq
  rcases processOne_ok_cases h with ⟨p, _, _, rfl⟩ | ⟨p, _, _, hp, _⟩
  · exact hq
  · rw [hp]; exact List.mem_cons_of_mem _ hq

theorem runLoop_paths_sub {pd : String → Option DateTime}
    {fetch : MailDict → Except String (List FullMsg)} {msgs : List MailDict}
    {st st' : LoopState} (h : runLoop pd fetch msgs st = .ok st') :
    ∀ q ∈ st.paths, q ∈ st'.paths := by
  induction msgs generalizing st with
  | nil =>
    simp only [runLoop, Except.ok.injEq] at h
    subst h
    exact fun q hq => hq
  | cons m rest ih =>
    simp only [runLoop] at h
    cases hp : processOne pd fetch st m with
    | error e => rw [hp] at h; simp at h
    | ok st₁ =>
      rw [hp] at h
      exact fun q hq => ih h q (processOne_paths_sub hp q hq)

/-- Every message a successful loop run visits derives a path, and that
path is registered in the final path set. -/
theorem runLoop_member_paths {pd : String → Option DateTime}
    {fetch : MailDict → Except String (List FullMsg)} {msgs : List MailDict}
    {st st' : LoopState} (h : runLoop pd fetch msgs st = .ok st') :
    ∀ m ∈ msgs, ∃ p, genParts pd m = some p ∧ p ∈ st'.paths := by
  induction msgs generalizing st with
  | nil => intro m hm; simp at hm
  | cons m₀ rest ih =>
    intro m hm
    simp only [runLoop] at h
    cases hp : processOne pd fetch st m₀ with
    | error e => rw [hp] at h; simp at h
    | ok st₁ =>
      rw [hp] at h
      rcases List.mem_cons.mp hm with rfl | hmem
      · rcases processOne_ok_cases hp with ⟨p, hg, hin, rfl⟩ | ⟨p, hg, _, hpp, _⟩
        · exact ⟨p, hg, runLoop_paths_sub h p hin⟩
        · exact ⟨p, hg, runLoop_paths_sub h p (by rw [hpp]; exact List.mem_cons_self p _)⟩
      · exact ih h m hmem

/-! ## Lemmas: derived paths and tilde names -/

theorem genParts_ne_nil {pd : String → Option DateTime} {m : MailDict}
    {p : List String} (h : genParts pd m = some p) : p ≠ [] := by
  cases hpd : pd m.Date with
  | none => simp [genParts, hpd] at h
  | some dt =>
    simp only [genParts, hpd, Option.map_some', Option.some.injEq] at h
    subst h
    simp

theorem tildeOf_length (p : List String) : (tildeOf p).length = p.length := by
  induction p with
  | nil => rfl
  | cons n rest ih =>
    cases rest with
    | nil => rfl
    | cons r rs => simpa [tildeOf] using ih

theorem append_tilde_ne (n : String) : n ++ "~" ≠ n := by
  intro h
  cases n with
  | mk l =>
    have hd : l ++ ['~'] = l := congrArg String.data h
    have := congrArg List.length hd
    simp at this

theorem tildeOf_ne {p : List String} (hp : p ≠ []) : tildeOf p ≠ p := by
  induction p with
  | nil => exact absurd rfl hp
  | cons n rest ih =>
    cases rest with
    | nil =>
      simp only [tildeOf, ne_eq, List.cons.injEq, not_and]
      intro h
      exact absurd h (append_tilde_ne n)
    | cons r rs =>
      simp only [tildeOf, ne_eq, List.cons.injEq, not_and]
      intro _
      exact ih (by simp)

theorem startsSeg_eq_of_length {p q : List String} (h : startsSeg p q)
    (hl : p.length = q.length) : p = q := by
  rw [startsSeg_iff] at h
  obtain ⟨t, rfl⟩ := h
  have : t = [] := by
    have := hl
    simp at this
    simp [this]
  simp [this]

theorem pathExists_false_iff {fs : FS} {p : List String} :
    FS.pathExists fs p = false ↔ FS.resolve fs p = none := by
  unfold FS.pathExists
  cases FS.resolve fs p <;> simp

/-! ## Claim C5: unparseable Date -/

/-- C5, counterexample.  The claim — an unparseable `Date` is fatal to that
single message only and the run continues with the remaining messages — is
false: nothing in the download loop catches the exception raised by
`gen_filename`, so the run aborts.  On the listing
`[exMsgBadDate, exMsg1]`, the whole run aborts with the metadata error
before touching `exMsg1`; no counters are reported. -/
theorem C5_counterexample :
    backup_imap exPd exFetch (.ok [exMsgBadDate, exMsg1]) "_deleted" .nil
      = .error (.metadataError, .nil) := rfl

/-- C5, amended: an unparseable `Date` aborts the whole run — the
`gen_filename` exception propagates out of `backup_imap`; the remaining
messages are not processed and no counters are reported. -/
theorem C5_amended (pd : String → Option DateTime)
    (fetch : MailDict → Except String (List FullMsg))
    (pre post : List MailDict) (bad : MailDict) (del : String) (fs0 : FS)
    (st : LoopState)
    (hpre : runLoop pd fetch pre ⟨fs0, [], 0, 0, 0⟩ = .ok st)
    (hbad : pd bad.Date = none) :
    backup_imap pd fetch (.ok (pre ++ bad :: post)) del fs0
      = .error (.metadataError, st.fs) := by
  have hg : genParts pd bad = none := by simp [genParts, hbad]
  simp only [backup_imap, runLoop_append, hpre]
  simp [runLoop, processOne_metadata hg]

/-- C5, amended, witness. -/
theorem C5_witness :
    runLoop exPd exFetch [] ⟨.nil, [], 0, 0, 0⟩ = .ok ⟨.nil, [], 0, 0, 0⟩ ∧
    exPd exMsgBadDate.Date = none ∧
    backup_imap exPd exFetch (.ok ([] ++ exMsgBadDate :: [exMsg1])) "_deleted" .nil
      = .error (.metadataError, FS.nil) :=
  ⟨rfl, rfl,
    C5_amended exPd exFetch [] [exMsg1] exMsgBadDate "_deleted" .nil
      ⟨.nil, [], 0, 0, 0⟩ rfl rfl⟩

/-! ## Claim C4: remote failures -/

/-- C4, counterexample.  The claim's second half — a remote failure during
the per-message body fetch is fatal to that message only and the run
continues with the remaining messages — is false: the `RuntimeError` from
the per-message `scan_imap` call is not caught in the loop, so the run
aborts.  On the listing `[exMsg1, exMsg2]` with the fetch of `exMsg1`
failing, the whole run aborts with that remote error; `exMsg2` is never
processed and no counters are reported. -/
theorem C4_counterexample :
    backup_imap exPd exFetchFail (.ok [exMsg1, exMsg2]) "_deleted" .nil
      = .error (.remoteError "imap4.uid(fetch, ...) in INBOX): NO", exDirs) := rfl

/-- C4, amended: a remote failure during the initial listing aborts the
whole run, and a remote failure during the per-message body fetch of a
newly-discovered message *also* aborts the whole run (nothing catches it);
the remaining messages are not processed. -/
theorem C4_amended :
    (∀ (pd : String → Option DateTime)
       (fetch : MailDict → Except String (List FullMsg)) (e : String)
       (del : String) (fs0 : FS),
       backup_imap pd fetch (.error e) del fs0 = .error (.remoteError e, fs0)) ∧
    (∀ (pd : String → Option DateTime)
       (fetch : MailDict → Except String (List FullMsg))
       (pre post : List MailDict) (msg : MailDict) (del : String) (fs0 : FS)
       (st : LoopState) (p : List String) (fs₁ : FS) (e : String),
       runLoop pd fetch pre ⟨fs0, [], 0, 0, 0⟩ = .ok st →
       genParts pd msg = some p → p ∉ st.paths →
       st.fs.create_dir_if_not_exist p.dropLast = some fs₁ →
       fs₁.pathExists p = false → fetch msg = .error e →
       backup_imap pd fetch (.ok (pre ++ msg :: post)) del fs0
         = .error (.remoteError e, fs₁)) := by
  constructor
  · intro pd fetch e del fs0
    simp [backup_imap]
  · intro pd fetch pre post msg del fs0 st p fs₁ e hpre hg hdup hcd hex hf
    simp only [backup_imap, runLoop_append, hpre]
    simp [runLoop, processOne_fetch_err hg hdup hcd hex hf]

/-- C4, amended, witness: the listing-failure half at a concrete error and
the fetch-failure half at a concrete two-message listing. -/
theorem C4_witness :
    backup_imap exPd exFetch (.error "imap4.list(): NO") "_deleted" .nil
      = .error (.remoteError "imap4.list(): NO", .nil) ∧
    backup_imap exPd exFetchFail (.ok ([] ++ exMsg1 :: [exMsg2])) "_deleted" .nil
      = .error (.remoteError "imap4.uid(fetch, ...) in INBOX): NO", exDirs) :=
  ⟨C4_amended.1 exPd exFetch "imap4.list(): NO" "_deleted" .nil,
    C4_amended.2 exPd exFetchFail [] [exMsg2] exMsg1 "_deleted" .nil
      ⟨.nil, [], 0, 0, 0⟩ exPath1 exDirs "imap4.uid(fetch, ...) in INBOX): NO"
      rfl rfl (by simp) rfl rfl rfl⟩

/-! ## Claim C3: serialization failure after the repair -/

/-- C3, counterexample.  The claim — a serialization failure surviving the
single repair pass is fatal to that message only, and the run continues
with the next message — is false: the second `gen.flatten` call is outside
any `try`, so the exception aborts the whole run.  On the listing
`[exMsg1, exMsg2]` with an unrepairable body, the run aborts with the
serialization error while `exMsg2` is never processed; the final path holds
no file (the partial `~` file remains). -/
theorem C3_counterexample :
    backup_imap exPd exFetchBad (.ok [exMsg1, exMsg2]) "_deleted" .nil
      = .error (.serializationError (.unicodeError "character maps to <undefined>"),
          .dir "INBOX"
            (.dir "2020"
              (.file "2020-03-07_14.05_utc+0200_id1@example.com.eml~" "" .nil)
              .nil)
            .nil) := rfl

/-- C3, amended: when serialization fails again after the single repair
pass, the exception aborts the whole run (subsequent messages are not
processed); no file is created at the final path, while the partial
temporary file `path + '~'` is left behind.  (The message's path *was*
already added to the in-run path set before the write, but that set dies
with the aborted run, so a later run sees the message as new.) -/
theorem C3_amended (pd : String → Option DateTime)
    (fetch : MailDict → Except String (List FullMsg))
    (pre post : List MailDict) (msg : MailDict) (del : String) (fs0 : FS)
    (st : LoopState) (p : List String) (fs₁ fs₂ : FS) (fm : FullMsg)
    (l : List FullMsg) (e : SerErr)
    (hpre : runLoop pd fetch pre ⟨fs0, [], 0, 0, 0⟩ = .ok st)
    (hg : genParts pd msg = some p) (hdup : p ∉ st.paths)
    (hcd : st.fs.create_dir_if_not_exist p.dropLast = some fs₁)
    (hex : fs₁.pathExists p = false)
    (hf : fetch msg = .ok (fm :: l))
    (h2 : genParts pd fm.hdr = some p)
    (hfl : attemptFlatten fm.message = .error e)
    (hsf : fs₁.setFile (tildeOf p) "" = some fs₂) :
    backup_imap pd fetch (.ok (pre ++ msg :: post)) del fs0
      = .error (.serializationError e, fs₂) ∧
    fs₂.pathExists p = false ∧
    fs₂.getFileAt (tildeOf p) = some "" := by
  have hpne : p ≠ [] := genParts_ne_nil hg
  have htne : tildeOf p ≠ p := tildeOf_ne hpne
  refine ⟨?_, ?_, ?_⟩
  · simp only [backup_imap, runLoop_append, hpre]
    simp [runLoop, processOne_ser_err hg hdup hcd hex hf h2 hfl hsf]
  · rw [pathExists_false_iff]
    rw [FS.setFile_resolve_other hsf p
      (fun hs => htne (startsSeg_eq_of_length hs (by rw [tildeOf_length])).symm)
      (fun hs => htne (startsSeg_eq_of_length hs (by rw [tildeOf_length])))]
    exact pathExists_false_iff.mp hex
  · simp [FS.getFileAt, FS.setFile_resolve_self hsf]

/-- C3, amended, witness: the unrepairable body at a concrete two-message
listing. -/
theorem C3_witness :
    attemptFlatten exBadMime
      = .error (.unicodeError "character maps to <undefined>") ∧
    backup_imap exPd exFetchBad (.ok ([] ++ exMsg1 :: [exMsg2])) "_deleted" .nil
      = .error (.serializationError (.unicodeError "character maps to <undefined>"),
          .dir "INBOX"
            (.dir "2020"
              (.file "2020-03-07_14.05_utc+0200_id1@example.com.eml~" "" .nil)
              .nil)
            .nil) ∧
    FS.pathExists
      (.dir "INBOX"
        (.dir "2020"
          (.file "2020-03-07_14.05_utc+0200_id1@example.com.eml~" "" .nil)
          .nil)
        .nil) exPath1 = false :=
  ⟨rfl,
    (C3_amended exPd exFetchBad [] [exMsg2] exMsg1 "_deleted" .nil
      ⟨.nil, [], 0, 0, 0⟩ exPath1 exDirs _ ⟨exMsg1, exBadMime⟩ []
      (.unicodeError "character maps to <undefined>")
      rfl rfl (by simp) rfl rfl rfl rfl rfl rfl).1,
    (C3_amended exPd exFetchBad [] [exMsg2] exMsg1 "_deleted" .nil
      ⟨.nil, [], 0, 0, 0⟩ exPath1 exDirs _ ⟨exMsg1, exBadMime⟩ []
      (.unicodeError "character maps to <undefined>")
      rfl rfl (by simp) rfl rfl rfl rfl rfl rfl).2.1⟩

/-! ## Claim C6: duplicate detection -/

/-- C6: when two messages of one run derive the same path, the first is
processed — its path registered and exactly one of `downloaded` /
`alreadyExisting` incremented, no warning — and when the second is reached
it is skipped entirely: one duplicate warning, and the rest of the run
continues from an otherwise unchanged state (same filesystem, same path
set, neither counter incremented for it). -/
theorem C6_duplicate_skip (pd : String → Option DateTime)
    (fetch : MailDict → Except String (List FullMsg))
    (m₁ m₂ : MailDict) (mid post : List MailDict) (p : List String)
    (st₀ st₁ stm : LoopState)
    (hg₁ : genParts pd m₁ = some p) (hg₂ : genParts pd m₂ = some p)
    (hp : p ∉ st₀.paths)
    (h₁ : processOne pd fetch st₀ m₁ = .ok st₁)
    (hmid : runLoop pd fetch mid st₁ = .ok stm) :
    (st₁.paths = p :: st₀.paths ∧ st₁.dupWarnings = st₀.dupWarnings ∧
      st₁.downloaded + st₁.alreadyExisting =
        st₀.downloaded + st₀.alreadyExisting + 1) ∧
    runLoop pd fetch (m₂ :: post) stm =
      runLoop pd fetch post { stm with dupWarnings := stm.dupWarnings + 1 } := by
  have hfirst : st₁.paths = p :: st₀.paths ∧ st₁.dupWarnings = st₀.dupWarnings ∧
      st₁.downloaded + st₁.alreadyExisting =
        st₀.downloaded + st₀.alreadyExisting + 1 := by
    rcases processOne_ok_cases h₁ with ⟨p', hg', hin, rfl⟩ | ⟨p', hg', _, hpp, hdw, hsum⟩
    · rw [hg₁] at hg'
      cases hg'
      exact absurd hin hp
    · rw [hg₁] at hg'
      cases hg'
      exact ⟨hpp, hdw, hsum⟩
  refine ⟨hfirst, ?_⟩
  have hmem : p ∈ stm.paths :=
    runLoop_paths_sub hmid p (by rw [hfirst.1]; exact List.mem_cons_self p _)
  simp [runLoop, processOne_dup hg₂ hmem]

/-- C6, witness: the same message listed twice on an empty root. -/
theorem C6_witness :
    genParts exPd exMsg1 = some exPath1 ∧
    exPath1 ∉ (⟨FS.nil, [], 0, 0, 0⟩ : LoopState).paths ∧
    processOne exPd exFetch ⟨FS.nil, [], 0, 0, 0⟩ exMsg1 = .ok exSt1 ∧
    ((exSt1.paths = exPath1 :: (⟨FS.nil, [], 0, 0, 0⟩ : LoopState).paths ∧
      exSt1.dupWarnings = 0 ∧
      exSt1.downloaded + exSt1.alreadyExisting = 0 + 0 + 1) ∧
     runLoop exPd exFetch [exMsg1] exSt1 =
       runLoop exPd exFetch [] { exSt1 with dupWarnings := exSt1.dupWarnings + 1 }) :=
  ⟨rfl, by simp, rfl,
    C6_duplicate_skip exPd exFetch exMsg1 exMsg1 [] [] exPath1
      ⟨FS.nil, [], 0, 0, 0⟩ exSt1 exSt1 rfl rfl (by simp) rfl rfl⟩

/-! ## Lemmas: headers and the `fix_cte` repair -/

theorem keyEq_refl (n : String) : keyEq n n = true := by
  simp [keyEq]

theorem keyEq_cte_ct :
    keyEq "content-transfer-encoding" "content-type" = false := by decide

theorem hdrGet_append (hs : Headers) (n : String) (v : Option String) (m : String) :
    hdrGet (hs ++ [(n, v)]) m =
      match hdrGet hs m with
      | some x => some x
      | none => if keyEq n m then some v else none := by
  induction hs with
  | nil => simp [hdrGet]
  | cons p rest ih =>
    by_cases h : keyEq p.1 m <;> simp [hdrGet, h, ih]

theorem charsetDeclared_add_cte (hs : Headers) :
    charsetDeclared (hdrAdd hs "content-transfer-encoding" none) =
      charsetDeclared hs := by
  simp only [charsetDeclared, hdrAdd, hdrGet_append]
  cases hdrGet hs "content-type" with
  | none => simp [keyEq_cte_ct]
  | some v => rfl

theorem hdrContains_add_self (hs : Headers) (n : String) (v : Option String) :
    hdrContains (hdrAdd hs n v) n = true := by
  simp only [hdrContains, hdrAdd, hdrGet_append]
  cases hdrGet hs n with
  | none => simp [keyEq_refl]
  | some x => simp

mutual
/-- After the `fix_cte` pass, a message none of whose parts has the
unencodable-charset condition serializes successfully: the pass injects the
absent-value `content-transfer-encoding` header exactly on the parts that
raise for its absence, depth-first. -/
theorem fixCte_ok (m : Mime) (h : noUnicodeIssue m = true) :
    ∃ s, serialize (fixCte m) = .ok s := by
  cases m with
  | leaf hs nc ue body =>
    have h' : (ue && charsetDeclared hs) = false := by
      simpa only [noUnicodeIssue, Bool.not_eq_true'] using h
    cases hnc : nc with
    | false =>
      have hser : serialize (Mime.leaf hs false ue body)
          = .ok (renderHeaders hs ++ body) := by
        simp [serialize, h']
      exact ⟨renderHeaders hs ++ body, by simp [fixCte, fixTop, hser]⟩
    | true =>
      cases hct : hdrContains hs "content-transfer-encoding" with
      | true =>
        have hser : serialize (Mime.leaf hs true ue body)
            = .ok (renderHeaders hs ++ body) := by
          simp [serialize, hct, h']
        exact ⟨renderHeaders hs ++ body, by simp [fixCte, fixTop, hser]⟩
      | false =>
        have hser : serialize (Mime.leaf hs true ue body)
            = .error (.keyError "content-transfer-encoding") := by
          simp [serialize, hct]
        have h1 := hdrContains_add_self hs "content-transfer-encoding" none
        have h2 : (ue && charsetDeclared
            (hdrAdd hs "content-transfer-encoding" none)) = false := by
          rw [charsetDeclared_add_cte]
          exact h'
        refine ⟨renderHeaders (hdrAdd hs "content-transfer-encoding" none) ++ body, ?_⟩
        simp only [fixCte, fixTop, hser]
        simp only [Mime.headers, Mime.withHeaders, hct, Bool.not_false,
          if_pos rfl, if_true]
        simp [serialize, h1, h2]
  | multi hs parts =>
    simp only [noUnicodeIssue] at h
    obtain ⟨s, hs'⟩ := fixCteSeq_ok parts h
    simp only [fixCte, fixTop]
    simp [serialize, hs']

/-- `fixCte_ok` over a sub-part list. -/
theorem fixCteSeq_ok (ms : MimeSeq) (h : noUnicodeIssueSeq ms = true) :
    ∃ s, serializeSeq (fixCteSeq ms) = .ok s := by
  cases ms with
  | nil => exact ⟨"", rfl⟩
  | cons m rest =>
    simp only [noUnicodeIssueSeq, Bool.and_eq_true] at h
    obtain ⟨s₁, h₁⟩ := fixCte_ok m h.1
    obtain ⟨s₂, h₂⟩ := fixCteSeq_ok rest h.2
    exact ⟨s₁ ++ s₂, by simp [fixCteSeq, serializeSeq, h₁, h₂]⟩
end

/-! ## Claim C7: repair fallback -/

/-- C7: when serialization of a body fails with one of the two recognized
recoverable conditions — `KeyError('content-transfer-encoding')` or
`UnicodeEncodeError(..., 'character maps to <undefined>')` — the writer
applies exactly one `fix_cte` repair pass and retries serialization exactly
once: the write's outcome is precisely the retry's outcome on the repaired
message (so a second failure is final; no further repair attempts exist).
Moreover, when the failure was the missing-transfer-encoding condition
alone (no part has the unencodable-charset condition), the single pass —
injecting absent-value `content-transfer-encoding` fields depth-first on
the sub-parts lacking them — makes the retry succeed. -/
theorem C7_repair_once (m : Mime) (e : SerErr)
    (herr : serialize m = .error e)
    (_hrec : e = .keyError "content-transfer-encoding" ∨
             e = .unicodeError "character maps to <undefined>") :
    attemptFlatten m = serialize (fixCte m) ∧
    (∀ e', serialize (fixCte m) = .error e' → attemptFlatten m = .error e') ∧
    (noUnicodeIssue m = true → ∃ s, attemptFlatten m = .ok s) := by
  have hctl : attemptFlatten m = serialize (fixCte m) := by
    simp [attemptFlatten, herr]
  refine ⟨hctl, ?_, ?_⟩
  · intro e' he'
    rw [hctl, he']
  · intro hno
    obtain ⟨s, hs⟩ := fixCte_ok m hno
    exact ⟨s, by rw [hctl, hs]⟩

/-- C7, witness: a multipart body whose sub-part lacks its
transfer-encoding declaration. -/
theorem C7_witness :
    serialize exCteMime = .error (.keyError "content-transfer-encoding") ∧
    (.keyError "content-transfer-encoding" = SerErr.keyError "content-transfer-encoding" ∨
     .keyError "content-transfer-encoding" = SerErr.unicodeError "character maps to <undefined>") ∧
    (attemptFlatten exCteMime = serialize (fixCte exCteMime) ∧
     (∀ e', serialize (fixCte exCteMime) = .error e' →
        attemptFlatten exCteMime = .error e') ∧
     (noUnicodeIssue exCteMime = true → ∃ s, attemptFlatten exCteMime = .ok s)) :=
  ⟨rfl, .inl rfl,
    C7_repair_once exCteMime (.keyError "content-transfer-encoding") rfl (.inl rfl)⟩

/-! ## Lemmas: the quarantine sweep on already-clean trees -/

theorem sweepAux_swept {del : String} {live : List (List String)}
    {pre : List String} {fs : FS} (h : sweptFS del live pre fs) :
    ∃ k, sweepAux del live pre fs = some (fs, [], k, 0) := by
  induction fs generalizing pre with
  | nil => exact ⟨0, rfl⟩
  | file n c rest ih =>
    obtain ⟨hn, hrest⟩ := h
    obtain ⟨k₀, hr⟩ := ih hrest
    cases hn with
    | inl hdel =>
      exact ⟨k₀, by simp [sweepAux, hr, hdel]⟩
    | inr hlive =>
      by_cases hdel : n = del
      · exact ⟨k₀, by simp [sweepAux, hr, hdel]⟩
      · exact ⟨k₀ + 1, by simp [sweepAux, hr, hdel, hlive]⟩
  | dir n ch rest ih1 ih2 =>
    obtain ⟨hn, hrest⟩ := h
    obtain ⟨k₀, hr⟩ := ih2 hrest
    by_cases hdel : n = del
    · exact ⟨k₀, by simp [sweepAux, hr, hdel]⟩
    · cases hn with
      | inl h' => exact absurd h' hdel
      | inr hch =>
        obtain ⟨k₁, hc⟩ := ih1 hch
        exact ⟨k₀ + k₁, by simp [sweepAux, hr, hdel, hc, finalizeDel]⟩

/-- A tree in the swept state is a fixpoint of the sweep: nothing is moved
and the tree is returned unchanged. -/
theorem sweepDir_swept {del : String} {live : List (List String)}
    {pre : List String} {fs : FS} (h : sweptFS del live pre fs) :
    ∃ k, sweepDir del live pre fs = some (fs, k, 0) := by
  obtain ⟨k, hk⟩ := sweepAux_swept h
  exact ⟨k, by simp [sweepDir, hk, finalizeDel]⟩

theorem sweepAux_allKept {del : String} {live : List (List String)}
    {pre : List String} {fs : FS} (h : allKeptFS del live pre fs) :
    sweepAux del live pre fs = some (fs, [], FS.countFiles fs, 0) := by
  induction fs generalizing pre with
  | nil => rfl
  | file n c rest ih =>
    obtain ⟨hn, hlive, hrest⟩ := h
    simp [sweepAux, ih hrest, hn, hlive, FS.countFiles]
  | dir n ch rest ih1 ih2 =>
    obtain ⟨hn, hch, hrest⟩ := h
    simp [sweepAux, ih2 hrest, hn, ih1 hch, finalizeDel, FS.countFiles]
    omega

/-- On a tree whose entries all avoid the quarantine name and whose files
are all live, the sweep keeps every file (counting them) and moves
nothing. -/
theorem sweepDir_allKept {del : String} {live : List (List String)}
    {pre : List String} {fs : FS} (h : allKeptFS del live pre fs) :
    sweepDir del live pre fs = some (fs, FS.countFiles fs, 0) := by
  simp [sweepDir, sweepAux_allKept h, finalizeDel]

theorem sweptFS_updateChildDir_del {del : String} {live : List (List String)}
    {pre : List String} {fs : FS} (h : sweptFS del live pre fs) (ch : FS) :
    sweptFS del live pre (FS.updateChildDir fs del ch) := by
  induction fs generalizing pre with
  | nil => trivial
  | file n c rest ih =>
    obtain ⟨hn, hrest⟩ := h
    by_cases hdel : n = del
    · simp only [FS.updateChildDir, if_pos hdel]
      exact ⟨hn, hrest⟩
    · simp only [FS.updateChildDir, if_neg hdel]
      exact ⟨hn, ih hrest⟩
  | dir n ch₀ rest ih1 ih2 =>
    obtain ⟨hn, hrest⟩ := h
    by_cases hdel : n = del
    · simp only [FS.updateChildDir, if_pos hdel]
      exact ⟨.inl hdel, hrest⟩
    · simp only [FS.updateChildDir, if_neg hdel]
      exact ⟨hn, ih2 hrest⟩

theorem sweptFS_appendDir_del {del : String} {live : List (List String)}
    {pre : List String} {fs : FS} (h : sweptFS del live pre fs) (ch : FS) :
    sweptFS del live pre (FS.appendDir fs del ch) := by
  induction fs generalizing pre with
  | nil => exact ⟨.inl rfl, trivial⟩
  | file n c rest ih =>
    obtain ⟨hn, hrest⟩ := h
    exact ⟨hn, ih hrest⟩
  | dir n ch₀ rest ih1 ih2 =>
    obtain ⟨hn, hrest⟩ := h
    exact ⟨hn, ih2 hrest⟩

theorem finalizeDel_post {del : String} {live : List (List String)}
    {pre : List String} {fs' fs'' : FS} {mv : List (String × String)}
    (hsw : sweptFS del live pre fs')
    (h : finalizeDel del fs' mv = some fs'') : sweptFS del live pre fs'' := by
  cases mv with
  | nil =>
    simp only [finalizeDel, Option.some.injEq] at h
    subst h
    exact hsw
  | cons x mv' =>
    simp only [finalizeDel] at h
    cases hl : fs'.lookup del with
    | some v =>
      cases v with
      | file c => simp [hl] at h
      | dir ch =>
        simp only [hl] at h
        cases hp : placeAll ch (x :: mv') with
        | none => simp [hp] at h
        | some ch₂ =>
          simp only [hp, Option.map_some', Option.some.injEq] at h
          subst h
          exact sweptFS_updateChildDir_del hsw ch₂
    | none =>
      simp only [hl] at h
      cases hp : placeAll FS.nil (x :: mv') with
      | none => simp [hp] at h
      | some ch₂ =>
        simp only [hp, Option.map_some', Option.some.injEq] at h
        subst h
        exact sweptFS_appendDir_del hsw ch₂

theorem sweepAux_post {del : String} {live : List (List String)}
    {pre : List String} {fs fs' : FS} {mv : List (String × String)} {k d : Nat}
    (h : sweepAux del live pre fs = some (fs', mv, k, d)) :
    sweptFS del live pre fs' := by
  induction fs generalizing pre fs' mv k d with
  | nil =>
    simp only [sweepAux, Option.some.injEq] at h
    obtain ⟨rfl, -⟩ := Prod.mk.injEq .. ▸ h
    trivial
  | file n c rest ih =>
    simp only [sweepAux] at h
    cases hr : sweepAux del live pre rest with
    | none => simp [hr] at h
    | some r =>
      obtain ⟨rest', mv₀, k₀, d₀⟩ := r
      rw [hr] at h
      simp only at h
      by_cases hdel : n = del
      · rw [if_pos hdel] at h
        simp only [Option.some.injEq] at h
        obtain ⟨rfl, -⟩ := Prod.mk.injEq .. ▸ h
        exact ⟨.inl hdel, ih hr⟩
      · rw [if_neg hdel] at h
        by_cases hlive : (pre ++ [n]) ∈ live
        · rw [if_pos hlive] at h
          simp only [Option.some.injEq] at h
          obtain ⟨rfl, -⟩ := Prod.mk.injEq .. ▸ h
          exact ⟨.inr hlive, ih hr⟩
        · rw [if_neg hlive] at h
          simp only [Option.some.injEq] at h
          obtain ⟨rfl, -⟩ := Prod.mk.injEq .. ▸ h
          exact ih hr
  | dir n ch rest ih1 ih2 =>
    simp only [sweepAux] at h
    cases hr : sweepAux del live pre rest with
    | none => simp [hr] at h
    | some r =>
      obtain ⟨rest', mv₀, k₀, d₀⟩ := r
      rw [hr] at h
      simp only at h
      by_cases hdel : n = del
      · rw [if_pos hdel] at h
        simp only [Option.some.injEq] at h
        obtain ⟨rfl, -⟩ := Prod.mk.injEq .. ▸ h
        exact ⟨.inl hdel, ih2 hr⟩
      · rw [if_neg hdel] at h
        cases hc : sweepAux del live (pre ++ [n]) ch with
        | none => rw [hc] at h; simp at h
        | some c' =>
          obtain ⟨ch', mv₁, k₁, d₁⟩ := c'
          rw [hc] at h
          simp only at h
          cases hf : finalizeDel del ch' mv₁ with
          | none => rw [hf] at h; simp at h
          | some ch₂ =>
            rw [hf] at h
            simp only [Option.some.injEq] at h
            obtain ⟨rfl, -⟩ := Prod.mk.injEq .. ▸ h
            exact ⟨.inr (finalizeDel_post (ih1 hc) hf), ih2 hr⟩

/-- After a sweep, the tree is in the swept state: every file outside
quarantine-named entries sits at a live path. -/
theorem sweepDir_post {del : String} {live : List (List String)}
    {pre : List String} {fs fs'' : FS} {k d : Nat}
    (h : sweepDir del live pre fs = some (fs'', k, d)) :
    sweptFS del live pre fs'' := by
  simp only [sweepDir] at h
  cases ha : sweepAux del live pre fs with
  | none => simp [ha] at h
  | some a =>
    obtain ⟨fs', mv, k', d'⟩ := a
    rw [ha] at h
    simp only at h
    cases hf : finalizeDel del fs' mv with
    | none => rw [hf] at h; simp at h
    | some fs₂ =>
      rw [hf] at h
      simp only [Option.some.injEq] at h
      obtain ⟨rfl, -⟩ := Prod.mk.injEq .. ▸ h
      exact finalizeDel_post (sweepAux_post ha) hf

theorem sweptFS_mono {del : String} {live live' : List (List String)}
    (hsub : ∀ x, x ∈ live → x ∈ live') :
    ∀ {pre : List String} {fs : FS},
      sweptFS del live pre fs → sweptFS del live' pre fs := by
  intro pre fs h
  induction fs generalizing pre with
  | nil => trivial
  | file n c rest ih =>
    obtain ⟨hn, hrest⟩ := h
    exact ⟨hn.imp id (hsub _), ih hrest⟩
  | dir n ch rest ih1 ih2 =>
    obtain ⟨hn, hrest⟩ := h
    exact ⟨hn.imp id ih1, ih2 hrest⟩

/-! ## Lemmas: the sweep consults the live set only at tested file paths -/

theorem sweepAux_congr {del : String} {live live' : List (List String)}
    {pre : List String} {fs : FS}
    (hagree : ∀ t ∈ sweepTested del pre fs, (t ∈ live ↔ t ∈ live')) :
    sweepAux del live pre fs = sweepAux del live' pre fs := by
  induction fs generalizing pre with
  | nil => rfl
  | file n c rest ih =>
    have hrest : sweepAux del live pre rest = sweepAux del live' pre rest :=
      ih fun t ht => hagree t (by simp [sweepTested]; exact .inr ht)
    simp only [sweepAux, hrest]
    cases sweepAux del live' pre rest with
    | none => rfl
    | some r =>
      obtain ⟨rest', mv₀, k₀, d₀⟩ := r
      by_cases hdel : n = del
      · simp [hdel]
      · have hmem : ((pre ++ [n]) ∈ live ↔ (pre ++ [n]) ∈ live') :=
          hagree _ (by simp [sweepTested, hdel])
        by_cases hl : (pre ++ [n]) ∈ live
        · simp [hdel, hl, hmem.mp hl]
        · have hl' : (pre ++ [n]) ∉ live' := fun h => hl (hmem.mpr h)
          simp [hdel, hl, hl']
  | dir n ch rest ih1 ih2 =>
    have hrest : sweepAux del live pre rest = sweepAux del live' pre rest :=
      ih2 fun t ht => hagree t (by simp [sweepTested]; exact .inr ht)
    simp only [sweepAux, hrest]
    cases sweepAux del live' pre rest with
    | none => rfl
    | some r =>
      obtain ⟨rest', mv₀, k₀, d₀⟩ := r
      by_cases hdel : n = del
      · simp [hdel]
      · have hch : sweepAux del live (pre ++ [n]) ch
            = sweepAux del live' (pre ++ [n]) ch :=
          ih1 fun t ht => hagree t (by simp [sweepTested, hdel]; exact .inl ht)
        simp [hdel, hch]

/-- The sweep's entire outcome depends on the live set only through the
tested file paths. -/
theorem sweepDir_congr {del : String} {live live' : List (List String)}
    {pre : List String} {fs : FS}
    (hagree : ∀ t ∈ sweepTested del pre fs, (t ∈ live ↔ t ∈ live')) :
    sweepDir del live pre fs = sweepDir del live' pre fs := by
  simp [sweepDir, sweepAux_congr hagree]

/-- In a duplicate-name-free tree, every tested path resolves to a file. -/
theorem sweepTested_resolve {del : String} {pre : List String} {fs : FS}
    (hnd : FS.nodupNames fs = true) :
    ∀ t ∈ sweepTested del pre fs,
      ∃ rel c, t = pre ++ rel ∧ FS.resolve fs rel = some (.file c) := by
  induction fs generalizing pre with
  | nil => intro t ht; simp [sweepTested] at ht
  | file n c rest ih =>
    rw [FS.nodup_file_iff] at hnd
    intro t ht
    simp only [sweepTested, List.mem_append] at ht
    cases ht with
    | inl h1 =>
      by_cases hdel : n = del
      · simp [hdel] at h1
      · simp only [if_neg hdel, List.mem_singleton] at h1
        exact ⟨[n], c, h1, by simp [FS.resolve_single, FS.lookup]⟩
    | inr h2 =>
      obtain ⟨rel, c', hrel, hres⟩ := ih hnd.2 t h2
      refine ⟨rel, c', hrel, ?_⟩
      cases rel with
      | nil => simp [FS.resolve] at hres
      | cons m xs =>
        have hmn : n ≠ m := by
          intro he
          subst he
          simp only [FS.resolve] at hres
          rw [hnd.1] at hres
          simp at hres
        simpa [FS.resolve, FS.lookup, hmn] using hres
  | dir n ch rest ih1 ih2 =>
    rw [FS.nodup_dir_iff] at hnd
    intro t ht
    simp only [sweepTested, List.mem_append] at ht
    cases ht with
    | inl h1 =>
      by_cases hdel : n = del
      · simp [hdel] at h1
      · simp only [if_neg hdel] at h1
        obtain ⟨rel, c', hrel, hres⟩ := ih1 hnd.2.1 t h1
        refine ⟨n :: rel, c', by simpa using hrel, ?_⟩
        simpa [FS.resolve, FS.lookup] using hres
    | inr h2 =>
      obtain ⟨rel, c', hrel, hres⟩ := ih2 hnd.2.2 t h2
      refine ⟨rel, c', hrel, ?_⟩
      cases rel with
      | nil => simp [FS.resolve] at hres
      | cons m xs =>
        have hmn : n ≠ m := by
          intro he
          subst he
          simp only [FS.resolve] at hres
          rw [hnd.1] at hres
          simp at hres
        simpa [FS.resolve, FS.lookup, hmn] using hres

/-! ## Lemmas: quarantine placement -/

theorem placeAll_lookup_other {ch ch₂ : FS} {mv : List (String × String)}
    (h : placeAll ch mv = some ch₂) :
    ∀ m, (∀ c, (m, c) ∉ mv) → FS.lookup ch₂ m = FS.lookup ch m := by
  induction mv generalizing ch with
  | nil =>
    simp only [placeAll, Option.some.injEq] at h
    subst h
    intro m _
    rfl
  | cons x mv' ih =>
    obtain ⟨n, c⟩ := x
    intro m hm
    have hmn : m ≠ n := by
      intro he
      exact hm c (by rw [he]; exact List.mem_cons_self _ _)
    simp only [placeAll] at h
    cases hl : ch.lookup n with
    | some v =>
      cases v with
      | dir chd => simp [hl] at h
      | file c₀ =>
        rw [hl] at h
        have := ih h m (fun c' hc' => hm c' (List.mem_cons_of_mem _ hc'))
        rw [this, FS.lookup_overwriteFile c hl, if_neg (fun he => hmn he.symm)]
    | none =>
      rw [hl] at h
      have := ih h m (fun c' hc' => hm c' (List.mem_cons_of_mem _ hc'))
      rw [this, FS.lookup_appendFile]
      cases FS.lookup ch m with
      | some v => rfl
      | none => rw [if_neg (fun he => hmn he.symm)]

theorem placeAll_lookup_mem {ch ch₂ : FS} {mv : List (String × String)}
    (h : placeAll ch mv = some ch₂)
    (hfun : ∀ x y, x ∈ mv → y ∈ mv → x.1 = y.1 → x.2 = y.2) :
    ∀ m c, (m, c) ∈ mv → FS.lookup ch₂ m = some (.file c) := by
  induction mv generalizing ch with
  | nil => intro m c hc; simp at hc
  | cons x mv' ih =>
    obtain ⟨n, c₀⟩ := x
    intro m c hc
    simp only [placeAll] at h
    have hfunTail : ∀ x y, x ∈ mv' → y ∈ mv' → x.1 = y.1 → x.2 = y.2 :=
      fun a b ha hb =>
        hfun a b (List.mem_cons_of_mem _ ha) (List.mem_cons_of_mem _ hb)
    rcases List.mem_cons.mp hc with heq | hmem
    · obtain ⟨rfl, rfl⟩ := Prod.mk.injEq .. ▸ heq
      by_cases hin : ∃ c', (m, c') ∈ mv'
      · obtain ⟨c', hc'⟩ := hin
        have hcc : c' = c :=
          hfun (m, c') (m, c) (List.mem_cons_of_mem _ hc')
            (List.mem_cons_self _ _) rfl
        subst hcc
        cases hl : ch.lookup m with
        | some v =>
          cases v with
          | dir chd => simp [hl] at h
          | file cf => rw [hl] at h; exact ih h hfunTail m c' hc'
        | none => rw [hl] at h; exact ih h hfunTail m c' hc'
      · have hno : ∀ c', (m, c') ∉ mv' := fun c' hc' => hin ⟨c', hc'⟩
        cases hl : ch.lookup m with
        | some v =>
          cases v with
          | dir chd => simp [hl] at h
          | file cf =>
            rw [hl] at h
            rw [placeAll_lookup_other h m hno,
              FS.lookup_overwriteFile c hl, if_pos rfl]
        | none =>
          rw [hl] at h
          rw [placeAll_lookup_other h m hno, FS.lookup_appendFile, hl,
            if_pos rfl]
    · cases hl : ch.lookup n with
      | some v =>
        cases v with
        | dir chd => simp [hl] at h
        | file cf => rw [hl] at h; exact ih h hfunTail m c hmem
      | none => rw [hl] at h; exact ih h hfunTail m c hmem

theorem placeAll_exists_mono {ch ch₂ : FS} {mv : List (String × String)}
    (h : placeAll ch mv = some ch₂) :
    ∀ x, FS.pathExists ch x = true → FS.pathExists ch₂ x = true := by
  induction mv generalizing ch with
  | nil =>
    simp only [placeAll, Option.some.injEq] at h
    subst h
    exact fun x hx => hx
  | cons p mv' ih =>
    obtain ⟨n, c⟩ := p
    intro x hx
    simp only [placeAll] at h
    cases hl : ch.lookup n with
    | some v =>
      cases v with
      | dir chd => simp [hl] at h
      | file c₀ =>
        rw [hl] at h
        apply ih h
        cases x with
        | nil => simp [FS.pathExists, FS.resolve]
        | cons m xs =>
          simp only [FS.pathExists, FS.resolve,
            FS.lookup_overwriteFile c hl] at hx ⊢
          by_cases hmn : n = m
          · subst hmn
            rw [if_pos rfl]
            rw [hl] at hx
            cases xs with
            | nil => simp
            | cons y ys => simp at hx
          · rw [if_neg hmn]
            exact hx
    | none =>
      rw [hl] at h
      apply ih h
      cases x with
      | nil => simp [FS.pathExists, FS.resolve]
      | cons m xs =>
        simp only [FS.pathExists, FS.resolve, FS.lookup_appendFile] at hx ⊢
        cases hlm : ch.lookup m with
        | some v => rw [hlm] at hx; exact hx
        | none => rw [hlm] at hx; simp at hx

theorem finalizeDel_lookup_other {del : String} {fs' fs'' : FS}
    {mv : List (String × String)} (h : finalizeDel del fs' mv = some fs'') :
    ∀ m, m ≠ del → FS.lookup fs'' m = FS.lookup fs' m := by
  intro m hm
  cases mv with
  | nil =>
    simp only [finalizeDel, Option.some.injEq] at h
    subst h
    rfl
  | cons x mv' =>
    simp only [finalizeDel] at h
    cases hl : fs'.lookup del with
    | some v =>
      cases v with
      | file c => simp [hl] at h
      | dir ch =>
        simp only [hl] at h
        cases hp : placeAll ch (x :: mv') with
        | none => simp [hp] at h
        | some ch₂ =>
          rw [hp] at h
          simp only [Option.map_some', Option.some.injEq] at h
          subst h
          rw [FS.lookup_updateChildDir ch₂ hl, if_neg (fun he => hm he.symm)]
    | none =>
      simp only [hl] at h
      cases hp : placeAll FS.nil (x :: mv') with
      | none => simp [hp] at h
      | some ch₂ =>
        rw [hp] at h
        simp only [Option.map_some', Option.some.injEq] at h
        subst h
        rw [FS.lookup_appendDir]
        cases FS.lookup fs' m with
        | some v => rfl
        | none => rw [if_neg (fun he => hm he.symm)]

theorem finalizeDel_del_mem {del : String} {fs' fs'' : FS}
    {mv : List (String × String)} (h : finalizeDel del fs' mv = some fs'')
    (hfun : ∀ x y, x ∈ mv → y ∈ mv → x.1 = y.1 → x.2 = y.2)
    {m : String} {c : String} (hmem : (m, c) ∈ mv) :
    ∃ chd, FS.lookup fs'' del = some (.dir chd) ∧
      FS.lookup chd m = some (.file c) := by
  cases mv with
  | nil => simp at hmem
  | cons x mv' =>
    simp only [finalizeDel] at h
    cases hl : fs'.lookup del with
    | some v =>
      cases v with
      | file c' => simp [hl] at h
      | dir ch =>
        simp only [hl] at h
        cases hp : placeAll ch (x :: mv') with
        | none => simp [hp] at h
        | some ch₂ =>
          rw [hp] at h
          simp only [Option.map_some', Option.some.injEq] at h
          subst h
          exact ⟨ch₂, by rw [FS.lookup_updateChildDir ch₂ hl, if_pos rfl],
            placeAll_lookup_mem hp hfun m c hmem⟩
    | none =>
      simp only [hl] at h
      cases hp : placeAll FS.nil (x :: mv') with
      | none => simp [hp] at h
      | some ch₂ =>
        rw [hp] at h
        simp only [Option.map_some', Option.some.injEq] at h
        subst h
        refine ⟨ch₂, ?_, placeAll_lookup_mem hp hfun m c hmem⟩
        rw [FS.lookup_appendDir, hl, if_pos rfl]

/-! ## Lemmas: what one directory level of the sweep does -/

/-- The walk `sweepAux`, characterized entry-wise: a file not named like
the quarantine directory is kept in place iff its path is live and queued
for the move otherwise; a subdirectory not so named is replaced by its own
completed sweep; entries named like the quarantine directory are untouched;
and every queued move comes from a file of the level. -/
theorem sweepAux_char {del : String} {live : List (List String)}
    {pre : List String} {fs fs' : FS} {mv : List (String × String)} {k d : Nat}
    (h : sweepAux del live pre fs = some (fs', mv, k, d))
    (hnd : FS.nodupNames fs = true) :
    (∀ m c, FS.lookup fs m = some (.file c) → m ≠ del →
       ((pre ++ [m]) ∈ live → FS.lookup fs' m = some (.file c)) ∧
       ((pre ++ [m]) ∉ live →
          FS.lookup fs' m = none ∧ (m, c) ∈ mv ∧ 1 ≤ d)) ∧
    (∀ m ch, FS.lookup fs m = some (.dir ch) → m ≠ del →
       ∃ ch₂ k₁ d₁, sweepDir del live (pre ++ [m]) ch = some (ch₂, k₁, d₁) ∧
         FS.lookup fs' m = some (.dir ch₂) ∧ d₁ ≤ d) ∧
    (∀ m, FS.lookup fs m = none → FS.lookup fs' m = none) ∧
    (FS.lookup fs' del = FS.lookup fs del) ∧
    (∀ x ∈ mv, FS.lookup fs x.1 = some (.file x.2) ∧ x.1 ≠ del) := by
  induction fs generalizing fs' mv k d with
  | nil =>
    simp only [sweepAux, Option.some.injEq] at h
    obtain ⟨rfl, rfl, rfl, rfl⟩ := Prod.mk.injEq .. ▸ h
    refine ⟨?_, ?_, ?_, rfl, ?_⟩
    · intro m c hm; simp [FS.lookup] at hm
    · intro m ch hm; simp [FS.lookup] at hm
    · intro m _; simp [FS.lookup]
    · intro x hx; simp at hx
  | file n c₀ rest ih =>
    rw [FS.nodup_file_iff] at hnd
    simp only [sweepAux] at h
    cases hr : sweepAux del live pre rest with
    | none => simp [hr] at h
    | some r =>
      obtain ⟨rest', mv₀, k₀, d₀⟩ := r
      rw [hr] at h
      simp only at h
      obtain ⟨hfile, hdir, hnone, hdelp, hmv⟩ := ih hr hnd.2
      have hmvfs : ∀ x ∈ mv₀,
          FS.lookup (FS.file n c₀ rest) x.1 = some (.file x.2) ∧ x.1 ≠ del := by
        intro x hx
        obtain ⟨hlx, hxdel⟩ := hmv x hx
        have hxn : n ≠ x.1 := by
          intro he
          rw [← he, hnd.1] at hlx
          exact absurd hlx (by simp)
        exact ⟨by simpa [FS.lookup, hxn] using hlx, hxdel⟩
      have hnonefs : (∀ m, FS.lookup (FS.file n c₀ rest) m = none →
          FS.lookup rest' m = none) := by
        intro m hm
        by_cases hnm : n = m
        · simp [FS.lookup, hnm] at hm
        · simp only [FS.lookup, if_neg hnm] at hm
          exact hnone m hm
      by_cases hdel : n = del
      · rw [if_pos hdel] at h
        simp only [Option.some.injEq] at h
        obtain ⟨rfl, rfl, rfl, rfl⟩ := Prod.mk.injEq .. ▸ h
        refine ⟨?_, ?_, ?_, ?_, hmvfs⟩
        · intro m c hm hmdel
          have hnm : n ≠ m := fun he => hmdel (by rw [← he]; exact hdel)
          simp only [FS.lookup, if_neg hnm] at hm ⊢
          exact hfile m c hm hmdel
        · intro m ch hm hmdel
          have hnm : n ≠ m := fun he => hmdel (by rw [← he]; exact hdel)
          simp only [FS.lookup, if_neg hnm] at hm ⊢
          exact hdir m ch hm hmdel
        · intro m hm
          by_cases hnm : n = m
          · simp [FS.lookup, hnm] at hm
          · simp only [FS.lookup, if_neg hnm] at hm ⊢
            exact hnone m hm
        · simp [FS.lookup, hdel]
      · rw [if_neg hdel] at h
        by_cases hlive : (pre ++ [n]) ∈ live
        · rw [if_pos hlive] at h
          simp only [Option.some.injEq] at h
          obtain ⟨rfl, rfl, rfl, rfl⟩ := Prod.mk.injEq .. ▸ h
          refine ⟨?_, ?_, ?_, ?_, hmvfs⟩
          · intro m c hm hmdel
            by_cases hnm : n = m
            · subst hnm
              simp only [FS.lookup, if_pos rfl, if_true, Option.some.injEq,
                EntryView.file.injEq] at hm
              subst hm
              exact ⟨fun _ => by simp [FS.lookup],
                fun hnl => absurd hlive hnl⟩
            · simp only [FS.lookup, if_neg hnm] at hm ⊢
              exact hfile m c hm hmdel
          · intro m ch hm hmdel
            by_cases hnm : n = m
            · subst hnm; simp [FS.lookup] at hm
            · simp only [FS.lookup, if_neg hnm] at hm ⊢
              exact hdir m ch hm hmdel
          · intro m hm
            by_cases hnm : n = m
            · simp [FS.lookup, hnm] at hm
            · simp only [FS.lookup, if_neg hnm] at hm ⊢
              exact hnone m hm
          · simp only [FS.lookup, if_neg hdel]
            exact hdelp
        · rw [if_neg hlive] at h
          simp only [Option.some.injEq] at h
          obtain ⟨rfl, rfl, rfl, rfl⟩ := Prod.mk.injEq .. ▸ h
          refine ⟨?_, ?_, ?_, ?_, ?_⟩
          · intro m c hm hmdel
            by_cases hnm : n = m
            · subst hnm
              simp only [FS.lookup, if_pos rfl, if_true, Option.some.injEq,
                EntryView.file.injEq] at hm
              subst hm
              refine ⟨fun hl => absurd hl hlive, fun _ => ?_⟩
              exact ⟨hnone n hnd.1, List.mem_cons_self _ _, by omega⟩
            · simp only [FS.lookup, if_neg hnm] at hm
              obtain ⟨h1, h2⟩ := hfile m c hm hmdel
              exact ⟨h1, fun hnl => by
                obtain ⟨ha, hb, hc⟩ := h2 hnl
                exact ⟨ha, List.mem_cons_of_mem _ hb, by omega⟩⟩
          · intro m ch hm hmdel
            by_cases hnm : n = m
            · subst hnm; simp [FS.lookup] at hm
            · simp only [FS.lookup, if_neg hnm] at hm
              obtain ⟨ch₂, k₁, d₁, ha, hb, hc⟩ := hdir m ch hm hmdel
              exact ⟨ch₂, k₁, d₁, ha, hb, by omega⟩
          · exact hnonefs
          · simp only [FS.lookup, if_neg hdel]
            exact hdelp
          · intro x hx
            rcases List.mem_cons.mp hx with rfl | hx'
            · exact ⟨by simp [FS.lookup], hdel⟩
            · exact hmvfs x hx'
  | dir n ch₀ rest ih1 ih2 =>
    rw [FS.nodup_dir_iff] at hnd
    simp only [sweepAux] at h
    cases hr : sweepAux del live pre rest with
    | none => simp [hr] at h
    | some r =>
      obtain ⟨rest', mv₀, k₀, d₀⟩ := r
      rw [hr] at h
      simp only at h
      obtain ⟨hfile, hdir, hnone, hdelp, hmv⟩ := ih2 hr hnd.2.2
      have hmvfs : ∀ x ∈ mv₀,
          FS.lookup (FS.dir n ch₀ rest) x.1 = some (.file x.2) ∧ x.1 ≠ del := by
        intro x hx
        obtain ⟨hlx, hxdel⟩ := hmv x hx
        have hxn : n ≠ x.1 := by
          intro he
          rw [← he, hnd.1] at hlx
          exact absurd hlx (by simp)
        exact ⟨by simpa [FS.lookup, hxn] using hlx, hxdel⟩
      by_cases hdel : n = del
      · rw [if_pos hdel] at h
        simp only [Option.some.injEq] at h
        obtain ⟨rfl, rfl, rfl, rfl⟩ := Prod.mk.injEq .. ▸ h
        refine ⟨?_, ?_, ?_, ?_, hmvfs⟩
        · intro m c hm hmdel
          have hnm : n ≠ m := fun he => hmdel (by rw [← he]; exact hdel)
          simp only [FS.lookup, if_neg hnm] at hm ⊢
          exact hfile m c hm hmdel
        · intro m ch hm hmdel
          have hnm : n ≠ m := fun he => hmdel (by rw [← he]; exact hdel)
          simp only [FS.lookup, if_neg hnm] at hm ⊢
          exact hdir m ch hm hmdel
        · intro m hm
          by_cases hnm : n = m
          · simp [FS.lookup, hnm] at hm
          · simp only [FS.lookup, if_neg hnm] at hm ⊢
            exact hnone m hm
        · simp [FS.lookup, hdel]
      · rw [if_neg hdel] at h
        cases hc : sweepAux del live (pre ++ [n]) ch₀ with
        | none => rw [hc] at h; simp at h
        | some cres =>
          obtain ⟨ch', mv₁, k₁, d₁⟩ := cres
          rw [hc] at h
          simp only at h
          cases hf : finalizeDel del ch' mv₁ with
          | none => rw [hf] at h; simp at h
          | some ch₂ =>
            rw [hf] at h
            simp only [Option.some.injEq] at h
            obtain ⟨rfl, rfl, rfl, rfl⟩ := Prod.mk.injEq .. ▸ h
            have hsd : sweepDir del live (pre ++ [n]) ch₀
                = some (ch₂, k₁, d₁) := by
              simp [sweepDir, hc, hf]
            refine ⟨?_, ?_, ?_, ?_, hmvfs⟩
            · intro m c hm hmdel
              by_cases hnm : n = m
              · subst hnm; simp [FS.lookup] at hm
              · simp only [FS.lookup, if_neg hnm] at hm
                obtain ⟨h1, h2⟩ := hfile m c hm hmdel
                refine ⟨fun hl => by
                    simp only [FS.lookup, if_neg hnm]; exact h1 hl,
                  fun hnl => ?_⟩
                obtain ⟨ha, hb, hcc⟩ := h2 hnl
                exact ⟨by simp only [FS.lookup, if_neg hnm]; exact ha,
                  hb, by omega⟩
            · intro m ch hm hmdel
              by_cases hnm : n = m
              · subst hnm
                have hch : ch₀ = ch := by simpa [FS.lookup] using hm
                subst hch
                exact ⟨ch₂, k₁, d₁, hsd, by simp [FS.lookup], by omega⟩
              · simp only [FS.lookup, if_neg hnm] at hm
                obtain ⟨ch₂', k₁', d₁', ha, hb, hcc⟩ := hdir m ch hm hmdel
                exact ⟨ch₂', k₁', d₁', ha,
                  by simp only [FS.lookup, if_neg hnm]; exact hb, by omega⟩
            · intro m hm
              by_cases hnm : n = m
              · simp [FS.lookup, hnm] at hm
              · simp only [FS.lookup, if_neg hnm] at hm ⊢
                exact hnone m hm
            · simp only [FS.lookup, if_neg hdel]
              exact hdelp

/-! ## Lemmas: the sweep along a path -/

theorem sweepDir_decomp {del : String} {live : List (List String)}
    {pre : List String} {fs fs'' : FS} {k d : Nat}
    (h : sweepDir del live pre fs = some (fs'', k, d)) :
    ∃ fs' mv, sweepAux del live pre fs = some (fs', mv, k, d) ∧
      finalizeDel del fs' mv = some fs'' := by
  simp only [sweepDir] at h
  cases ha : sweepAux del live pre fs with
  | none => simp [ha] at h
  | some a =>
    obtain ⟨fs', mv, k', d'⟩ := a
    rw [ha] at h
    simp only at h
    cases hf : finalizeDel del fs' mv with
    | none => rw [hf] at h; simp at h
    | some fs₂ =>
      rw [hf] at h
      simp only [Option.some.injEq, Prod.mk.injEq] at h
      obtain ⟨rfl, rfl, rfl⟩ := h
      exact ⟨fs', mv, rfl, hf⟩

/-- A live file outside quarantine-named directories survives the sweep in
place, contents untouched. -/
theorem sweepDir_keep {del : String} {live : List (List String)} :
    ∀ (q pre : List String) (fs fs'' : FS) (k d : Nat),
      sweepDir del live pre fs = some (fs'', k, d) →
      FS.nodupNames fs = true →
      ∀ n c, (∀ a ∈ q, a ≠ del) → n ≠ del →
        FS.resolve fs (q ++ [n]) = some (.file c) →
        (pre ++ (q ++ [n])) ∈ live →
        FS.resolve fs'' (q ++ [n]) = some (.file c) := by
  intro q
  induction q with
  | nil =>
    intro pre fs fs'' k d h hnd n c _ hn hres hlive
    obtain ⟨fs', mv, ha, hf⟩ := sweepDir_decomp h
    obtain ⟨hfile, -, -, -, -⟩ := sweepAux_char ha hnd
    rw [List.nil_append, FS.resolve_single] at hres
    have h1 := (hfile n c hres hn).1 (by simpa using hlive)
    rw [List.nil_append, FS.resolve_single, finalizeDel_lookup_other hf n hn]
    exact h1
  | cons m q' ih =>
    intro pre fs fs'' k d h hnd n c hq hn hres hlive
    have hm : m ≠ del := hq m (List.mem_cons_self _ _)
    obtain ⟨fs', mv, ha, hf⟩ := sweepDir_decomp h
    obtain ⟨-, hdir, -, -, -⟩ := sweepAux_char ha hnd
    simp only [List.cons_append, FS.resolve] at hres
    cases hlm : FS.lookup fs m with
    | none => rw [hlm] at hres; simp at hres
    | some v =>
      cases v with
      | file c' =>
        rw [hlm] at hres
        simp [List.isEmpty_iff] at hres
      | dir ch =>
        rw [hlm] at hres
        obtain ⟨ch₂, k₁, d₁, hsw, hl', -⟩ := hdir m ch hlm hm
        have hl'' : FS.lookup fs'' m = some (.dir ch₂) := by
          rw [finalizeDel_lookup_other hf m hm]
          exact hl'
        simp only [List.cons_append, FS.resolve, hl'']
        exact ih (pre ++ [m]) ch ch₂ k₁ d₁ hsw
          (FS.nodup_lookup_dir hnd hlm) n c
          (fun a ha' => hq a (List.mem_cons_of_mem _ ha')) hn hres
          (by simpa [List.append_assoc] using hlive)

/-- A non-live file outside quarantine-named directories is moved by the
sweep: it disappears from its place, reappears (same contents) under the
quarantine subdirectory of its parent, and the moved counter is positive. -/
theorem sweepDir_move {del : String} {live : List (List String)} :
    ∀ (q pre : List String) (fs fs'' : FS) (k d : Nat),
      sweepDir del live pre fs = some (fs'', k, d) →
      FS.nodupNames fs = true →
      ∀ n c, (∀ a ∈ q, a ≠ del) → n ≠ del →
        FS.resolve fs (q ++ [n]) = some (.file c) →
        (pre ++ (q ++ [n])) ∉ live →
        FS.resolve fs'' (q ++ [n]) = none ∧
        FS.resolve fs'' (q ++ [del, n]) = some (.file c) ∧ 1 ≤ d := by
  intro q
  induction q with
  | nil =>
    intro pre fs fs'' k d h hnd n c _ hn hres hlive
    obtain ⟨fs', mv, ha, hf⟩ := sweepDir_decomp h
    obtain ⟨hfile, -, -, -, hmv⟩ := sweepAux_char ha hnd
    rw [List.nil_append, FS.resolve_single] at hres
    obtain ⟨h1, h2, h3⟩ := (hfile n c hres hn).2 (by simpa using hlive)
    have hfun : ∀ x y, x ∈ mv → y ∈ mv → x.1 = y.1 → x.2 = y.2 := by
      intro x y hx hy hxy
      obtain ⟨hx1, -⟩ := hmv x hx
      obtain ⟨hy1, -⟩ := hmv y hy
      rw [hxy, hy1] at hx1
      simpa using hx1.symm
    obtain ⟨chd, hdel1, hdel2⟩ := finalizeDel_del_mem hf hfun h2
    refine ⟨?_, ?_, h3⟩
    · rw [List.nil_append, FS.resolve_single,
        finalizeDel_lookup_other hf n hn]
      exact h1
    · simp [List.nil_append, FS.resolve, hdel1, hdel2]
  | cons m q' ih =>
    intro pre fs fs'' k d h hnd n c hq hn hres hlive
    have hm : m ≠ del := hq m (List.mem_cons_self _ _)
    obtain ⟨fs', mv, ha, hf⟩ := sweepDir_decomp h
    obtain ⟨-, hdir, -, -, -⟩ := sweepAux_char ha hnd
    simp only [List.cons_append, FS.resolve] at hres
    cases hlm : FS.lookup fs m with
    | none => rw [hlm] at hres; simp at hres
    | some v =>
      cases v with
      | file c' =>
        rw [hlm] at hres
        simp [List.isEmpty_iff] at hres
      | dir ch =>
        rw [hlm] at hres
        obtain ⟨ch₂, k₁, d₁, hsw, hl', hd₁⟩ := hdir m ch hlm hm
        have hl'' : FS.lookup fs'' m = some (.dir ch₂) := by
          rw [finalizeDel_lookup_other hf m hm]
          exact hl'
        obtain ⟨e1, e2, e3⟩ := ih (pre ++ [m]) ch ch₂ k₁ d₁ hsw
          (FS.nodup_lookup_dir hnd hlm) n c
          (fun a ha' => hq a (List.mem_cons_of_mem _ ha')) hn hres
          (by simpa [List.append_assoc] using hlive)
        refine ⟨?_, ?_, by omega⟩
        · simp only [List.cons_append, FS.resolve, hl'']
          exact e1
        · simp only [List.cons_append, FS.resolve, hl'']
          exact e2

/-- Nothing at a path that is still live disappears during the sweep. -/
theorem sweepDir_exists {del : String} {live : List (List String)} :
    ∀ (x pre : List String) (fs fs'' : FS) (k d : Nat),
      sweepDir del live pre fs = some (fs'', k, d) →
      FS.nodupNames fs = true →
      (pre ++ x) ∈ live → FS.pathExists fs x = true →
      FS.pathExists fs'' x = true := by
  intro x
  induction x with
  | nil =>
    intro pre fs fs'' k d _ _ _ _
    simp [FS.pathExists, FS.resolve]
  | cons m xs ih =>
    intro pre fs fs'' k d h hnd hlive hex
    obtain ⟨fs', mv, ha, hf⟩ := sweepDir_decomp h
    obtain ⟨hfile, hdir, -, hdelp, hmv⟩ := sweepAux_char ha hnd
    simp only [FS.pathExists, FS.resolve] at hex
    cases hlm : FS.lookup fs m with
    | none => simp only [hlm] at hex; simp at hex
    | some v' =>
      cases v' with
      | file c =>
        simp only [hlm] at hex
        have hxs : xs = [] := by
          cases hxs : xs.isEmpty
          · rw [hxs] at hex; simp at hex
          · simpa [List.isEmpty_iff] using hxs
        subst hxs
        by_cases hmdel : m = del
        · subst hmdel
          cases mv with
          | nil =>
            simp only [finalizeDel, Option.some.injEq] at hf
            subst hf
            simp [FS.pathExists, FS.resolve_single, hdelp, hlm]
          | cons y mv' =>
            simp only [finalizeDel, hdelp, hlm] at hf
            exact absurd hf (by simp)
        · have h1 := (hfile m c hlm hmdel).1 (by simpa using hlive)
          have h2 : FS.lookup fs'' m = some (.file c) := by
            rw [finalizeDel_lookup_other hf m hmdel]
            exact h1
          simp [FS.pathExists, FS.resolve_single, h2]
      | dir ch =>
        simp only [hlm] at hex
        have hchex : FS.pathExists ch xs = true := hex
        by_cases hmdel : m = del
        · subst hmdel
          cases mv with
          | nil =>
            simp only [finalizeDel, Option.some.injEq] at hf
            subst hf
            have hl1 : FS.lookup fs' m = some (.dir ch) := by
              rw [hdelp, hlm]
            simp only [FS.pathExists, FS.resolve, hl1]
            exact hchex
          | cons y mv' =>
            simp only [finalizeDel, hdelp, hlm] at hf
            cases hp : placeAll ch (y :: mv') with
            | none => rw [hp] at hf; simp at hf
            | some ch₂ =>
              rw [hp] at hf
              simp only [Option.map_some', Option.some.injEq] at hf
              subst hf
              have hl2 : FS.lookup (fs'.updateChildDir m ch₂) m
                  = some (.dir ch₂) := by
                rw [FS.lookup_updateChildDir ch₂ (by rw [hdelp, hlm]) m,
                  if_pos rfl]
              simp only [FS.pathExists, FS.resolve, hl2]
              exact placeAll_exists_mono hp xs hchex
        · obtain ⟨ch₂, k₁, d₁, hsw, hl', -⟩ := hdir m ch hlm hmdel
          have hl'' : FS.lookup fs'' m = some (.dir ch₂) := by
            rw [finalizeDel_lookup_other hf m hmdel]
            exact hl'
          simp only [FS.pathExists, FS.resolve, hl'']
          exact ih (pre ++ [m]) ch ch₂ k₁ d₁ hsw
            (FS.nodup_lookup_dir hnd hlm)
            (by simpa [List.append_assoc] using hlive) hchex

/-! ## Lemmas: the sweep counters count exactly the tested files -/

theorem sweepAux_counts {del : String} {live : List (List String)}
    {pre : List String} {fs fs' : FS} {mv : List (String × String)}
    {k d : Nat} (h : sweepAux del live pre fs = some (fs', mv, k, d)) :
    k = ((sweepTested del pre fs).filter fun t => decide (t ∈ live)).length ∧
    d = ((sweepTested del pre fs).filter
          fun t => decide (t ∉ live)).length := by
  induction fs generalizing pre fs' mv k d with
  | nil =>
    simp only [sweepAux, Option.some.injEq] at h
    obtain ⟨rfl, rfl, rfl, rfl⟩ := Prod.mk.injEq .. ▸ h
    constructor <;> simp [sweepTested]
  | file n c rest ih =>
    simp only [sweepAux] at h
    cases hr : sweepAux del live pre rest with
    | none => rw [hr] at h; simp at h
    | some r =>
      obtain ⟨rest', mv₀, k₀, d₀⟩ := r
      rw [hr] at h
      simp only at h
      obtain ⟨hk₀, hd₀⟩ := ih hr
      by_cases hdel : n = del
      · rw [if_pos hdel] at h
        simp only [Option.some.injEq] at h
        obtain ⟨rfl, rfl, rfl, rfl⟩ := Prod.mk.injEq .. ▸ h
        have htst : sweepTested del pre (FS.file n c rest)
            = sweepTested del pre rest := by
          simp [sweepTested, hdel]
        rw [htst]
        exact ⟨hk₀, hd₀⟩
      · rw [if_neg hdel] at h
        have htst : sweepTested del pre (FS.file n c rest)
            = (pre ++ [n]) :: sweepTested del pre rest := by
          simp [sweepTested, hdel]
        by_cases hlive : (pre ++ [n]) ∈ live
        · rw [if_pos hlive] at h
          simp only [Option.some.injEq] at h
          obtain ⟨rfl, rfl, rfl, rfl⟩ := Prod.mk.injEq .. ▸ h
          rw [htst]
          constructor
          · simp [List.filter_cons, hlive, hk₀]
          · simp [List.filter_cons, hlive, hd₀]
        · rw [if_neg hlive] at h
          simp only [Option.some.injEq] at h
          obtain ⟨rfl, rfl, rfl, rfl⟩ := Prod.mk.injEq .. ▸ h
          rw [htst]
          constructor
          · simp [List.filter_cons, hlive, hk₀]
          · simp [List.filter_cons, hlive, hd₀]
  | dir n ch rest ih1 ih2 =>
    simp only [sweepAux] at h
    cases hr : sweepAux del live pre rest with
    | none => rw [hr] at h; simp at h
    | some r =>
      obtain ⟨rest', mv₀, k₀, d₀⟩ := r
      rw [hr] at h
      simp only at h
      obtain ⟨hk₀, hd₀⟩ := ih2 hr
      by_cases hdel : n = del
      · rw [if_pos hdel] at h
        simp only [Option.some.injEq] at h
        obtain ⟨rfl, rfl, rfl, rfl⟩ := Prod.mk.injEq .. ▸ h
        have htst : sweepTested del pre (FS.dir n ch rest)
            = sweepTested del pre rest := by
          simp [sweepTested, hdel]
        rw [htst]
        exact ⟨hk₀, hd₀⟩
      · rw [if_neg hdel] at h
        cases hc : sweepAux del live (pre ++ [n]) ch with
        | none => rw [hc] at h; simp at h
        | some c₁ =>
          obtain ⟨ch', mv₁, k₁, d₁⟩ := c₁
          rw [hc] at h
          simp only at h
          obtain ⟨hk₁, hd₁⟩ := ih1 hc
          cases hfd : finalizeDel del ch' mv₁ with
          | none => rw [hfd] at h; simp at h
          | some ch₂ =>
            rw [hfd] at h
            simp only [Option.some.injEq] at h
            obtain ⟨rfl, rfl, rfl, rfl⟩ := Prod.mk.injEq .. ▸ h
            have htst : sweepTested del pre (FS.dir n ch rest)
                = sweepTested del (pre ++ [n]) ch
                    ++ sweepTested del pre rest := by
              simp [sweepTested, hdel]
            rw [htst]
            constructor
            · rw [List.filter_append, List.length_append, hk₀, hk₁]
              omega
            · rw [List.filter_append, List.length_append, hd₀, hd₁]
              omega

theorem lookup_file_mem_sweepTested {del : String} {pre : List String}
    {fs : FS} {n c : String}
    (hl : FS.lookup fs n = some (.file c)) (hn : n ≠ del) :
    (pre ++ [n]) ∈ sweepTested del pre fs := by
  induction fs generalizing pre with
  | nil => simp [FS.lookup] at hl
  | file n' c' rest ih =>
    simp only [FS.lookup] at hl
    by_cases hme : n' = n
    · subst hme
      simp only [sweepTested, if_neg hn]
      exact List.mem_append_left _ (List.mem_singleton.mpr rfl)
    · rw [if_neg hme] at hl
      simp only [sweepTested]
      exact List.mem_append_right _ (ih hl)
  | dir n' ch rest ih1 ih2 =>
    simp only [FS.lookup] at hl
    by_cases hme : n' = n
    · simp [hme] at hl
    · rw [if_neg hme] at hl
      simp only [sweepTested]
      exact List.mem_append_right _ (ih2 hl)

theorem lookup_dir_sweepTested_sub {del : String} {pre : List String}
    {fs ch : FS} {m : String}
    (hl : FS.lookup fs m = some (.dir ch)) (hm : m ≠ del) :
    ∀ t ∈ sweepTested del (pre ++ [m]) ch, t ∈ sweepTested del pre fs := by
  induction fs generalizing pre with
  | nil => simp [FS.lookup] at hl
  | file n' c' rest ih =>
    simp only [FS.lookup] at hl
    by_cases hme : n' = m
    · simp [hme] at hl
    · rw [if_neg hme] at hl
      intro t ht
      simp only [sweepTested]
      exact List.mem_append_right _ (ih hl t ht)
  | dir n' ch' rest ih1 ih2 =>
    simp only [FS.lookup] at hl
    by_cases hme : n' = m
    · subst hme
      rw [if_pos rfl] at hl
      simp only [Option.some.injEq, EntryView.dir.injEq] at hl
      subst hl
      intro t ht
      simp only [sweepTested, if_neg hm]
      exact List.mem_append_left _ ht
    · rw [if_neg hme] at hl
      intro t ht
      simp only [sweepTested]
      exact List.mem_append_right _ (ih2 hl t ht)

theorem resolve_mem_sweepTested {del : String} :
    ∀ (q pre : List String) (fs : FS) (n c : String),
      (∀ a ∈ q, a ≠ del) → n ≠ del →
      FS.resolve fs (q ++ [n]) = some (.file c) →
      (pre ++ (q ++ [n])) ∈ sweepTested del pre fs := by
  intro q
  induction q with
  | nil =>
    intro pre fs n c _ hn hres
    rw [List.nil_append, FS.resolve_single] at hres
    rw [List.nil_append]
    exact lookup_file_mem_sweepTested hres hn
  | cons m q' ih =>
    intro pre fs n c hq hn hres
    have hm : m ≠ del := hq m (List.mem_cons_self _ _)
    simp only [List.cons_append, FS.resolve] at hres
    cases hlm : FS.lookup fs m with
    | none => rw [hlm] at hres; simp at hres
    | some v =>
      cases v with
      | file c' =>
        rw [hlm] at hres
        simp [List.isEmpty_iff] at hres
      | dir ch =>
        rw [hlm] at hres
        have hmem := ih (pre ++ [m]) ch n c
          (fun a ha => hq a (List.mem_cons_of_mem _ ha)) hn hres
        have hsub := lookup_dir_sweepTested_sub hlm hm _ hmem
        simpa [List.append_assoc] using hsub

/-- In a duplicate-name-free tree the tested paths are pairwise
distinct, so each tested file accounts for exactly one unit of the
counter it falls under. -/
theorem sweepTested_nodup {del : String} {pre : List String} {fs : FS}
    (hnd : FS.nodupNames fs = true) :
    (sweepTested del pre fs).Nodup := by
  induction fs generalizing pre with
  | nil => simp [sweepTested]
  | file n c rest ih =>
    rw [FS.nodup_file_iff] at hnd
    simp only [sweepTested]
    by_cases hdel : n = del
    · rw [if_pos hdel]
      simpa using ih hnd.2
    · rw [if_neg hdel, List.singleton_append, List.nodup_cons]
      refine ⟨?_, ih hnd.2⟩
      intro hmem
      obtain ⟨rel, c', heq, hres⟩ := sweepTested_resolve hnd.2 _ hmem
      have hrel : rel = [n] := by
        have h2 := congrArg (fun l => List.drop pre.length l) heq
        simpa [List.drop_left] using h2.symm
      subst hrel
      rw [FS.resolve_single, hnd.1] at hres
      cases hres
  | dir n ch rest ih1 ih2 =>
    rw [FS.nodup_dir_iff] at hnd
    simp only [sweepTested]
    by_cases hdel : n = del
    · rw [if_pos hdel]
      simpa using ih2 hnd.2.2
    · rw [if_neg hdel, List.nodup_append]
      refine ⟨ih1 hnd.2.1, ih2 hnd.2.2, ?_⟩
      intro t ht1 ht2
      obtain ⟨rel1, c1, heq1, hres1⟩ := sweepTested_resolve hnd.2.1 t ht1
      obtain ⟨rel2, c2, heq2, hres2⟩ := sweepTested_resolve hnd.2.2 t ht2
      rw [heq1] at heq2
      have hrel : rel2 = n :: rel1 := by
        have h2 := congrArg (fun l => List.drop pre.length l) heq2
        simpa [List.append_assoc, List.drop_left] using h2.symm
      rw [hrel] at hres2
      simp [FS.resolve, hnd.1] at hres2

/-! ## C8: quarantine correctness of the sweep -/

/-- C8 counterexample: a regular file whose NAME equals the quarantine
directory name refutes the claim. `_deleted` here is a top-level regular
file, it is not in `livePaths` and does not lie under any directory (in
particular not under one named `_deleted`), yet the sweep leaves it at its
original path and moves nothing (`moved = 0`): the entry-name test
`if f == deleted_folder: continue` skips files as well as directories. -/
theorem C8_counterexample :
    sweepDir "_deleted" [] [] (FS.file "_deleted" "x" FS.nil)
      = some (FS.file "_deleted" "x" FS.nil, 0, 0) ∧
    FS.resolve (FS.file "_deleted" "x" FS.nil) ["_deleted"]
      = some (.file "x") :=
  ⟨rfl, rfl⟩

/-- C8 amended: restricted to regular files whose path has no component
equal to `quarantineDirName` (the counterexample shows a file *named* so is
skipped, not just files lying under such a directory), the claim holds
exactly, under unique sibling names and a completed sweep: the two
counters equal the numbers of tested file paths in / not in `livePaths`
(and the tested paths are pairwise distinct, so each file accounts for
exactly one unit); every such file is tested; if its path is live it is
left untouched with its contents (counted as kept), and otherwise it no
longer exists at its original path and exists at
`<parentDir>/<quarantineDirName>/<basename>` (counted as moved). -/
theorem C8_amended {del : String} {live : List (List String)}
    {fs fs'' : FS} {k d : Nat}
    (h : sweepDir del live [] fs = some (fs'', k, d))
    (hnd : FS.nodupNames fs = true) :
    (k = ((sweepTested del [] fs).filter
        fun t => decide (t ∈ live)).length ∧
     d = ((sweepTested del [] fs).filter
        fun t => decide (t ∉ live)).length ∧
     (sweepTested del [] fs).Nodup) ∧
    ∀ q n c, (∀ a ∈ q, a ≠ del) → n ≠ del →
      FS.resolve fs (q ++ [n]) = some (.file c) →
      (q ++ [n]) ∈ sweepTested del [] fs ∧
      ((q ++ [n]) ∈ live → FS.resolve fs'' (q ++ [n]) = some (.file c)) ∧
      ((q ++ [n]) ∉ live →
        FS.resolve fs'' (q ++ [n]) = none ∧
        FS.resolve fs'' (q ++ [del, n]) = some (.file c)) := by
  obtain ⟨fs', mv, ha, hf⟩ := sweepDir_decomp h
  obtain ⟨hk, hd⟩ := sweepAux_counts ha
  refine ⟨⟨hk, hd, sweepTested_nodup hnd⟩, ?_⟩
  intro q n c hq hn hres
  refine ⟨by simpa using resolve_mem_sweepTested q [] fs n c hq hn hres,
    ?_, ?_⟩
  · intro hlive
    exact sweepDir_keep q [] fs fs'' k d h hnd n c hq hn hres
      (by simpa using hlive)
  · intro hlive
    obtain ⟨e1, e2, -⟩ := sweepDir_move q [] fs fs'' k d h hnd n c hq hn
      hres (by simpa using hlive)
    exact ⟨e1, e2⟩

/-- C8 witness: a two-file root with `a` live and `b` dead; both files are
tested, the counters are exactly one kept and one moved, `a` is untouched,
`b` is gone from the root and sits in `_deleted/b`. -/
theorem C8_witness :
    ∃ fs'' k d,
      sweepDir "_deleted" [["a"]] []
        (FS.file "a" "1" (FS.file "b" "2" FS.nil)) = some (fs'', k, d) ∧
      k = 1 ∧ d = 1 ∧
      ["a"] ∈ sweepTested "_deleted" []
        (FS.file "a" "1" (FS.file "b" "2" FS.nil)) ∧
      ["b"] ∈ sweepTested "_deleted" []
        (FS.file "a" "1" (FS.file "b" "2" FS.nil)) ∧
      FS.resolve fs'' ["a"] = some (.file "1") ∧
      FS.resolve fs'' ["b"] = none ∧
      FS.resolve fs'' ["_deleted", "b"] = some (.file "2") := by
  have h : sweepDir "_deleted" [["a"]] []
      (FS.file "a" "1" (FS.file "b" "2" FS.nil))
      = some (FS.file "a" "1"
          (FS.dir "_deleted" (FS.file "b" "2" FS.nil) FS.nil), 1, 1) := by
    rfl
  have hc := C8_amended h (by decide)
  have h1 := hc.2 [] "a" "1" (by simp) (by decide) (by rfl)
  have h2 := hc.2 [] "b" "2" (by simp) (by decide) (by rfl)
  obtain ⟨e1, e2⟩ := h2.2.2 (by decide)
  exact ⟨_, _, _, h, rfl, rfl, by simpa using h1.1, by simpa using h2.1,
    by simpa using h1.2.1 (by simp), by simpa using e1, by simpa using e2⟩

/-! ## Lemmas: entry removal and rename preserve the directory skeleton -/

theorem dropEntry_lookup_other {fs : FS} {n m : String} (hnm : n ≠ m) :
    FS.lookup (FS.dropEntry fs n) m = FS.lookup fs m := by
  induction fs with
  | nil => rfl
  | file n' c rest ih =>
    simp only [FS.dropEntry]
    by_cases hb : n' = n
    · subst hb
      rw [if_pos rfl]
      simp only [FS.lookup, if_neg hnm]
    · rw [if_neg hb]
      simp only [FS.lookup, ih]
  | dir n' ch rest ih1 ih2 =>
    simp only [FS.dropEntry]
    by_cases hb : n' = n
    · subst hb
      rw [if_pos rfl]
      simp only [FS.lookup, if_neg hnm]
    · rw [if_neg hb]
      simp only [FS.lookup, ih2]

theorem lookup_none_dropEntry {fs : FS} {n m : String}
    (h : FS.lookup fs m = none) : FS.lookup (FS.dropEntry fs n) m = none := by
  induction fs with
  | nil => simpa [FS.dropEntry] using h
  | file n' c rest ih =>
    simp only [FS.lookup] at h
    by_cases hm : n' = m
    · simp [hm] at h
    · rw [if_neg hm] at h
      simp only [FS.dropEntry]
      by_cases hb : n' = n
      · rw [if_pos hb]; exact h
      · rw [if_neg hb]
        simp only [FS.lookup, if_neg hm]
        exact ih h
  | dir n' ch rest ih1 ih2 =>
    simp only [FS.lookup] at h
    by_cases hm : n' = m
    · simp [hm] at h
    · rw [if_neg hm] at h
      simp only [FS.dropEntry]
      by_cases hb : n' = n
      · rw [if_pos hb]; exact h
      · rw [if_neg hb]
        simp only [FS.lookup, if_neg hm]
        exact ih2 h

theorem dropEntry_nodup {fs : FS} {n : String}
    (hnd : FS.nodupNames fs = true) :
    FS.nodupNames (FS.dropEntry fs n) = true := by
  induction fs with
  | nil => simpa [FS.dropEntry] using hnd
  | file n' c rest ih =>
    rw [FS.nodup_file_iff] at hnd
    simp only [FS.dropEntry]
    by_cases hb : n' = n
    · rw [if_pos hb]; exact hnd.2
    · rw [if_neg hb, FS.nodup_file_iff]
      exact ⟨lookup_none_dropEntry hnd.1, ih hnd.2⟩
  | dir n' ch rest ih1 ih2 =>
    rw [FS.nodup_dir_iff] at hnd
    simp only [FS.dropEntry]
    by_cases hb : n' = n
    · rw [if_pos hb]; exact hnd.2.2
    · rw [if_neg hb, FS.nodup_dir_iff]
      exact ⟨lookup_none_dropEntry hnd.1, hnd.2.1, ih2 hnd.2.2⟩

theorem removeEntry_resolve_other {fs fs' : FS} {p : List String}
    (h : FS.removeEntry fs p = some fs') :
    ∀ x, ¬ startsSeg x p → ¬ startsSeg p x →
      FS.resolve fs' x = FS.resolve fs x := by
  induction p generalizing fs fs' with
  | nil => simp [FS.removeEntry] at h
  | cons n rest ih =>
    intro x hx hpx
    cases x with
    | nil => exact absurd (startsSeg_nil _) hx
    | cons m xs =>
      by_cases hnm : n = m
      · subst hnm
        cases rest with
        | nil =>
          exact absurd (startsSeg_cons.mpr ⟨rfl, startsSeg_nil _⟩) hpx
        | cons r rs =>
          simp only [FS.removeEntry] at h
          cases hl : FS.lookup fs n with
          | some v =>
            cases v with
            | file c₀ => simp [hl] at h
            | dir ch =>
              simp only [hl] at h
              cases hs : FS.removeEntry ch (r :: rs) with
              | none => simp [hs] at h
              | some ch' =>
                simp only [hs, Option.map_some', Option.some.injEq] at h
                subst h
                simp only [FS.resolve, FS.lookup_updateChildDir ch' hl,
                  if_pos rfl, hl]
                exact ih hs xs
                  (fun hseg => hx (startsSeg_cons.mpr ⟨rfl, hseg⟩))
                  (fun hseg => hpx (startsSeg_cons.mpr ⟨rfl, hseg⟩))
          | none => simp [hl] at h
      · cases rest with
        | nil =>
          simp only [FS.removeEntry] at h
          cases hl : (FS.lookup fs n).isSome with
          | false => rw [hl] at h; simp at h
          | true =>
            rw [hl] at h
            simp only [if_true, Option.some.injEq] at h
            subst h
            simp only [FS.resolve, dropEntry_lookup_other hnm]
        | cons r rs =>
          simp only [FS.removeEntry] at h
          cases hl : FS.lookup fs n with
          | some v =>
            cases v with
            | file c₀ => simp [hl] at h
            | dir ch =>
              simp only [hl] at h
              cases hs : FS.removeEntry ch (r :: rs) with
              | none => simp [hs] at h
              | some ch' =>
                simp only [hs, Option.map_some', Option.some.injEq] at h
                subst h
                simp only [FS.resolve, FS.lookup_updateChildDir ch' hl,
                  if_neg hnm]
          | none => simp [hl] at h

theorem removeEntry_parent_dirs {fs fs' : FS} {p : List String}
    (h : FS.removeEntry fs p = some fs') :
    ∀ x, startsSeg x p → x ≠ p →
      ∃ ch, FS.resolve fs' x = some (.dir ch) := by
  induction p generalizing fs fs' with
  | nil => simp [FS.removeEntry] at h
  | cons n rest ih =>
    intro x hx hne
    cases x with
    | nil => exact ⟨fs', rfl⟩
    | cons m xs =>
      obtain ⟨hmn, hxs⟩ := startsSeg_cons.mp hx
      subst hmn
      cases rest with
      | nil =>
        rw [startsSeg_nil_right hxs] at hne ⊢
        simp at hne
      | cons r rs =>
        simp only [FS.removeEntry] at h
        cases hl : FS.lookup fs m with
        | some v =>
          cases v with
          | file c₀ => simp [hl] at h
          | dir ch =>
            simp only [hl] at h
            cases hs : FS.removeEntry ch (r :: rs) with
            | none => simp [hs] at h
            | some ch' =>
              simp only [hs, Option.map_some', Option.some.injEq] at h
              subst h
              have hxne : xs ≠ r :: rs := fun he => hne (by rw [he])
              obtain ⟨ch₂, h2⟩ := ih hs xs hxs hxne
              refine ⟨ch₂, ?_⟩
              simp only [FS.resolve, FS.lookup_updateChildDir ch' hl,
                if_pos rfl]
              exact h2
        | none => simp [hl] at h

theorem removeEntry_nodup {fs fs' : FS} {p : List String}
    (h : FS.removeEntry fs p = some fs')
    (hnd : FS.nodupNames fs = true) : FS.nodupNames fs' = true := by
  induction p generalizing fs fs' with
  | nil => simp [FS.removeEntry] at h
  | cons n rest ih =>
    cases rest with
    | nil =>
      simp only [FS.removeEntry] at h
      cases hl : (FS.lookup fs n).isSome with
      | false => rw [hl] at h; simp at h
      | true =>
        rw [hl] at h
        simp only [if_true, Option.some.injEq] at h
        subst h
        exact dropEntry_nodup hnd
    | cons r rs =>
      simp only [FS.removeEntry] at h
      cases hl : FS.lookup fs n with
      | some v =>
        cases v with
        | file c₀ => simp [hl] at h
        | dir ch =>
          simp only [hl] at h
          cases hs : FS.removeEntry ch (r :: rs) with
          | none => simp [hs] at h
          | some ch' =>
            simp only [hs, Option.map_some', Option.some.injEq] at h
            subst h
            exact FS.nodup_updateChildDir ch' hnd
              (ih hs (FS.nodup_lookup_dir hnd hl))
      | none => simp [hl] at h

theorem setFile_not_dir {fs fs' : FS} {p : List String} {c : String}
    (h : FS.setFile fs p c = some fs') :
    ∀ ch, FS.resolve fs p ≠ some (.dir ch) := by
  induction p generalizing fs fs' with
  | nil => simp [FS.setFile] at h
  | cons n rest ih =>
    intro ch hres
    cases rest with
    | nil =>
      rw [FS.resolve_single] at hres
      simp only [FS.setFile, hres] at h
      exact Option.noConfusion h
    | cons r rs =>
      simp only [FS.setFile] at h
      cases hl : FS.lookup fs n with
      | some v =>
        cases v with
        | file c₀ => simp [hl] at h
        | dir ch₀ =>
          simp only [hl] at h
          cases hs : FS.setFile ch₀ (r :: rs) c with
          | none => simp [hs] at h
          | some ch' =>
            simp only [FS.resolve, hl] at hres
            exact ih hs ch hres
      | none => simp [hl] at h

theorem setFile_dir_preserved {fs fs' : FS} {p : List String} {c : String}
    (h : FS.setFile fs p c = some fs') :
    ∀ x ch, FS.resolve fs x = some (.dir ch) →
      ∃ ch', FS.resolve fs' x = some (.dir ch') := by
  intro x ch hx
  by_cases h1 : startsSeg x p
  · by_cases he : x = p
    · subst he
      exact absurd hx (setFile_not_dir h ch)
    · exact (FS.setFile_parent_dirs h x h1 he).2
  · by_cases h2 : startsSeg p x
    · have he : x ≠ p := fun hep => h1 (hep ▸ startsSeg_refl x)
      have h3 := (FS.setFile_resolve_ext h x h2 he).2
      rw [hx] at h3
      cases h3
    · rw [FS.setFile_resolve_other h x h1 h2]
      exact ⟨ch, hx⟩

theorem removeEntry_dir_preserved {fs fs' : FS} {p : List String} {c : String}
    (h : FS.removeEntry fs p = some fs')
    (hp : FS.resolve fs p = some (.file c)) :
    ∀ x ch, FS.resolve fs x = some (.dir ch) →
      ∃ ch', FS.resolve fs' x = some (.dir ch') := by
  intro x ch hx
  by_cases h1 : startsSeg x p
  · by_cases he : x = p
    · subst he
      rw [hp] at hx
      simp at hx
    · exact removeEntry_parent_dirs h x h1 he
  · by_cases h2 : startsSeg p x
    · have he : x ≠ p := fun hep => h1 (hep ▸ startsSeg_refl x)
      obtain ⟨t, rfl⟩ := startsSeg_iff.mp h2
      have ht : t ≠ [] := by rintro rfl; simp at he
      rw [FS.resolve_append fs p t ht, hp] at hx
      simp at hx
    · rw [removeEntry_resolve_other h x h1 h2]
      exact ⟨ch, hx⟩

theorem getFileAt_eq_file {fs : FS} {p : List String} {c : String}
    (h : FS.getFileAt fs p = some c) :
    FS.resolve fs p = some (.file c) := by
  simp only [FS.getFileAt] at h
  cases hv : FS.resolve fs p with
  | none => rw [hv] at h; simp at h
  | some v =>
    cases v with
    | file c₀ =>
      rw [hv] at h
      simp only [Option.some.injEq] at h
      rw [h]
    | dir ch => rw [hv] at h; simp at h

theorem renameFile_dir_preserved {fs fs' : FS} {src dst : List String}
    (h : FS.renameFile fs src dst = some fs') :
    ∀ x ch, FS.resolve fs x = some (.dir ch) →
      ∃ ch', FS.resolve fs' x = some (.dir ch') := by
  simp only [FS.renameFile] at h
  cases hg : FS.getFileAt fs src with
  | none => rw [hg] at h; simp at h
  | some c =>
    rw [hg] at h
    simp only at h
    cases hr : FS.removeEntry fs src with
    | none => rw [hr] at h; simp at h
    | some fs₁ =>
      rw [hr] at h
      simp only at h
      intro x ch hx
      obtain ⟨ch₁, h1⟩ :=
        removeEntry_dir_preserved hr (getFileAt_eq_file hg) x ch hx
      exact setFile_dir_preserved h x ch₁ h1

theorem renameFile_nodup {fs fs' : FS} {src dst : List String}
    (h : FS.renameFile fs src dst = some fs')
    (hnd : FS.nodupNames fs = true) : FS.nodupNames fs' = true := by
  simp only [FS.renameFile] at h
  cases hg : FS.getFileAt fs src with
  | none => rw [hg] at h; simp at h
  | some c =>
    rw [hg] at h
    simp only at h
    cases hr : FS.removeEntry fs src with
    | none => rw [hr] at h; simp at h
    | some fs₁ =>
      rw [hr] at h
      simp only at h
      exact FS.setFile_nodup h (removeEntry_nodup hr hnd)

theorem makedirs_dir_preserved {fs fs' : FS} {d : List String}
    (h : FS.makedirs fs d = some fs') :
    ∀ x ch, FS.resolve fs x = some (.dir ch) →
      ∃ ch', FS.resolve fs' x = some (.dir ch') := by
  intro x ch hx
  by_cases h1 : startsSeg x d
  · exact FS.makedirs_isDir h x h1
  · rw [FS.makedirs_resolve_other h x h1]
    exact ⟨ch, hx⟩

theorem create_dir_dir_preserved {fs fs' : FS} {d : List String}
    (h : FS.create_dir_if_not_exist fs d = some fs') :
    ∀ x ch, FS.resolve fs x = some (.dir ch) →
      ∃ ch', FS.resolve fs' x = some (.dir ch') := by
  simp only [FS.create_dir_if_not_exist] at h
  by_cases he : FS.pathExists fs d = true
  · rw [if_pos he] at h
    simp only [Option.some.injEq] at h
    subst h
    exact fun x ch hx => ⟨ch, hx⟩
  · rw [if_neg he] at h
    exact makedirs_dir_preserved h

theorem create_dir_nodup {fs fs' : FS} {d : List String}
    (h : FS.create_dir_if_not_exist fs d = some fs')
    (hnd : FS.nodupNames fs = true) : FS.nodupNames fs' = true := by
  simp only [FS.create_dir_if_not_exist] at h
  by_cases he : FS.pathExists fs d = true
  · rw [if_pos he] at h
    simp only [Option.some.injEq] at h
    subst h
    exact hnd
  · rw [if_neg he] at h
    exact FS.makedirs_nodup h hnd

/-! ## Lemmas: the loop keeps every registered path's ancestors directories -/

theorem tildeOf_take {p : List String} {k : Nat} (hk : k < p.length) :
    (tildeOf p).take k = p.take k := by
  induction p generalizing k with
  | nil => simp at hk
  | cons n rest ih =>
    cases rest with
    | nil =>
      have hk0 : k = 0 := by simpa [Nat.lt_one_iff] using hk
      subst hk0
      simp
    | cons r rs =>
      cases k with
      | zero => simp
      | succ k' =>
        have hk' : k' < (r :: rs).length := by
          simpa using Nat.lt_of_succ_lt_succ hk
        simp only [tildeOf, List.take_succ_cons]
        rw [ih hk']

theorem startsSeg_tilde {x p : List String} (hx : startsSeg x p)
    (hne : x ≠ p) : startsSeg x (tildeOf p) ∧ x ≠ tildeOf p := by
  have hle := startsSeg_length hx
  have hlt : x.length < p.length := by
    rcases Nat.lt_or_ge x.length p.length with h | h
    · exact h
    · exact absurd (startsSeg_eq_of_length hx (Nat.le_antisymm hle h)) hne
  constructor
  · show x = (tildeOf p).take x.length
    rw [tildeOf_take hlt]
    exact hx
  · intro he
    have hlen := congrArg List.length he
    rw [tildeOf_length] at hlen
    omega

/-- The filesystem trace of any successful iteration: either the duplicate
skip (nothing changes), or the path is registered and the directory chain
is ensured, after which either nothing more happens to the disk (the path
already existed, or the fetch came back empty) or the tilde file is written
and renamed over the final path. -/
theorem processOne_fs_cases {pd : String → Option DateTime}
    {fetch : MailDict → Except String (List FullMsg)} {st st' : LoopState}
    {msg : MailDict} (h : processOne pd fetch st msg = .ok st') :
    (st'.fs = st.fs ∧ st'.paths = st.paths) ∨
    (∃ p fs₁, genParts pd msg = some p ∧ p ∉ st.paths ∧
      st.fs.create_dir_if_not_exist p.dropLast = some fs₁ ∧
      st'.paths = p :: st.paths ∧
      ((st'.fs = fs₁ ∧ (fs₁.pathExists p = true ∨ fetch msg = .ok [])) ∨
       (∃ s fs₂, fs₁.pathExists p = false ∧
          fs₁.setFile (tildeOf p) s = some fs₂ ∧
          fs₂.renameFile (tildeOf p) p = some st'.fs))) := by
  simp only [processOne] at h
  cases hg : genParts pd msg with
  | none => rw [hg] at h; simp at h
  | some p =>
    rw [hg] at h
    simp only at h
    by_cases hdup : p ∈ st.paths
    · rw [if_pos hdup] at h
      simp only [Except.ok.injEq] at h
      subst h
      exact .inl ⟨rfl, rfl⟩
    · rw [if_neg hdup] at h
      cases hcd : st.fs.create_dir_if_not_exist p.dropLast with
      | none => rw [hcd] at h; simp at h
      | some fs₁ =>
        rw [hcd] at h
        simp only at h
        refine .inr ⟨p, fs₁, rfl, hdup, hcd, ?_⟩
        by_cases hex : fs₁.pathExists p = true
        · rw [if_pos hex] at h
          simp only [Except.ok.injEq] at h
          subst h
          exact ⟨rfl, .inl ⟨rfl, .inl hex⟩⟩
        · rw [if_neg hex] at h
          cases hf : fetch msg with
          | error e => rw [hf] at h; simp at h
          | ok l =>
            rw [hf] at h
            cases l with
            | nil =>
              simp only [Except.ok.injEq] at h
              subst h
              exact ⟨rfl, .inl ⟨rfl, .inr rfl⟩⟩
            | cons fm l₂ =>
              simp only at h
              cases h2 : genParts pd fm.hdr with
              | none => rw [h2] at h; simp at h
              | some p₂ =>
                rw [h2] at h
                simp only at h
                by_cases hne : p₂ ≠ p
                · rw [if_pos hne] at h; simp at h
                · rw [if_neg hne] at h
                  cases hfl : attemptFlatten fm.message with
                  | error e =>
                    rw [hfl] at h
                    dsimp only at h
                    cases hsf : fs₁.setFile (tildeOf p) "" with
                    | none => rw [hsf] at h; simp at h
                    | some fs₂ => rw [hsf] at h; simp at h
                  | ok s =>
                    rw [hfl] at h
                    dsimp only at h
                    cases hsf : fs₁.setFile (tildeOf p) s with
                    | none => rw [hsf] at h; simp at h
                    | some fs₂ =>
                      rw [hsf] at h
                      simp only at h
                      cases hrn : fs₂.renameFile (tildeOf p) p with
                      | none => rw [hrn] at h; simp at h
                      | some fs₃ =>
                        rw [hrn] at h
                        simp only [Except.ok.injEq] at h
                        subst h
                        refine ⟨rfl, .inr ⟨s, fs₂, ?_, hsf, hrn⟩⟩
                        simpa using hex

/-- One successful, non-empty-fetch iteration keeps the invariant: the tree
has unique sibling names and every strict ancestor of a registered path is
a directory. -/
theorem processOne_dirInv {pd : String → Option DateTime}
    {fetch : MailDict → Except String (List FullMsg)} {st st' : LoopState}
    {msg : MailDict} (h : processOne pd fetch st msg = .ok st')
    (hfetch : fetch msg ≠ .ok [])
    (hnd : FS.nodupNames st.fs = true)
    (hinv : ∀ p ∈ st.paths, ∀ x, startsSeg x p → x ≠ p →
      ∃ ch, FS.resolve st.fs x = some (.dir ch)) :
    FS.nodupNames st'.fs = true ∧
    ∀ p ∈ st'.paths, ∀ x, startsSeg x p → x ≠ p →
      ∃ ch, FS.resolve st'.fs x = some (.dir ch) := by
  rcases processOne_fs_cases h with ⟨hfs, hpa⟩ |
    ⟨p, fs₁, hg, hdup, hcd, hpa, hrest⟩
  · rw [hfs, hpa]
    exact ⟨hnd, hinv⟩
  · rcases hrest with ⟨hfs, hpe⟩ | ⟨s, fs₂, hex, hsf, hrn⟩
    · refine ⟨by rw [hfs]; exact create_dir_nodup hcd hnd, ?_⟩
      intro q hq x hx hne
      rw [hpa] at hq
      rcases List.mem_cons.mp hq with rfl | hq'
      · rcases hpe with hpe | hpe
        · have hv : ∃ v, FS.resolve fs₁ q = some v := by
            simpa [FS.pathExists, Option.isSome_iff_exists] using hpe
          obtain ⟨v, hv⟩ := hv
          rw [hfs]
          exact FS.resolve_parent_dir hv x hx hne
        · exact absurd hpe hfetch
      · obtain ⟨ch, hch⟩ := hinv q hq' x hx hne
        rw [hfs]
        exact create_dir_dir_preserved hcd x ch hch
    · have hnd₁ : FS.nodupNames fs₁ = true := create_dir_nodup hcd hnd
      have hnd₂ : FS.nodupNames fs₂ = true := FS.setFile_nodup hsf hnd₁
      refine ⟨renameFile_nodup hrn hnd₂, ?_⟩
      intro q hq x hx hne
      rw [hpa] at hq
      rcases List.mem_cons.mp hq with rfl | hq'
      · obtain ⟨h1, h2⟩ := startsSeg_tilde hx hne
        obtain ⟨ch₂, hch₂⟩ := (FS.setFile_parent_dirs hsf x h1 h2).2
        exact renameFile_dir_preserved hrn x ch₂ hch₂
      · obtain ⟨ch, hch⟩ := hinv q hq' x hx hne
        obtain ⟨ch₁, hch₁⟩ := create_dir_dir_preserved hcd x ch hch
        obtain ⟨ch₂, hch₂⟩ := setFile_dir_preserved hsf x ch₁ hch₁
        exact renameFile_dir_preserved hrn x ch₂ hch₂

/-- The loop-level version of the ancestor-directory invariant. -/
theorem runLoop_dirInv {pd : String → Option DateTime}
    {fetch : MailDict → Except String (List FullMsg)}
    {msgs : List MailDict} {st st' : LoopState}
    (h : runLoop pd fetch msgs st = .ok st')
    (hfetch : ∀ m ∈ msgs, fetch m ≠ .ok [])
    (hnd : FS.nodupNames st.fs = true)
    (hinv : ∀ p ∈ st.paths, ∀ x, startsSeg x p → x ≠ p →
      ∃ ch, FS.resolve st.fs x = some (.dir ch)) :
    FS.nodupNames st'.fs = true ∧
    ∀ p ∈ st'.paths, ∀ x, startsSeg x p → x ≠ p →
      ∃ ch, FS.resolve st'.fs x = some (.dir ch) := by
  induction msgs generalizing st with
  | nil =>
    simp only [runLoop, Except.ok.injEq] at h
    subst h
    exact ⟨hnd, hinv⟩
  | cons m rest ih =>
    simp only [runLoop] at h
    cases hp : processOne pd fetch st m with
    | error e => rw [hp] at h; simp at h
    | ok st₁ =>
      rw [hp] at h
      obtain ⟨hnd₁, hinv₁⟩ := processOne_dirInv hp
        (hfetch m (List.mem_cons_self _ _)) hnd hinv
      exact ih h (fun m' hm' => hfetch m' (List.mem_cons_of_mem _ hm'))
        hnd₁ hinv₁

/-! ## C10: effect of the ancestor augmentation on the sweep -/

/-- C10 counterexample.  The augmentation is observable: when a
per-message fetch returns no message, the loop still registers the derived
path (`msg_downloaded` was already incremented) without writing anything,
so a registered path's ancestor need not be a directory.  Here the backup
root has a regular file `INBOX/2020` and the fetch comes back empty: the
augmented live set contains the ancestor `INBOX/2020`, so the sweep keeps
the file (`kept = 1, moved = 0`), while without augmentation the file is
quarantined (`kept = 0, moved = 1`). -/
theorem C10_counterexample :
    ∃ st, runLoop exPd (fun _ => .ok []) [exMsg1]
        ⟨FS.dir "INBOX" (FS.file "2020" "junk" FS.nil) FS.nil, [], 0, 0, 0⟩
        = .ok st ∧
      sweepDir "_deleted" (augment st.paths) [] st.fs
        ≠ sweepDir "_deleted" st.paths [] st.fs := by
  refine ⟨⟨FS.dir "INBOX" (FS.file "2020" "junk" FS.nil) FS.nil,
    [exPath1], 1, 0, 0⟩, rfl, ?_⟩
  have h1 : sweepDir "_deleted" (augment [exPath1]) []
      (FS.dir "INBOX" (FS.file "2020" "junk" FS.nil) FS.nil)
      = some (FS.dir "INBOX" (FS.file "2020" "junk" FS.nil) FS.nil, 1, 0) :=
    by rfl
  have h2 : sweepDir "_deleted" [exPath1] []
      (FS.dir "INBOX" (FS.file "2020" "junk" FS.nil) FS.nil)
      = some (FS.dir "INBOX"
          (FS.dir "_deleted" (FS.file "2020" "junk" FS.nil) FS.nil) FS.nil,
          0, 1) := by rfl
  intro he
  rw [h1, h2] at he
  simp at he

/-- C10 amended: for a download loop that completed on a tree with unique
sibling names, with every per-message fetch returning at least one message,
the sweep's outcome is identical whether or not the live set is augmented
with the ancestor directories of its members.  (The loop then keeps every
strict ancestor of a registered path a directory, and the sweep consults
the live set only at paths resolving to regular files.) -/
theorem C10_amended {pd : String → Option DateTime}
    {fetch : MailDict → Except String (List FullMsg)}
    {msgs : List MailDict} {fs0 : FS} {st : LoopState} {del : String}
    (hrun : runLoop pd fetch msgs ⟨fs0, [], 0, 0, 0⟩ = .ok st)
    (hnd0 : FS.nodupNames fs0 = true)
    (hfetch : ∀ m ∈ msgs, fetch m ≠ .ok []) :
    sweepDir del (augment st.paths) [] st.fs
      = sweepDir del st.paths [] st.fs := by
  obtain ⟨hnd, hinv⟩ := runLoop_dirInv hrun hfetch hnd0 (by intro p hp; simp at hp)
  apply sweepDir_congr
  intro t ht
  obtain ⟨rel, c, hteq, hres⟩ := sweepTested_resolve hnd t ht
  rw [List.nil_append] at hteq
  subst hteq
  constructor
  · intro hmem
    rcases List.mem_append.mp hmem with h1 | h2
    · exact h1
    · exfalso
      rw [List.mem_flatMap] at h2
      obtain ⟨p, hp, htc⟩ := h2
      simp only [dirnameChain, List.mem_map, List.mem_reverse,
        List.mem_range] at htc
      obtain ⟨k, hk, hrel⟩ := htc
      subst hrel
      have hseg : startsSeg (p.take k) p := by
        show p.take k = p.take (p.take k).length
        rw [List.length_take, Nat.min_eq_left (le_of_lt hk)]
      have hne : p.take k ≠ p := by
        intro he
        have hlen := congrArg List.length he
        rw [List.length_take, Nat.min_eq_left (le_of_lt hk)] at hlen
        omega
      obtain ⟨ch, hch⟩ := hinv p hp _ hseg hne
      rw [hres] at hch
      simp at hch
  · intro hmem
    exact List.mem_append_left _ hmem

/-- C10 witness: a clean one-message run (non-empty fetch); the two sweeps
agree on the resulting state. -/
theorem C10_witness :
    ∃ st, runLoop exPd exFetch [exMsg1] ⟨FS.nil, [], 0, 0, 0⟩ = .ok st ∧
      sweepDir "_deleted" (augment st.paths) [] st.fs
        = sweepDir "_deleted" st.paths [] st.fs := by
  have hrun : runLoop exPd exFetch [exMsg1] ⟨FS.nil, [], 0, 0, 0⟩
      = .ok exSt1 := by rfl
  exact ⟨exSt1, hrun, C10_amended hrun rfl
    (by intro m hm; simp [exFetch])⟩

/-! ## Lemmas: no write of the loop removes an existing path -/

theorem makedirs_exists_mono {fs fs' : FS} {d : List String}
    (h : FS.makedirs fs d = some fs') :
    ∀ x, FS.pathExists fs x = true → FS.pathExists fs' x = true := by
  intro x hx
  by_cases h1 : startsSeg x d
  · obtain ⟨ch, hch⟩ := FS.makedirs_isDir h x h1
    simp [FS.pathExists, hch]
  · simp only [FS.pathExists, FS.makedirs_resolve_other h x h1]
    exact hx

theorem create_dir_exists_mono {fs fs' : FS} {d : List String}
    (h : FS.create_dir_if_not_exist fs d = some fs') :
    ∀ x, FS.pathExists fs x = true → FS.pathExists fs' x = true := by
  simp only [FS.create_dir_if_not_exist] at h
  by_cases he : FS.pathExists fs d = true
  · rw [if_pos he] at h
    simp only [Option.some.injEq] at h
    subst h
    exact fun x hx => hx
  · rw [if_neg he] at h
    exact makedirs_exists_mono h

theorem setFile_exists_mono {fs fs' : FS} {p : List String} {c : String}
    (h : FS.setFile fs p c = some fs') :
    ∀ x, FS.pathExists fs x = true → FS.pathExists fs' x = true := by
  intro x hx
  by_cases h1 : startsSeg x p
  · by_cases he : x = p
    · subst he
      simp [FS.pathExists, FS.setFile_resolve_self h]
    · obtain ⟨ch, hch⟩ := (FS.setFile_parent_dirs h x h1 he).2
      simp [FS.pathExists, hch]
  · by_cases h2 : startsSeg p x
    · have he : x ≠ p := fun hep => h1 (hep ▸ startsSeg_refl x)
      have h3 := (FS.setFile_resolve_ext h x h2 he).2
      simp [FS.pathExists, h3] at hx
    · simp only [FS.pathExists, FS.setFile_resolve_other h x h1 h2]
      exact hx

theorem removeEntry_exists_other {fs fs' : FS} {p : List String} {c : String}
    (h : FS.removeEntry fs p = some fs')
    (hp : FS.resolve fs p = some (.file c)) :
    ∀ x, x ≠ p → FS.pathExists fs x = true → FS.pathExists fs' x = true := by
  intro x hne hx
  by_cases h1 : startsSeg x p
  · obtain ⟨ch, hch⟩ := removeEntry_parent_dirs h x h1 hne
    simp [FS.pathExists, hch]
  · by_cases h2 : startsSeg p x
    · obtain ⟨t, rfl⟩ := startsSeg_iff.mp h2
      have ht : t ≠ [] := by rintro rfl; simp at hne
      rw [FS.pathExists, FS.resolve_append fs p t ht, hp] at hx
      simp at hx
    · simp only [FS.pathExists, removeEntry_resolve_other h x h1 h2]
      exact hx

theorem renameFile_exists {fs fs' : FS} {src dst : List String}
    (h : FS.renameFile fs src dst = some fs') :
    (∀ x, x ≠ src → FS.pathExists fs x = true →
      FS.pathExists fs' x = true) ∧ FS.pathExists fs' dst = true := by
  simp only [FS.renameFile] at h
  cases hg : FS.getFileAt fs src with
  | none => rw [hg] at h; simp at h
  | some c =>
    rw [hg] at h
    simp only at h
    cases hr : FS.removeEntry fs src with
    | none => rw [hr] at h; simp at h
    | some fs₁ =>
      rw [hr] at h
      simp only at h
      constructor
      · intro x hne hx
        exact setFile_exists_mono h x
          (removeEntry_exists_other hr (getFileAt_eq_file hg) x hne hx)
      · simp [FS.pathExists, FS.setFile_resolve_self h]

/-! ## Lemmas: derived file names end in `.eml`, tilde names in `~` -/

theorem genParts_last {pd : String → Option DateTime} {m : MailDict}
    {p : List String} (h : genParts pd m = some p) :
    ∃ n, p.getLast? = some n ∧ n.data.getLast? = some 'l' := by
  cases hpd : pd m.Date with
  | none => simp [genParts, hpd] at h
  | some dt =>
    simp only [genParts, hpd, Option.map_some', Option.some.injEq] at h
    subst h
    refine ⟨baseName dt m.Id, by simp, ?_⟩
    have hd : (baseName dt m.Id).data
        = ((fulldateString dt ++ "_" ++ sanitizeId m.Id).data
            ++ ['.', 'e', 'm']) ++ ['l'] := by
      simp [baseName]
    rw [hd, List.getLast?_concat]

theorem tildeOf_getLast {p : List String} (hp : p ≠ []) :
    ∃ n, p.getLast? = some n ∧ (tildeOf p).getLast? = some (n ++ "~") := by
  induction p with
  | nil => exact absurd rfl hp
  | cons m rest ih =>
    cases rest with
    | nil => exact ⟨m, rfl, rfl⟩
    | cons r rs =>
      obtain ⟨n, h1, h2⟩ := ih (by simp)
      refine ⟨n, by simpa using h1, ?_⟩
      cases htl : tildeOf (r :: rs) with
      | nil =>
        have hlen := congrArg List.length htl
        rw [tildeOf_length] at hlen
        simp at hlen
      | cons y ys =>
        rw [htl] at h2
        simp only [tildeOf, htl]
        rw [List.getLast?_cons_cons]
        exact h2

theorem eml_ne_tildeOf {q p : List String} {n : String}
    (h1 : q.getLast? = some n) (h2 : n.data.getLast? = some 'l')
    (hp : p ≠ []) : q ≠ tildeOf p := by
  intro he
  obtain ⟨n₀, hn₀, ht⟩ := tildeOf_getLast hp
  rw [he, ht] at h1
  obtain rfl : n = n₀ ++ "~" := by simpa using h1.symm
  have hd : (n₀ ++ "~").data = n₀.data ++ ['~'] := rfl
  rw [hd] at h2
  simp at h2

/-! ## Lemmas: every registered path stays present as the loop proceeds -/

theorem processOne_keepInv {pd : String → Option DateTime}
    {fetch : MailDict → Except String (List FullMsg)} {st st' : LoopState}
    {msg : MailDict} (h : processOne pd fetch st msg = .ok st')
    (hfetch : fetch msg ≠ .ok [])
    (hinv : ∀ q ∈ st.paths, FS.pathExists st.fs q = true ∧
      ∃ n, q.getLast? = some n ∧ n.data.getLast? = some 'l') :
    ∀ q ∈ st'.paths, FS.pathExists st'.fs q = true ∧
      ∃ n, q.getLast? = some n ∧ n.data.getLast? = some 'l' := by
  rcases processOne_fs_cases h with ⟨hfs, hpa⟩ |
    ⟨p, fs₁, hg, hdup, hcd, hpa, hrest⟩
  · rw [hfs, hpa]
    exact hinv
  · rcases hrest with ⟨hfs, hpe⟩ | ⟨s, fs₂, hex, hsf, hrn⟩
    · intro q hq
      rw [hpa] at hq
      rcases List.mem_cons.mp hq with rfl | hq'
      · rcases hpe with hpe | hpe
        · exact ⟨by rw [hfs]; exact hpe, genParts_last hg⟩
        · exact absurd hpe hfetch
      · obtain ⟨hq1, hq2⟩ := hinv q hq'
        exact ⟨by rw [hfs]; exact create_dir_exists_mono hcd q hq1, hq2⟩
    · intro q hq
      rw [hpa] at hq
      rcases List.mem_cons.mp hq with rfl | hq'
      · exact ⟨(renameFile_exists hrn).2, genParts_last hg⟩
      · obtain ⟨hq1, hq2⟩ := hinv q hq'
        refine ⟨?_, hq2⟩
        have h1 : FS.pathExists fs₁ q = true := create_dir_exists_mono hcd q hq1
        have h2 : FS.pathExists fs₂ q = true := setFile_exists_mono hsf q h1
        obtain ⟨n, hn1, hn2⟩ := hq2
        exact (renameFile_exists hrn).1 q
          (eml_ne_tildeOf hn1 hn2 (genParts_ne_nil hg)) h2

theorem runLoop_keepInv {pd : String → Option DateTime}
    {fetch : MailDict → Except String (List FullMsg)}
    {msgs : List MailDict} {st st' : LoopState}
    (h : runLoop pd fetch msgs st = .ok st')
    (hfetch : ∀ m ∈ msgs, fetch m ≠ .ok [])
    (hinv : ∀ q ∈ st.paths, FS.pathExists st.fs q = true ∧
      ∃ n, q.getLast? = some n ∧ n.data.getLast? = some 'l') :
    ∀ q ∈ st'.paths, FS.pathExists st'.fs q = true ∧
      ∃ n, q.getLast? = some n ∧ n.data.getLast? = some 'l' := by
  induction msgs generalizing st with
  | nil =>
    simp only [runLoop, Except.ok.injEq] at h
    subst h
    exact hinv
  | cons m rest ih =>
    simp only [runLoop] at h
    cases hp : processOne pd fetch st m with
    | error e => rw [hp] at h; simp at h
    | ok st₁ =>
      rw [hp] at h
      exact ih h (fun m' hm' => hfetch m' (List.mem_cons_of_mem _ hm'))
        (processOne_keepInv hp (hfetch m (List.mem_cons_self _ _)) hinv)

/-! ## Lemmas: a loop over messages whose files all exist is a no-op -/

theorem runLoop_noop {pd : String → Option DateTime}
    {fetch : MailDict → Except String (List FullMsg)}
    {msgs : List MailDict} {st0 : LoopState} {fs : FS}
    (hfs : st0.fs = fs)
    (hall : ∀ m ∈ msgs, ∃ p, genParts pd m = some p ∧
      FS.pathExists fs p = true) :
    ∃ st₂, runLoop pd fetch msgs st0 = .ok st₂ ∧ st₂.fs = fs ∧
      st₂.downloaded = st0.downloaded := by
  induction msgs generalizing st0 with
  | nil => exact ⟨st0, rfl, hfs, rfl⟩
  | cons m rest ih =>
    obtain ⟨p, hg, hpe⟩ := hall m (List.mem_cons_self _ _)
    have hall' : ∀ m' ∈ rest, ∃ p, genParts pd m' = some p ∧
        FS.pathExists fs p = true :=
      fun m' hm' => hall m' (List.mem_cons_of_mem _ hm')
    by_cases hdup : p ∈ st0.paths
    · obtain ⟨st₂, h1, h2, h3⟩ :=
        @ih { st0 with dupWarnings := st0.dupWarnings + 1 } hfs hall'
      exact ⟨st₂, by simp only [runLoop, processOne_dup hg hdup, h1], h2, h3⟩
    · have hv : ∃ v, FS.resolve fs p = some v := by
        simpa [FS.pathExists, Option.isSome_iff_exists] using hpe
      obtain ⟨v, hv⟩ := hv
      have hpne : p ≠ [] := genParts_ne_nil hg
      have hdne : p.dropLast ≠ p := by
        intro he
        have hlen := congrArg List.length he
        rw [List.length_dropLast] at hlen
        cases p with
        | nil => exact hpne rfl
        | cons a as => simp at hlen
      obtain ⟨ch, hch⟩ :=
        FS.resolve_parent_dir hv p.dropLast (startsSeg_dropLast p) hdne
      have hcd : fs.create_dir_if_not_exist p.dropLast = some fs := by
        simp [FS.create_dir_if_not_exist, FS.pathExists, hch]
      have hcd0 : st0.fs.create_dir_if_not_exist p.dropLast = some fs := by
        rw [hfs]; exact hcd
      have hpe0 : fs.pathExists p = true := hpe
      obtain ⟨st₂, h1, h2, h3⟩ := @ih { st0 with fs := fs, paths := p :: st0.paths, alreadyExisting := st0.alreadyExisting + 1 } rfl hall'
      refine ⟨st₂, ?_, h2, h3⟩
      simp only [runLoop, processOne_existing hg hdup hcd0 hpe0, h1]

/-! ## Lemmas: where the registered paths of a run come from -/

theorem runLoop_paths_from {pd : String → Option DateTime}
    {fetch : MailDict → Except String (List FullMsg)}
    {msgs : List MailDict} {st st' : LoopState}
    (h : runLoop pd fetch msgs st = .ok st') :
    ∀ q ∈ st'.paths, q ∈ st.paths ∨
      ∃ m ∈ msgs, genParts pd m = some q := by
  induction msgs generalizing st with
  | nil =>
    simp only [runLoop, Except.ok.injEq] at h
    subst h
    exact fun q hq => .inl hq
  | cons m rest ih =>
    simp only [runLoop] at h
    cases hp : processOne pd fetch st m with
    | error e => rw [hp] at h; simp at h
    | ok st₁ =>
      rw [hp] at h
      intro q hq
      rcases ih h q hq with hq₁ | ⟨m', hm', hg'⟩
      · rcases processOne_ok_cases hp with ⟨p, hg, _, rfl⟩ |
          ⟨p, hg, _, hpp, _⟩
        · exact .inl hq₁
        · rw [hpp] at hq₁
          rcases List.mem_cons.mp hq₁ with rfl | hq₂
          · exact .inr ⟨m, List.mem_cons_self _ _, hg⟩
          · exact .inl hq₂
      · exact .inr ⟨m', List.mem_cons_of_mem _ hm', hg'⟩

theorem augment_sub {A B : List (List String)}
    (hsub : ∀ x ∈ A, x ∈ B) : ∀ y ∈ augment A, y ∈ augment B := by
  intro y hy
  rcases List.mem_append.mp hy with h1 | h2
  · exact List.mem_append_left _ (hsub y h1)
  · rw [List.mem_flatMap] at h2
    obtain ⟨p, hp, hc⟩ := h2
    exact List.mem_append_right _
      (List.mem_flatMap.mpr ⟨p, hsub p hp, hc⟩)

/-! ## C9: idempotence of a repeated run -/

/-- C9: running the reconciler a second time against the unchanged listing
and the backup root produced by a first complete run downloads nothing and
leaves the tree identical.  Hypotheses: the initial tree has unique sibling
names (true of any real directory), and the remote is self-consistent in
that each per-message fetch returns at least one message (an empty fetch
would *phantom-count* a download without writing, breaking `downloaded = 0`
on every run). -/
theorem C9_idempotent {pd : String → Option DateTime}
    {fetch : MailDict → Except String (List FullMsg)}
    {msgs : List MailDict} {del : String} {fs0 : FS} {r : Report}
    (h1 : backup_imap pd fetch (.ok msgs) del fs0 = .ok r)
    (hnd0 : FS.nodupNames fs0 = true)
    (hfetch : ∀ m ∈ msgs, fetch m ≠ .ok []) :
    ∃ r₂, backup_imap pd fetch (.ok msgs) del r.fs = .ok r₂ ∧
      r₂.downloaded = 0 ∧ r₂.fs = r.fs := by
  simp only [backup_imap] at h1
  cases hrun : runLoop pd fetch msgs ⟨fs0, [], 0, 0, 0⟩ with
  | error e => rw [hrun] at h1; simp at h1
  | ok st =>
    rw [hrun] at h1
    simp only at h1
    cases hsw : sweepDir del (augment st.paths) [] st.fs with
    | none => rw [hsw] at h1; simp at h1
    | some res =>
      obtain ⟨fs', kept, moved⟩ := res
      rw [hsw] at h1
      simp only [Except.ok.injEq] at h1
      subst h1
      obtain ⟨hnd_st, -⟩ := runLoop_dirInv hrun hfetch hnd0
        (by intro p hp; simp at hp)
      have hkeep := runLoop_keepInv hrun hfetch
        (by intro q hq; simp at hq)
      have hexx : ∀ q ∈ st.paths, FS.pathExists fs' q = true := by
        intro q hq
        exact sweepDir_exists q [] st.fs fs' kept moved hsw hnd_st
          (by simpa [augment] using
            List.mem_append_left (st.paths.flatMap dirnameChain) hq)
          (hkeep q hq).1
      have hall : ∀ m ∈ msgs, ∃ p, genParts pd m = some p ∧
          FS.pathExists fs' p = true := by
        intro m hm
        obtain ⟨p, hg, hmem⟩ := runLoop_member_paths hrun m hm
        exact ⟨p, hg, hexx p hmem⟩
      obtain ⟨st₂, hrun₂, hfs₂, hdl₂⟩ :=
        @runLoop_noop pd fetch msgs ⟨fs', [], 0, 0, 0⟩ fs' rfl hall
      have hsub : ∀ q ∈ st.paths, q ∈ st₂.paths := by
        intro q hq
        rcases runLoop_paths_from hrun q hq with hq0 | ⟨m, hm, hg⟩
        · simp at hq0
        · obtain ⟨p', hg', hmem'⟩ := runLoop_member_paths hrun₂ m hm
          rw [hg] at hg'
          have hqp : q = p' := by simpa using hg'
          rw [hqp]
          exact hmem'
      obtain ⟨k₂, hsk⟩ := sweepDir_swept
        (sweptFS_mono (augment_sub hsub) (sweepDir_post hsw))
      have hdl₂0 : st₂.downloaded = 0 := hdl₂
      refine ⟨⟨fs', st₂.downloaded, st₂.alreadyExisting, k₂, 0,
        st₂.dupWarnings, augment st₂.paths,
        st₂.downloaded + st₂.alreadyExisting == k₂⟩, ?_, hdl₂0, rfl⟩
      simp only [backup_imap]
      rw [hrun₂]
      simp only
      rw [hfs₂, hsk]

/-- C9 witness: a one-message run from an empty root, then the same run
again from the produced tree: zero downloads and an unchanged tree. -/
theorem C9_witness :
    ∃ r r₂,
      backup_imap exPd exFetch (.ok [exMsg1]) "_deleted" FS.nil = .ok r ∧
      backup_imap exPd exFetch (.ok [exMsg1]) "_deleted" r.fs = .ok r₂ ∧
      r₂.downloaded = 0 ∧ r₂.fs = r.fs := by
  have h1 : backup_imap exPd exFetch (.ok [exMsg1]) "_deleted" FS.nil
      = .ok ⟨exFs1, 1, 0, 1, 0, 0, augment [exPath1], true⟩ := by rfl
  obtain ⟨r₂, h2, h3, h4⟩ := C9_idempotent h1 rfl
    (by intro m hm; simp [exFetch])
  exact ⟨_, r₂, h1, h2, h3, h4⟩

/-! ## Lemmas: `allKeptFS` through the build-phase operations -/

theorem allKept_mono {del : String} {live live' : List (List String)}
    (hsub : ∀ x ∈ live, x ∈ live') :
    ∀ {pre : List String} {fs : FS}, allKeptFS del live pre fs →
      allKeptFS del live' pre fs := by
  intro pre fs h
  induction fs generalizing pre with
  | nil => trivial
  | file n c rest ih =>
    obtain ⟨h1, h2, h3⟩ := h
    exact ⟨h1, hsub _ h2, ih h3⟩
  | dir n ch rest ih1 ih2 =>
    obtain ⟨h1, h2, h3⟩ := h
    exact ⟨h1, ih1 h2, ih2 h3⟩

theorem allKept_lookup_dir {del : String} {live : List (List String)}
    {pre : List String} {fs ch : FS} {n : String}
    (h : allKeptFS del live pre fs) (hl : FS.lookup fs n = some (.dir ch)) :
    allKeptFS del live (pre ++ [n]) ch := by
  induction fs generalizing pre with
  | nil => simp [FS.lookup] at hl
  | file n' c rest ih =>
    simp only [FS.lookup] at hl
    by_cases hn : n' = n
    · simp [hn] at hl
    · rw [if_neg hn] at hl
      exact ih h.2.2 hl
  | dir n' ch' rest ih1 ih2 =>
    simp only [FS.lookup] at hl
    by_cases hn : n' = n
    · subst hn
      rw [if_pos rfl] at hl
      simp only [Option.some.injEq, EntryView.dir.injEq] at hl
      subst hl
      exact h.2.1
    · rw [if_neg hn] at hl
      exact ih2 h.2.2 hl

theorem allKept_updateChildDir {del : String} {live : List (List String)}
    {pre : List String} {fs : FS} {n : String} {ch ch' : FS}
    (h : allKeptFS del live pre fs) (hl : FS.lookup fs n = some (.dir ch))
    (hch : allKeptFS del live (pre ++ [n]) ch') :
    allKeptFS del live pre (FS.updateChildDir fs n ch') := by
  induction fs generalizing pre with
  | nil => trivial
  | file n' c rest ih =>
    simp only [FS.lookup] at hl
    by_cases hn : n' = n
    · simp [hn] at hl
    · rw [if_neg hn] at hl
      simp only [FS.updateChildDir, if_neg hn]
      exact ⟨h.1, h.2.1, ih h.2.2 hl hch⟩
  | dir n' ch₀ rest ih1 ih2 =>
    simp only [FS.lookup] at hl
    by_cases hn : n' = n
    · subst hn
      simp only [FS.updateChildDir, if_pos rfl]
      exact ⟨h.1, hch, h.2.2⟩
    · rw [if_neg hn] at hl
      simp only [FS.updateChildDir, if_neg hn]
      exact ⟨h.1, h.2.1, ih2 h.2.2 hl hch⟩

theorem allKept_appendDir {del : String} {live : List (List String)}
    {pre : List String} {fs : FS} {n : String} {ch : FS}
    (h : allKeptFS del live pre fs) (hn : n ≠ del)
    (hch : allKeptFS del live (pre ++ [n]) ch) :
    allKeptFS del live pre (FS.appendDir fs n ch) := by
  induction fs generalizing pre with
  | nil => exact ⟨hn, hch, trivial⟩
  | file n' c rest ih =>
    exact ⟨h.1, h.2.1, ih h.2.2 hch⟩
  | dir n' ch₀ rest ih1 ih2 =>
    exact ⟨h.1, h.2.1, ih2 h.2.2 hch⟩

theorem allKept_appendFile {del : String} {live : List (List String)}
    {pre : List String} {fs : FS} {n c : String}
    (h : allKeptFS del live pre fs) (hn : n ≠ del)
    (hlive : (pre ++ [n]) ∈ live) :
    allKeptFS del live pre (FS.appendFile fs n c) := by
  induction fs generalizing pre with
  | nil => exact ⟨hn, hlive, trivial⟩
  | file n' c' rest ih =>
    exact ⟨h.1, h.2.1, ih h.2.2 hlive⟩
  | dir n' ch₀ rest ih1 ih2 =>
    exact ⟨h.1, h.2.1, ih2 h.2.2 hlive⟩

theorem allKept_overwriteFile {del : String} {live : List (List String)}
    {pre : List String} {fs : FS} {n c : String}
    (h : allKeptFS del live pre fs) :
    allKeptFS del live pre (FS.overwriteFile fs n c) := by
  induction fs generalizing pre with
  | nil => trivial
  | file n' c' rest ih =>
    simp only [FS.overwriteFile]
    by_cases hn : n' = n
    · rw [if_pos hn]
      exact ⟨h.1, h.2.1, h.2.2⟩
    · rw [if_neg hn]
      exact ⟨h.1, h.2.1, ih h.2.2⟩
  | dir n' ch₀ rest ih1 ih2 =>
    simp only [FS.overwriteFile]
    by_cases hn : n' = n
    · rw [if_pos hn]
      exact h
    · rw [if_neg hn]
      exact ⟨h.1, h.2.1, ih2 h.2.2⟩

theorem allKept_makedirs {del : String} {live : List (List String)}
    {pre : List String} {fs fs' : FS} {d : List String}
    (h : FS.makedirs fs d = some fs') (hd : ∀ a ∈ d, a ≠ del)
    (hk : allKeptFS del live pre fs) : allKeptFS del live pre fs' := by
  induction d generalizing fs fs' pre with
  | nil =>
    simp only [FS.makedirs, Option.some.injEq] at h
    subst h
    exact hk
  | cons n rest ih =>
    simp only [FS.makedirs] at h
    cases hl : FS.lookup fs n with
    | some v =>
      cases v with
      | file c => simp [hl] at h
      | dir ch =>
        simp only [hl] at h
        cases hm : FS.makedirs ch rest with
        | none => simp [hm] at h
        | some ch' =>
          simp only [hm, Option.map_some', Option.some.injEq] at h
          subst h
          exact allKept_updateChildDir hk hl
            (ih hm (fun a ha => hd a (List.mem_cons_of_mem _ ha))
              (allKept_lookup_dir hk hl))
    | none =>
      simp only [hl] at h
      cases hm : FS.makedirs FS.nil rest with
      | none => simp [hm] at h
      | some ch' =>
        simp only [hm, Option.map_some', Option.some.injEq] at h
        subst h
        exact allKept_appendDir hk (hd n (List.mem_cons_self _ _))
          (ih hm (fun a ha => hd a (List.mem_cons_of_mem _ ha)) trivial)

theorem allKept_setFile {del : String} {live : List (List String)}
    {pre : List String} {fs fs' : FS} {p : List String} {c : String}
    (h : FS.setFile fs p c = some fs') (hp : ∀ a ∈ p, a ≠ del)
    (hlive : (pre ++ p) ∈ live)
    (hk : allKeptFS del live pre fs) : allKeptFS del live pre fs' := by
  induction p generalizing fs fs' pre with
  | nil => simp [FS.setFile] at h
  | cons n rest ih =>
    cases rest with
    | nil =>
      simp only [FS.setFile] at h
      cases hl : FS.lookup fs n with
      | some v =>
        cases v with
        | dir ch => simp [hl] at h
        | file c₀ =>
          simp only [hl, Option.some.injEq] at h
          subst h
          exact allKept_overwriteFile hk
      | none =>
        simp only [hl, Option.some.injEq] at h
        subst h
        exact allKept_appendFile hk (hp n (List.mem_cons_self _ _)) hlive
    | cons r rs =>
      simp only [FS.setFile] at h
      cases hl : FS.lookup fs n with
      | some v =>
        cases v with
        | file c₀ => simp [hl] at h
        | dir ch =>
          simp only [hl] at h
          cases hs : FS.setFile ch (r :: rs) c with
          | none => simp [hs] at h
          | some ch' =>
            simp only [hs, Option.map_some', Option.some.injEq] at h
            subst h
            exact allKept_updateChildDir hk hl
              (ih hs (fun a ha => hp a (List.mem_cons_of_mem _ ha))
                (by simpa [List.append_assoc] using hlive)
                (allKept_lookup_dir hk hl))
      | none => simp [hl] at h

theorem tildeOf_dropLast (p : List String) :
    (tildeOf p).dropLast = p.dropLast := by
  induction p with
  | nil => rfl
  | cons n rest ih =>
    cases rest with
    | nil => rfl
    | cons r rs =>
      have htl : tildeOf (r :: rs) ≠ [] := by
        intro he
        have hlen := congrArg List.length he
        rw [tildeOf_length] at hlen
        simp at hlen
      simp only [tildeOf]
      rw [List.dropLast_cons_of_ne_nil htl, List.dropLast_cons₂, ih]

/-! ## The clean-run loop induction -/

theorem runLoop_clean {pd : String → Option DateTime}
    {fetch : MailDict → Except String (List FullMsg)} {del : String} :
    ∀ (msgs : List MailDict) (st : LoopState),
    (∀ m ∈ msgs, ∃ p, genParts pd m = some p ∧ (∀ a ∈ p, a ≠ del) ∧
      (∃ fm l s, fetch m = .ok (fm :: l) ∧ genParts pd fm.hdr = some p ∧
        attemptFlatten fm.message = .ok s) ∧
      (∀ q ∈ st.paths, ¬ startsSeg p q ∧ ¬ startsSeg q p ∧
        ¬ startsSeg (tildeOf p) q)) →
    List.Pairwise (fun m m' => ∀ p p', genParts pd m = some p →
      genParts pd m' = some p' → ¬ startsSeg p' p ∧ ¬ startsSeg p p' ∧
      ¬ startsSeg (tildeOf p') p) msgs →
    FS.countFiles st.fs = st.downloaded →
    allKeptFS del st.paths [] st.fs →
    (∀ x, FS.pathExists st.fs x = true →
      x = [] ∨ ∃ q ∈ st.paths, startsSeg x q) →
    (∀ x c, FS.getFileAt st.fs x = some c → x ∈ st.paths) →
    ∃ st', runLoop pd fetch msgs st = .ok st' ∧
      st'.downloaded = st.downloaded + msgs.length ∧
      st'.alreadyExisting = st.alreadyExisting ∧
      st'.dupWarnings = st.dupWarnings ∧
      FS.countFiles st'.fs = st'.downloaded ∧
      allKeptFS del st'.paths [] st'.fs ∧
      (∀ x, FS.pathExists st'.fs x = true →
        x = [] ∨ ∃ q ∈ st'.paths, startsSeg x q) ∧
      (∀ x c, FS.getFileAt st'.fs x = some c → x ∈ st'.paths) := by
  intro msgs
  induction msgs with
  | nil =>
    intro st _ _ hcount hak hchar hfiles
    exact ⟨st, rfl, by simp, rfl, rfl, hcount, hak, hchar, hfiles⟩
  | cons m rest ih =>
    intro st hmsg hpair hcount hak hchar hfiles
    obtain ⟨p, hg, hdel, ⟨fm, l, s, hf, h2, hfl⟩, hsep⟩ :=
      hmsg m (List.mem_cons_self _ _)
    have hpne : p ≠ [] := genParts_ne_nil hg
    have hdup : p ∉ st.paths := fun hmem =>
      (hsep p hmem).1 (startsSeg_refl p)
    have hdll : p.dropLast.length < p.length := by
      cases p with
      | nil => exact absurd rfl hpne
      | cons a as =>
        simp only [List.length_dropLast, List.length_cons]
        omega
    have hnofile : ∀ x, startsSeg x p.dropLast →
        FS.getFileAt st.fs x = none := by
      intro x hx
      cases hgf : FS.getFileAt st.fs x with
      | none => rfl
      | some c =>
        exfalso
        exact (hsep x (hfiles x c hgf)).2.1
          (startsSeg_trans hx (startsSeg_dropLast p))
    obtain ⟨fs₁, hcd, hgf₁, hcf₁, hpe₁, hak₁, hpar₁⟩ :
        ∃ fs₁, st.fs.create_dir_if_not_exist p.dropLast = some fs₁ ∧
          (∀ x, FS.getFileAt fs₁ x = FS.getFileAt st.fs x) ∧
          FS.countFiles fs₁ = FS.countFiles st.fs ∧
          (∀ x, FS.pathExists fs₁ x = true →
            FS.pathExists st.fs x = true ∨ startsSeg x p.dropLast) ∧
          allKeptFS del st.paths [] fs₁ ∧
          (∃ ch, FS.resolve fs₁ p.dropLast = some (.dir ch)) := by
      by_cases hdex : FS.pathExists st.fs p.dropLast = true
      · refine ⟨st.fs, by simp [FS.create_dir_if_not_exist, hdex],
          fun x => rfl, rfl, fun x hx => .inl hx, hak, ?_⟩
        have hv : ∃ v, FS.resolve st.fs p.dropLast = some v := by
          simpa [FS.pathExists, Option.isSome_iff_exists] using hdex
        obtain ⟨v, hv⟩ := hv
        cases v with
        | dir ch => exact ⟨ch, hv⟩
        | file c =>
          exfalso
          have hgf : FS.getFileAt st.fs p.dropLast = some c := by
            simp [FS.getFileAt, hv]
          have h0 := hnofile p.dropLast (startsSeg_refl _)
          rw [hgf] at h0
          cases h0
      · have hmk : (FS.makedirs st.fs p.dropLast).isSome :=
          FS.makedirs_isSome hnofile
        cases hm : FS.makedirs st.fs p.dropLast with
        | none => rw [hm] at hmk; simp at hmk
        | some fs₁ =>
          refine ⟨fs₁, by simp [FS.create_dir_if_not_exist, hdex, hm],
            FS.makedirs_getFileAt hm, FS.makedirs_countFiles hm, ?_,
            allKept_makedirs hm
              (fun a ha => hdel a (List.dropLast_subset p ha)) hak,
            FS.makedirs_isDir hm p.dropLast (startsSeg_refl _)⟩
          intro x hx
          by_cases hseg : startsSeg x p.dropLast
          · exact .inr hseg
          · left
            simpa [FS.pathExists, FS.makedirs_resolve_other hm x hseg]
              using hx
    have hexF : FS.pathExists fs₁ p = false := by
      cases hpe : FS.pathExists fs₁ p with
      | false => rfl
      | true =>
        exfalso
        rcases hpe₁ p hpe with h0 | h0
        · rcases hchar p h0 with rfl | ⟨q, hq, hseg⟩
          · exact hpne rfl
          · exact (hsep q hq).1 hseg
        · have := startsSeg_length h0
          omega
    have hresF : FS.resolve fs₁ p = none := pathExists_false_iff.mp hexF
    have htne : tildeOf p ≠ [] := by
      intro he
      have hlen := congrArg List.length he
      rw [tildeOf_length] at hlen
      cases p with
      | nil => exact hpne rfl
      | cons a as => simp at hlen
    have hexT : FS.pathExists fs₁ (tildeOf p) = false := by
      cases hpe : FS.pathExists fs₁ (tildeOf p) with
      | false => rfl
      | true =>
        exfalso
        rcases hpe₁ _ hpe with h0 | h0
        · rcases hchar _ h0 with he | ⟨q, hq, hseg⟩
          · exact htne he
          · exact (hsep q hq).2.2 hseg
        · have hlen := startsSeg_length h0
          rw [tildeOf_length] at hlen
          omega
    have hresT : FS.resolve fs₁ (tildeOf p) = none :=
      pathExists_false_iff.mp hexT
    have hsfT : (FS.setFile fs₁ (tildeOf p) s).isSome := by
      apply FS.setFile_isSome s htne
      · rw [tildeOf_dropLast]
        exact hpar₁
      · intro ch hch
        rw [hresT] at hch
        cases hch
    cases hsf : FS.setFile fs₁ (tildeOf p) s with
    | none => rw [hsf] at hsfT; simp at hsfT
    | some fs₂ =>
    have hsfP : (FS.setFile fs₁ p s).isSome := by
      apply FS.setFile_isSome s hpne hpar₁
      intro ch hch
      rw [hresF] at hch
      cases hch
    cases hsf₂ : FS.setFile fs₁ p s with
    | none => rw [hsf₂] at hsfP; simp at hsfP
    | some fs₃ =>
    have hrn : fs₂.renameFile (tildeOf p) p = some fs₃ := by
      rw [FS.renameFile_fresh_setFile hresT hsf]
      exact hsf₂
    have hstep := processOne_new hg hdup hcd hexF hf h2 hfl hsf hrn
    have hcf₃ : FS.countFiles fs₃ = st.downloaded + 1 := by
      rw [FS.setFile_countFiles_fresh hsf₂ hresF, hcf₁, hcount]
    have hak₃ : allKeptFS del (p :: st.paths) [] fs₃ :=
      allKept_setFile hsf₂ hdel
        (by simp)
        (allKept_mono (fun x hx => List.mem_cons_of_mem _ hx) hak₁)
    have hchar₃ : ∀ x, FS.pathExists fs₃ x = true →
        x = [] ∨ ∃ q ∈ p :: st.paths, startsSeg x q := by
      intro x hx
      by_cases h1 : startsSeg x p
      · exact .inr ⟨p, List.mem_cons_self _ _, h1⟩
      · by_cases h2x : startsSeg p x
        · have hne : x ≠ p := fun hep => h1 (hep ▸ startsSeg_refl x)
          have h3 := (FS.setFile_resolve_ext hsf₂ x h2x hne).1
          rw [FS.pathExists, h3] at hx
          simp at hx
        · rw [FS.pathExists, FS.setFile_resolve_other hsf₂ x h1 h2x] at hx
          rcases hpe₁ x hx with h0 | h0
          · rcases hchar x h0 with rfl | ⟨q, hq, hseg⟩
            · exact .inl rfl
            · exact .inr ⟨q, List.mem_cons_of_mem _ hq, hseg⟩
          · exact .inr ⟨p, List.mem_cons_self _ _,
              startsSeg_trans h0 (startsSeg_dropLast p)⟩
    have hfiles₃ : ∀ x c', FS.getFileAt fs₃ x = some c' →
        x ∈ p :: st.paths := by
      intro x c' hgf
      by_cases hxe : x = p
      · rw [hxe]
        exact List.mem_cons_self _ _
      · by_cases h1 : startsSeg x p
        · exfalso
          obtain ⟨ch, hch⟩ := (FS.setFile_parent_dirs hsf₂ x h1 hxe).2
          rw [FS.getFileAt, hch] at hgf
          cases hgf
        · by_cases h2x : startsSeg p x
          · have h3 := (FS.setFile_resolve_ext hsf₂ x h2x hxe).1
            rw [FS.getFileAt, h3] at hgf
            cases hgf
          · have hcongr : FS.getFileAt fs₃ x = FS.getFileAt fs₁ x := by
              simp only [FS.getFileAt,
                FS.setFile_resolve_other hsf₂ x h1 h2x]
            rw [hcongr, hgf₁ x] at hgf
            exact List.mem_cons_of_mem _ (hfiles x c' hgf)
    have hmsg' : ∀ m' ∈ rest, ∃ p', genParts pd m' = some p' ∧
        (∀ a ∈ p', a ≠ del) ∧
        (∃ fm' l' s', fetch m' = .ok (fm' :: l') ∧
          genParts pd fm'.hdr = some p' ∧
          attemptFlatten fm'.message = .ok s') ∧
        (∀ q ∈ p :: st.paths, ¬ startsSeg p' q ∧ ¬ startsSeg q p' ∧
          ¬ startsSeg (tildeOf p') q) := by
      intro m' hm'
      obtain ⟨p', hg', hdel', hfm', hsep'⟩ :=
        hmsg m' (List.mem_cons_of_mem _ hm')
      refine ⟨p', hg', hdel', hfm', ?_⟩
      intro q hq
      rcases List.mem_cons.mp hq with rfl | hq₂
      · exact (List.pairwise_cons.mp hpair).1 m' hm' q p' hg hg'
      · exact hsep' q hq₂
    obtain ⟨st', hrun', hd', ha', hw', hcf', hak', hchar', hfiles'⟩ :=
      ih { st with fs := fs₃, paths := p :: st.paths, downloaded := st.downloaded + 1 } hmsg' (List.pairwise_cons.mp hpair).2 hcf₃ hak₃ hchar₃ hfiles₃
    refine ⟨st', ?_, ?_, ha', hw', hcf', hak', hchar', hfiles'⟩
    · simp only [runLoop, hstep]
      exact hrun'
    · rw [hd']
      simp only [List.length_cons]
      omega

/-! ## C1: clean-run consistency -/

/-- C1 counterexample.  A single message whose Folder is named like the
quarantine directory (`_deleted`) satisfies the claim's premises (one
message, distinct paths, empty backup root) and the run completes with
`downloaded = 1`; but the sweep skips the top-level entry named
`_deleted` entirely, so its file is never counted: `kept = 0 ≠ 1` and the
reported verdict is FAILED, not SUCCESS. -/
theorem C1_counterexample :
    ∃ r, backup_imap exPd exFetch
        (.ok [⟨"_deleted", "<id1@example.com>", exDate⟩]) "_deleted" FS.nil
        = .ok r ∧
      r.downloaded = 1 ∧ r.alreadyExisting = 0 ∧ r.kept = 0 ∧
      r.movedToQuarantine = 0 ∧ r.verdictSuccess = false := by
  exact ⟨_, rfl, rfl, rfl, rfl, rfl, rfl⟩

/-- C1 amended: clean-run consistency holds when, additionally, no derived
path has a component equal to the quarantine name, the derived paths are
pairwise non-interfering (none is an initial segment of another, and no
tilde-name of one is an initial segment of another), and every fetch
returns a first message with the same derived path whose body serializes
(possibly after the one repair).  Then from an empty backup root the run
completes with `downloaded = N`, `alreadyExisting = 0`, `kept = N`,
`movedToQuarantine = 0` and verdict SUCCESS. -/
theorem C1_amended {pd : String → Option DateTime}
    {fetch : MailDict → Except String (List FullMsg)}
    {msgs : List MailDict} {del : String}
    (hmsg : ∀ m ∈ msgs, ∃ p, genParts pd m = some p ∧
      (∀ a ∈ p, a ≠ del) ∧
      ∃ fm l s, fetch m = .ok (fm :: l) ∧ genParts pd fm.hdr = some p ∧
        attemptFlatten fm.message = .ok s)
    (hpair : List.Pairwise (fun m m' => ∀ p p', genParts pd m = some p →
      genParts pd m' = some p' → ¬ startsSeg p' p ∧ ¬ startsSeg p p' ∧
      ¬ startsSeg (tildeOf p') p) msgs) :
    ∃ r, backup_imap pd fetch (.ok msgs) del FS.nil = .ok r ∧
      r.downloaded = msgs.length ∧ r.alreadyExisting = 0 ∧
      r.kept = msgs.length ∧ r.movedToQuarantine = 0 ∧
      r.verdictSuccess = true := by
  have hchar0 : ∀ x, FS.pathExists FS.nil x = true →
      x = [] ∨ ∃ q ∈ ([] : List (List String)), startsSeg x q := by
    intro x hx
    cases x with
    | nil => exact .inl rfl
    | cons a as =>
      rw [FS.pathExists] at hx
      simp [FS.resolve, FS.lookup] at hx
  have hfiles0 : ∀ x c, FS.getFileAt FS.nil x = some c →
      x ∈ ([] : List (List String)) := by
    intro x c hx
    cases x with
    | nil => simp [FS.getFileAt, FS.resolve] at hx
    | cons a as => simp [FS.getFileAt, FS.resolve, FS.lookup] at hx
  obtain ⟨st', hrun, hd, ha, hw, hcf, hak, -, -⟩ :=
    runLoop_clean msgs ⟨FS.nil, [], 0, 0, 0⟩
      (fun m hm => by
        obtain ⟨p, h1, h2, h3⟩ := hmsg m hm
        exact ⟨p, h1, h2, h3, fun q hq => absurd hq (List.not_mem_nil q)⟩)
      hpair rfl trivial hchar0 hfiles0
  have hsw : sweepDir del (augment st'.paths) [] st'.fs
      = some (st'.fs, FS.countFiles st'.fs, 0) :=
    sweepDir_allKept
      (allKept_mono (fun x hx => List.mem_append_left _ hx) hak)
  have hN : st'.downloaded = msgs.length := by
    rw [hd]
    simp
  have hA : st'.alreadyExisting = 0 := ha
  refine ⟨⟨st'.fs, st'.downloaded, st'.alreadyExisting,
    FS.countFiles st'.fs, 0, st'.dupWarnings, augment st'.paths,
    st'.downloaded + st'.alreadyExisting == FS.countFiles st'.fs⟩,
    ?_, hN, hA, ?_, rfl, ?_⟩
  · simp only [backup_imap]
    rw [hrun]
    simp only
    rw [hsw]
  · rw [hcf, hN]
  · rw [hcf, hA, hN]
    simp

/-- C1 witness: the one-message clean run at the concrete fixture; premises
discharged by evaluation. -/
theorem C1_witness :
    ∃ r, backup_imap exPd exFetch (.ok [exMsg1]) "_deleted" FS.nil
        = .ok r ∧
      r.downloaded = 1 ∧ r.alreadyExisting = 0 ∧ r.kept = 1 ∧
      r.movedToQuarantine = 0 ∧ r.verdictSuccess = true := by
  obtain ⟨r, h1, h2, h3, h4, h5, h6⟩ :=
    @C1_amended exPd exFetch [exMsg1] "_deleted"
      (by
        intro m hm
        rw [List.mem_singleton] at hm
        subst hm
        exact ⟨exPath1, rfl, by decide, ⟨exMsg1, exMime⟩, [], _, rfl, rfl,
          rfl⟩)
      (by simp)
  exact ⟨r, h1, h2, h3, h4, h5, h6⟩

end ImapUtils
